import Mathlib

/-!
# Extended page tables of the nested hypervisor (`ept.cpp`)

A shallow embedding of the EPT code of HyperPlatform: the index codec, the
entry allocator, the table constructor and destructor, initialization,
termination and the EPT-violation dispatcher, followed by the properties
proved about them.

Conventions of the embedding.

* Machine words are natural numbers; 64-bit arithmetic that can wrap is
  reduced with `u64`, the 32-bit `long` counter is an integer wrapped by
  `InterlockedIncrement`.
* A pool block is named by a natural number, its handle.  For a page-sized
  block the handle is the page frame number of the block, so that
  `UtilPaFromVa` multiplies by the page size and `UtilVaFromPfn` is the
  identity.  A null pointer is `none`.
* Table memory is `Kernel.tables : handle → slot → entry`.  The kernel pool is
  an oracle: `Kernel.pool` lists the answers `ExAllocatePoolWithTag` is going
  to give, `none` being a failed allocation.  `Kernel.allocated` and
  `Kernel.freed` log the blocks handed out and given back.
* `NT_ASSERT` and `NT_VERIFY` are compiled out of free builds and stop a
  checked build.  The embedding runs the free-build code and counts in
  `Kernel.assertion_failures` the assertions a checked build would have
  tripped; a run that leaves the count unchanged is also a checked-build run.
* A bug check never returns: it is the error of `Except Fault`.
-/

namespace Ept

/-! ## Constants -/

def kVmxpPxiShift : Nat := 39

def kVmxpPpiShift : Nat := 30

def kVmxpPdiShift : Nat := 21

def kVmxpPtiShift : Nat := 12

def kVmxpPtxMask : Nat := 0x1ff

def kVmxpNumberOfPreallocatedEntries : Nat := 50

def PAGE_SIZE : Nat := 4096

/-- Value of `memory_type::kWriteBack`. -/
def kWriteBack : Nat := 6

/-- Reduction of a natural number to an unsigned 64-bit word. -/
def u64 (n : Nat) : Nat := n % 2 ^ 64

/-! ## Types -/

/-- The union `EptCommonEntry`, field by field (`ia32_type.h` gives the widths
1, 1, 1, 3, 6, 36 and 16 bits, from bit 0 upwards). -/
structure EptCommonEntry where
  read_access : Bool
  write_access : Bool
  execute_access : Bool
  memory_type : Nat
  reserved1 : Nat
  physial_address : Nat
  reserved2 : Nat
deriving DecidableEq, Repr

/-- The member `all` of the union: the 64-bit word holding the fields. -/
def EptCommonEntry.all (e : EptCommonEntry) : Nat :=
  e.read_access.toNat + 2 * e.write_access.toNat + 4 * e.execute_access.toNat
    + 8 * e.memory_type + 64 * e.reserved1 + 4096 * e.physial_address
    + 2 ^ 48 * e.reserved2

/-- An entry of zeroed memory. -/
def EptCommonEntry.zero : EptCommonEntry :=
  ⟨false, false, false, 0, 0, 0, 0⟩

/-- The union `EptPointer`, field by field (widths 3, 3, 1, 5, 36, 16). -/
structure EptPointer where
  memory_type : Nat
  page_walk_length : Nat
  enable_accessed_and_dirty_flags : Bool
  reserved1 : Nat
  pml4_address : Nat
  reserved2 : Nat
deriving DecidableEq, Repr

/-- The member `all` of `EptPointer`. -/
def EptPointer.all (p : EptPointer) : Nat :=
  p.memory_type + 8 * p.page_walk_length
    + 64 * p.enable_accessed_and_dirty_flags.toNat + 128 * p.reserved1
    + 4096 * p.pml4_address + 2 ^ 48 * p.reserved2

def EptPointer.zero : EptPointer := ⟨0, 0, false, 0, 0, 0⟩

/-- One run of the physical memory descriptor. -/
structure PhysicalMemoryRun where
  base_page : Nat
  page_count : Nat
deriving DecidableEq, Repr

/-- The fields of `EptViolationQualification` read by the dispatcher. -/
structure EptViolationQualification where
  read_access : Bool
  write_access : Bool
  execute_access : Bool
  ept_readable : Bool
  ept_writeable : Bool
  ept_executable : Bool
  valid_guest_linear_address : Bool
  caused_by_translation : Bool
deriving DecidableEq, Repr

/-- The struct `EptData`.  `self` is the block of the struct, `ept_pointer` the
block of the EPT pointer page and `ept_pointer_value` what that page holds,
`preallocated_entries` the block of the pointer array and `preallocated_array`
its slots. -/
structure EptData where
  self : Nat
  ept_pointer : Nat
  ept_pointer_value : EptPointer
  ept_pml4 : Nat
  preallocated_entries : Nat
  preallocated_array : List (Option Nat)
  preallocated_entries_count : Int
deriving DecidableEq, Repr

/-- Ways in which a call does not return. -/
inductive Fault where
  | exhaustedPreallocatedEntries (count : Int)
  | invalidRead (index : Int)
deriving DecidableEq, Repr

/-- Kernel state seen by the EPT code. -/
structure Kernel where
  tables : Nat → Nat → EptCommonEntry
  pool : List (Option Nat)
  allocated : List Nat
  freed : List Nat
  failed : Nat
  assertion_failures : Nat

/-- Calls made to collaborators, in order. -/
inductive Event where
  | inveptAll
  | shHandleEptViolation (sh_data shared_sh_data : Nat) (ept_data : EptData)
      (fault_va : Option Nat)
  | dbgPrint (fault_va : Option Nat) (fault_pa : Nat)
deriving DecidableEq, Repr

/-! ## Kernel services -/

/-- Model of `ExAllocatePoolWithTag`: the next answer of the oracle. -/
def ExAllocatePoolWithTag (k : Kernel) : Option Nat × Kernel :=
  match k.pool with
  | [] => (none, { k with failed := k.failed + 1 })
  | none :: rest => (none, { k with pool := rest, failed := k.failed + 1 })
  | some a :: rest => (some a, { k with pool := rest, allocated := a :: k.allocated })

/-- Model of `ExFreePoolWithTag`. -/
def ExFreePoolWithTag (p : Nat) (k : Kernel) : Kernel :=
  { k with freed := p :: k.freed }

/-- Model of `RtlZeroMemory` on a block that holds a table. -/
def RtlZeroMemory (table : Nat) (k : Kernel) : Kernel :=
  { k with tables := fun t i => if t = table then EptCommonEntry.zero else k.tables t i }

/-- Store to `table[index]`. -/
def Kernel.store (k : Kernel) (table index : Nat) (e : EptCommonEntry) : Kernel :=
  { k with tables := fun t i => if t = table ∧ i = index then e else k.tables t i }

/-- A failed `NT_ASSERT` or `NT_VERIFY`. -/
def Kernel.assertFailed (k : Kernel) : Kernel :=
  { k with assertion_failures := k.assertion_failures + 1 }

/-- Model of `UtilPaFromVa` on a page-sized block. -/
def UtilPaFromVa (va : Nat) : Nat := u64 (va * PAGE_SIZE)

/-- Model of `UtilPfnFromPa`. -/
def UtilPfnFromPa (pa : Nat) : Nat := pa >>> 12

/-- Model of `UtilVaFromPfn`. -/
def UtilVaFromPfn (pfn : Nat) : Nat := pfn

/-- Model of `UtilIsInBounds`: the inclusive range test. -/
def UtilIsInBounds (value min max : Nat) : Bool :=
  decide (min ≤ value) && decide (value ≤ max)

/-- Model of `InterlockedIncrement` on a `long`: add one, wrap to 32 bits. -/
def InterlockedIncrement (v : Int) : Int :=
  (v + 1 + 2 ^ 31) % 2 ^ 32 - 2 ^ 31

/-! ## Index codec -/

def EptpAddressToPxeIndex (physical_address : Nat) : Nat :=
  (physical_address >>> kVmxpPxiShift) &&& kVmxpPtxMask

def EptpAddressToPpeIndex (physical_address : Nat) : Nat :=
  (physical_address >>> kVmxpPpiShift) &&& kVmxpPtxMask

def EptpAddressToPdeIndex (physical_address : Nat) : Nat :=
  (physical_address >>> kVmxpPdiShift) &&& kVmxpPtxMask

def EptpAddressToPteIndex (physical_address : Nat) : Nat :=
  (physical_address >>> kVmxpPtiShift) &&& kVmxpPtxMask

def EptpIsDeviceMemory (pm_ranges : List PhysicalMemoryRun) (physical_address : Nat) : Bool :=
  match pm_ranges with
  | [] => true
  | current_run :: rest =>
    let base_addr := u64 (current_run.base_page * PAGE_SIZE)
    let endAddr := u64 (base_addr + u64 (current_run.page_count * PAGE_SIZE) + (2 ^ 64 - 1))
    if UtilIsInBounds physical_address base_addr endAddr then false
    else EptpIsDeviceMemory rest physical_address

/-! ## Entry allocator -/

def EptpAllocateEptEntryFromPreAllocated (ept_data : EptData) :
    Except Fault (Option Nat × EptData) :=
  let count := InterlockedIncrement ept_data.preallocated_entries_count
  let ept_data1 := { ept_data with preallocated_entries_count := count }
  if count > kVmxpNumberOfPreallocatedEntries then
    .error (.exhaustedPreallocatedEntries count)
  else if 0 ≤ count - 1 ∧ (count - 1).toNat < ept_data.preallocated_array.length then
    .ok (ept_data.preallocated_array.getD (count - 1).toNat none, ept_data1)
  else .error (.invalidRead (count - 1))

def EptpAllocateEptEntryFromPool (k : Kernel) : Option Nat × Kernel :=
  match ExAllocatePoolWithTag k with
  | (none, k1) => (none, k1)
  | (some entry, k1) => (some entry, RtlZeroMemory entry k1)

def EptpAllocateEptEntry (ept_data : Option EptData) (k : Kernel) :
    Except Fault (Option Nat × Option EptData × Kernel) :=
  match ept_data with
  | some d =>
    match EptpAllocateEptEntryFromPreAllocated d with
    | .error f => .error f
    | .ok (entry, d1) => .ok (entry, some d1, k)
  | none =>
    match EptpAllocateEptEntryFromPool k with
    | (entry, k1) => .ok (entry, none, k1)

def EptpInitTableEntry (entry : EptCommonEntry) (table_level physical_address : Nat) :
    EptCommonEntry :=
  { entry with
    read_access := true
    write_access := true
    execute_access := true
    physial_address := UtilPfnFromPa physical_address % 2 ^ 36
    memory_type := if table_level = 1 then kWriteBack else entry.memory_type }

/-! ## Table constructor and lookup -/

/-- The block repeated in cases 4, 3 and 2 of `EptpConstructTables`: fill the
slot `table[index]` when it is empty and give the table the slot points to.
The table is `none` when the allocation failed. -/
def EptpConstructTables.enter (table table_level index : Nat) (ept_data : Option EptData)
    (k : Kernel) : Except Fault (Option Nat × Option EptData × Kernel) :=
  if (k.tables table index).all = 0 then
    match EptpAllocateEptEntry ept_data k with
    | .error f => .error f
    | .ok (none, d1, k1) => .ok (none, d1, k1)
    | .ok (some sub, d1, k1) =>
      let k2 := k1.store table index
        (EptpInitTableEntry (k1.tables table index) table_level (UtilPaFromVa sub))
      .ok (some (UtilVaFromPfn (k2.tables table index).physial_address), d1, k2)
  else .ok (some (UtilVaFromPfn (k.tables table index).physial_address), ept_data, k)

/-- A pointer to an entry is the table and the slot.  The switch on
`table_level` is a chain of tests; every recursive call is at
`table_level - 1`. -/
def EptpConstructTables : (table_level : Nat) → (table physical_address : Nat) →
    Option EptData → Kernel → Except Fault (Option (Nat × Nat) × Option EptData × Kernel)
  | 0, _, _, ept_data, k => .ok (none, ept_data, k)
  | level + 1, table, physical_address, ept_data, k =>
    if level + 1 = 4 then
      match EptpConstructTables.enter table 4 (EptpAddressToPxeIndex physical_address)
          ept_data k with
      | .error f => .error f
      | .ok (none, d1, k1) => .ok (none, d1, k1)
      | .ok (some ept_pdpt, d1, k1) => EptpConstructTables level ept_pdpt physical_address d1 k1
    else if level + 1 = 3 then
      match EptpConstructTables.enter table 3 (EptpAddressToPpeIndex physical_address)
          ept_data k with
      | .error f => .error f
      | .ok (none, d1, k1) => .ok (none, d1, k1)
      | .ok (some ept_pdt, d1, k1) => EptpConstructTables level ept_pdt physical_address d1 k1
    else if level + 1 = 2 then
      match EptpConstructTables.enter table 2 (EptpAddressToPdeIndex physical_address)
          ept_data k with
      | .error f => .error f
      | .ok (none, d1, k1) => .ok (none, d1, k1)
      | .ok (some ept_pt, d1, k1) => EptpConstructTables level ept_pt physical_address d1 k1
    else if level + 1 = 1 then
      let pte_index := EptpAddressToPteIndex physical_address
      let k1 := if (k.tables table pte_index).all = 0 then k else k.assertFailed
      let k2 := k1.store table pte_index
        (EptpInitTableEntry (k1.tables table pte_index) 1 physical_address)
      .ok (some (table, pte_index), ept_data, k2)
    else .ok (none, ept_data, k)

def EptpGetEptPtEntry (k : Kernel) : (table_level : Nat) → (table physical_address : Nat) →
    Option (Nat × Nat)
  | 0, _, _ => none
  | level + 1, table, physical_address =>
    if level + 1 = 4 then
      EptpGetEptPtEntry k level
        (UtilVaFromPfn (k.tables table (EptpAddressToPxeIndex physical_address)).physial_address)
        physical_address
    else if level + 1 = 3 then
      EptpGetEptPtEntry k level
        (UtilVaFromPfn (k.tables table (EptpAddressToPpeIndex physical_address)).physial_address)
        physical_address
    else if level + 1 = 2 then
      EptpGetEptPtEntry k level
        (UtilVaFromPfn (k.tables table (EptpAddressToPdeIndex physical_address)).physial_address)
        physical_address
    else if level + 1 = 1 then some (table, EptpAddressToPteIndex physical_address)
    else none

def EptGetEptPtEntry (k : Kernel) (ept_data : EptData) (physical_address : Nat) :
    Option (Nat × Nat) :=
  EptpGetEptPtEntry k 4 ept_data.ept_pml4 physical_address

/-! ## Table destructor -/

/-- The loop over the 512 slots carries the kernel state; level 0 is the level
at which no case of the switch can recurse. -/
def EptpDestructTables : (table_level : Nat) → (table : Nat) → Kernel → Kernel
  | 0, table, k => ExFreePoolWithTag table k
  | level + 1, table, k =>
    let k1 := (List.range 512).foldl (fun k i =>
      let entry := k.tables table i
      if entry.physial_address ≠ 0 then
        let sub_table := UtilVaFromPfn entry.physial_address
        if level + 1 = 4 ∨ level + 1 = 3 then EptpDestructTables level sub_table k
        else if level + 1 = 2 then ExFreePoolWithTag sub_table k
        else k
      else k) k
    ExFreePoolWithTag table k1

/-- The loop of `EptpFreeUnusedPreAllocatedEntries`, `n` iterations at most. -/
def EptpFreeUnusedPreAllocatedEntries.loop (preallocated_array : List (Option Nat)) :
    (n : Nat) → (i : Int) → Kernel → Except Fault Kernel
  | 0, _, k => .ok k
  | n + 1, i, k =>
    if i < 0 then .error (.invalidRead i)
    else
      match preallocated_array.getD i.toNat none with
      | none => .ok k
      | some entry =>
        EptpFreeUnusedPreAllocatedEntries.loop preallocated_array n (i + 1)
          (ExFreePoolWithTag entry k)

def EptpFreeUnusedPreAllocatedEntries (preallocated_entries : Nat)
    (preallocated_array : List (Option Nat)) (used_count : Int) (k : Kernel) :
    Except Fault Kernel :=
  match EptpFreeUnusedPreAllocatedEntries.loop preallocated_array
      ((kVmxpNumberOfPreallocatedEntries : Int) - used_count).toNat used_count k with
  | .error f => .error f
  | .ok k1 => .ok (ExFreePoolWithTag preallocated_entries k1)

/-! ## Initialization and termination -/

def EptGetEptPointer (ept_data : EptData) : Nat :=
  ept_data.ept_pointer_value.all

/-- The inner loop of `EptInitialization` over the pages of one run; the
boolean tells whether every construction succeeded. -/
def EptInitialization.pages (ept_pml4 base_addr : Nat) :
    (remaining page_index : Nat) → Kernel → Except Fault (Bool × Kernel)
  | 0, _, k => .ok (true, k)
  | n + 1, page_index, k =>
    let indexed_addr := u64 (base_addr + page_index * PAGE_SIZE)
    match EptpConstructTables 4 ept_pml4 indexed_addr none k with
    | .error f => .error f
    | .ok (none, _, k1) => .ok (false, k1)
    | .ok (some _, _, k1) => EptInitialization.pages ept_pml4 base_addr n (page_index + 1) k1

/-- The outer loop of `EptInitialization` over the runs. -/
def EptInitialization.runs (ept_pml4 : Nat) :
    List PhysicalMemoryRun → Kernel → Except Fault (Bool × Kernel)
  | [], k => .ok (true, k)
  | run :: rest, k =>
    let base_addr := u64 (run.base_page * PAGE_SIZE)
    match EptInitialization.pages ept_pml4 base_addr run.page_count 0 k with
    | .error f => .error f
    | .ok (false, k1) => .ok (false, k1)
    | .ok (true, k1) => EptInitialization.runs ept_pml4 rest k1

/-- The loop of `EptInitialization` that fills the pre-allocated array. -/
def EptInitialization.fill :
    (remaining i : Nat) → List (Option Nat) → Kernel →
      Except Fault (Bool × List (Option Nat) × Kernel)
  | 0, _, preallocated_array, k => .ok (true, preallocated_array, k)
  | n + 1, i, preallocated_array, k =>
    match EptpAllocateEptEntry none k with
    | .error f => .error f
    | .ok (none, _, k1) => .ok (false, preallocated_array, k1)
    | .ok (some ept_entry, _, k1) =>
      EptInitialization.fill n (i + 1) (preallocated_array.set i (some ept_entry)) k1

/-- The three statements that follow every failure once the PML4 exists. -/
def EptInitialization.unwind (ept_pml4 ept_poiner ept_data : Nat) (k : Kernel) : Kernel :=
  ExFreePoolWithTag ept_data (ExFreePoolWithTag ept_poiner (EptpDestructTables 4 ept_pml4 k))

/-- The runs and the APIC base page number are what `EptInitialization` reads
from `UtilGetPhysicalMemoryRanges` and from the APIC base MSR. -/
def EptInitialization (pm_ranges : List PhysicalMemoryRun) (apic_base : Nat) (k : Kernel) :
    Except Fault (Option EptData × Kernel) :=
  match ExAllocatePoolWithTag k with
  | (none, k1) => .ok (none, k1)
  | (some ept_data, k1) =>
  match ExAllocatePoolWithTag k1 with
  | (none, k2) => .ok (none, ExFreePoolWithTag ept_data k2)
  | (some ept_poiner, k2) =>
  match ExAllocatePoolWithTag k2 with
  | (none, k3) => .ok (none, ExFreePoolWithTag ept_data (ExFreePoolWithTag ept_poiner k3))
  | (some ept_pml4, k3) =>
  let k4 := RtlZeroMemory ept_pml4 k3
  let pointer : EptPointer :=
    { EptPointer.zero with
      memory_type := kWriteBack % 8
      page_walk_length := (4 - 1) % 8
      pml4_address := UtilPfnFromPa (UtilPaFromVa ept_pml4) % 2 ^ 36 }
  match EptInitialization.runs ept_pml4 pm_ranges k4 with
  | .error f => .error f
  | .ok (false, k5) => .ok (none, EptInitialization.unwind ept_pml4 ept_poiner ept_data k5)
  | .ok (true, k5) =>
  match EptpConstructTables 4 ept_pml4 (u64 (apic_base * PAGE_SIZE)) none k5 with
  | .error f => .error f
  | .ok (none, _, k6) => .ok (none, EptInitialization.unwind ept_pml4 ept_poiner ept_data k6)
  | .ok (some _, _, k6) =>
  match ExAllocatePoolWithTag k6 with
  | (none, k7) => .ok (none, EptInitialization.unwind ept_pml4 ept_poiner ept_data k7)
  | (some preallocated_entries, k7) =>
  match EptInitialization.fill kVmxpNumberOfPreallocatedEntries 0
      (List.replicate kVmxpNumberOfPreallocatedEntries none) k7 with
  | .error f => .error f
  | .ok (false, preallocated_array, k8) =>
    match EptpFreeUnusedPreAllocatedEntries preallocated_entries preallocated_array 0 k8 with
    | .error f => .error f
    | .ok k9 => .ok (none, EptInitialization.unwind ept_pml4 ept_poiner ept_data k9)
  | .ok (true, preallocated_array, k8) =>
    .ok (some
      { self := ept_data
        ept_pointer := ept_poiner
        ept_pointer_value := pointer
        ept_pml4 := ept_pml4
        preallocated_entries := preallocated_entries
        preallocated_array := preallocated_array
        preallocated_entries_count := 0 }, k8)

def EptTermination (ept_data : EptData) (k : Kernel) : Except Fault Kernel :=
  match EptpFreeUnusedPreAllocatedEntries ept_data.preallocated_entries
      ept_data.preallocated_array ept_data.preallocated_entries_count k with
  | .error f => .error f
  | .ok k1 =>
    .ok (ExFreePoolWithTag ept_data.self
      (ExFreePoolWithTag ept_data.ept_pointer (EptpDestructTables 4 ept_data.ept_pml4 k1)))

/-! ## Violation dispatcher -/

/-- The body of the first branch of `EptHandleEptViolation`, the entry miss. -/
def EptHandleEptViolation.miss (pm_ranges : List PhysicalMemoryRun) (ept_data : EptData)
    (k : Kernel) (fault_pa : Nat) : Except Fault (EptData × Kernel × List Event) :=
  let k1 := if EptpIsDeviceMemory pm_ranges fault_pa then k else k.assertFailed
  match EptpConstructTables 4 ept_data.ept_pml4 fault_pa (some ept_data) k1 with
  | .error f => .error f
  | .ok (_, d1, k2) => .ok (d1.getD ept_data, k2, [Event.inveptAll])

/-- The qualification, the guest physical address and the guest linear address
are what the dispatcher reads from the VMCS. -/
def EptHandleEptViolation (pm_ranges : List PhysicalMemoryRun) (ept_data : EptData)
    (sh_data shared_sh_data : Nat) (k : Kernel)
    (exit_qualification : EptViolationQualification) (fault_pa guest_linear_address : Nat) :
    Except Fault (EptData × Kernel × List Event) :=
  let fault_va :=
    if exit_qualification.valid_guest_linear_address then some guest_linear_address else none
  if !exit_qualification.ept_readable && !exit_qualification.ept_writeable &&
      !exit_qualification.ept_executable then
    EptHandleEptViolation.miss pm_ranges ept_data k fault_pa
  else if exit_qualification.caused_by_translation then
    let read_failure := exit_qualification.read_access && !exit_qualification.ept_readable
    let write_failure := exit_qualification.write_access && !exit_qualification.ept_writeable
    let execute_failure :=
      exit_qualification.execute_access && !exit_qualification.ept_executable
    if read_failure || write_failure || execute_failure then
      .ok (ept_data, k, [Event.shHandleEptViolation sh_data shared_sh_data ept_data fault_va])
    else .ok (ept_data, k, [Event.dbgPrint fault_va fault_pa])
  else .ok (ept_data, k, [Event.dbgPrint fault_va fault_pa])


/-! ## Notions used to state the properties -/

/-- The addresses of the `page_count` pages of a run, the first of which
starts at `base_page * PAGE_SIZE`. -/
def PhysicalMemoryRun.covers (run : PhysicalMemoryRun) (physical_address : Nat) : Prop :=
  run.base_page * PAGE_SIZE ≤ physical_address ∧
    physical_address < (run.base_page + run.page_count) * PAGE_SIZE

instance (run : PhysicalMemoryRun) (physical_address : Nat) :
    Decidable (run.covers physical_address) := by
  unfold PhysicalMemoryRun.covers; infer_instance

/-- A sequence of runtime-context allocation requests against one `EptData`.
Every request is one atomic step; `cpus` names the processor that issues each
request, in the order in which the increments take effect.  The result pairs
every processor with the entry it received. -/
def allocationRequests : List Nat → EptData → Except Fault (List (Nat × Option Nat) × EptData)
  | [], d => .ok ([], d)
  | cpu :: rest, d =>
    match EptpAllocateEptEntryFromPreAllocated d with
    | .error f => .error f
    | .ok (entry, d1) =>
      match allocationRequests rest d1 with
      | .error f => .error f
      | .ok (entries, d2) => .ok ((cpu, entry) :: entries, d2)

/-- The table reached from `table` by following the slots of `path`, one
level down per slot; a slot is followed when its index is below 512 and the
entry is not zero (the test `entry->all` of the constructor). -/
def walk (k : Kernel) : Nat → List Nat → Option Nat
  | table, [] => some table
  | table, i :: rest =>
    if i < 512 ∧ (k.tables table i).all ≠ 0 then
      walk k (UtilVaFromPfn (k.tables table i).physial_address) rest
    else none

/-- The three selectors that lead from the PML4 to the page table of an
address. -/
def pathOf (physical_address : Nat) : List Nat :=
  [EptpAddressToPxeIndex physical_address, EptpAddressToPpeIndex physical_address,
    EptpAddressToPdeIndex physical_address]

/-- The tables the next allocations hand out, in order: the blocks the kernel
pool is going to return in initialization context, the pool entries from the
consumption counter onwards in runtime context. -/
def upcoming (ept_data : Option EptData) (k : Kernel) : List Nat :=
  match ept_data with
  | none => k.pool.reduceOption
  | some d => (d.preallocated_array.drop d.preallocated_entries_count.toNat).reduceOption

/-- In runtime context the counter is between 0 and the capacity, the array
has the 50 slots and the pool entries not yet consumed are zeroed tables. -/
def PoolZeroed (ept_data : Option EptData) (k : Kernel) : Prop :=
  ∀ d, ept_data = some d →
    0 ≤ d.preallocated_entries_count ∧
    d.preallocated_entries_count ≤ kVmxpNumberOfPreallocatedEntries ∧
    d.preallocated_array.length = kVmxpNumberOfPreallocatedEntries ∧
    ∀ t ∈ upcoming ept_data k, ∀ i, k.tables t i = EptCommonEntry.zero

/-- Shape of the tree under the PML4 `root`.  `owned` lists the tables of the
tree, `fresh` the tables the allocator may still hand out.
* `inj`: no table is reached along two paths (of at most three slots);
* `reach`: the tables reached along some path are those of `owned`;
* `nodup`: the tables of `owned` and `fresh` are pairwise distinct;
* `range`: their frame numbers are not zero and fit the 36-bit field. -/
structure TreeInv (k : Kernel) (root : Nat) (owned fresh : List Nat) : Prop where
  inj : ∀ p q t, p.length ≤ 3 → q.length ≤ 3 →
    walk k root p = some t → walk k root q = some t → p = q
  reach : ∀ t, (∃ p, p.length ≤ 3 ∧ walk k root p = some t) ↔ t ∈ owned
  nodup : (owned ++ fresh).Nodup
  range : ∀ t ∈ owned ++ fresh, 0 < t ∧ t < 2 ^ 36

/-- A tree is well formed for an allocation context when it has the shape of
`TreeInv` with respect to the tables that context hands out. -/
def WellFormed (k : Kernel) (root : Nat) (ept_data : Option EptData) : Prop :=
  (∃ owned, TreeInv k root owned (upcoming ept_data k)) ∧ PoolZeroed ept_data k

/-- The pass-through leaf of an address: read, write and execute granted,
write-back, frame number the 36 bits from bit 12 of the address. -/
def IsLeafFor (e : EptCommonEntry) (physical_address : Nat) : Prop :=
  e.read_access = true ∧ e.write_access = true ∧ e.execute_access = true ∧
    e.memory_type = kWriteBack ∧ e.physial_address = (physical_address >>> 12) % 2 ^ 36

/-- What a call of `EptpConstructTables` on a well-formed tree leaves behind,
in terms of the state `k` before and the state `k1` after: the tree keeps its
shape, the tables linked in are the first upcoming ones, every walk of the old
tree is a walk of the new one, no slot of an old page table changes but the
slot of the address, and a returned entry is that slot, reached along the path
of the address and holding the pass-through leaf. -/
def ConstructPost (k : Kernel) (root : Nat) (owned : List Nat) (ept_data : Option EptData)
    (physical_address : Nat) (r : Option (Nat × Nat)) (ed1 : Option EptData) (k1 : Kernel) :
    Prop :=
  ∃ new, TreeInv k1 root (new ++ owned) (upcoming ed1 k1) ∧ PoolZeroed ed1 k1 ∧
    (ed1 = none ↔ ept_data = none) ∧
    upcoming ept_data k = new.reverse ++ upcoming ed1 k1 ∧
    (∀ q x, q.length ≤ 3 → walk k root q = some x → walk k1 root q = some x) ∧
    (∀ q x j, q.length = 3 → walk k root q = some x →
      ¬ (q = pathOf physical_address ∧ j = EptpAddressToPteIndex physical_address) →
      k1.tables x j = k.tables x j) ∧
    (∀ slot, r = some slot → ∃ t1, slot = (t1, EptpAddressToPteIndex physical_address) ∧
      walk k1 root (pathOf physical_address) = some t1 ∧
      IsLeafFor (k1.tables t1 (EptpAddressToPteIndex physical_address)) physical_address)

/-- The leaf of an address is in place: the path of the address exists and
the slot of the address in its page table holds the pass-through leaf. -/
def Mapped (k : Kernel) (root physical_address : Nat) : Prop :=
  ∃ t1, walk k root (pathOf physical_address) = some t1 ∧
    IsLeafFor (k.tables t1 (EptpAddressToPteIndex physical_address)) physical_address

/-- A stretch of `EptInitialization` that builds mappings, from the state `k`
in which the tree is made of the tables `owned` to the state `k1`; `ok` tells
whether every allocation succeeded.  The tree keeps its shape, the tables
added are the blocks allocated, in order, nothing is freed, exactly one
allocation failed when `ok` is false, and when `ok` is true none failed and
the leaves in place stay in place. -/
def InitStep (root : Nat) (k : Kernel) (owned : List Nat) (ok : Bool) (k1 : Kernel) : Prop :=
  ∃ new, TreeInv k1 root (new ++ owned) (upcoming none k1) ∧
    k1.allocated = new ++ k.allocated ∧
    upcoming none k = new.reverse ++ upcoming none k1 ∧
    k1.freed = k.freed ∧
    (ok = true → k1.failed = k.failed ∧ ∀ pa, Mapped k root pa → Mapped k1 root pa) ∧
    (ok = false → k1.failed = k.failed + 1)

/-- Bookkeeping of a call in initialization context from `k` to `k1`: nothing
is freed, blocks move from the pool oracle to the allocation log, and an
allocation failed exactly when `some_result` is false. -/
def InitLogs (k : Kernel) (some_result : Bool) (k1 : Kernel) : Prop :=
  k1.freed = k.freed ∧
    k1.allocated.reverse ++ k1.pool.reduceOption = k.allocated.reverse ++ k.pool.reduceOption ∧
    (some_result = true → k1.failed = k.failed) ∧
    (some_result = false → k1.failed = k.failed + 1)

/-- The kernel pool hands out pairwise distinct blocks whose frame numbers are
not zero and fit the 36-bit field of an entry. -/
def PoolOracleOk (k : Kernel) : Prop :=
  k.pool.reduceOption.Nodup ∧ ∀ t ∈ k.pool.reduceOption, 0 < t ∧ t < 2 ^ 36

instance (k : Kernel) : Decidable (PoolOracleOk k) := by
  unfold PoolOracleOk; infer_instance

/-- Every present slot of a page table of the tree is the pass-through leaf
of one of the addresses of `S`, in the page table the path of that address
leads to. -/
def Leaves (k : Kernel) (root : Nat) (S : List Nat) : Prop :=
  ∀ q t1 j, q.length = 3 → walk k root q = some t1 → (k.tables t1 j).all ≠ 0 →
    ∃ pa ∈ S, q = pathOf pa ∧ j = EptpAddressToPteIndex pa ∧ IsLeafFor (k.tables t1 j) pa

/-- The addresses the inner loop of `EptInitialization` constructs for one
run, from the page index `i` on, `n` of them. -/
def EptInitialization.pageAddresses (base_addr n i : Nat) : List Nat :=
  (List.range n).map (fun j => u64 (base_addr + (i + j) * PAGE_SIZE))

/-- The addresses `EptInitialization` constructs: the pages of the runs, run
by run, and then the APIC base page. -/
def EptInitialization.addresses (pm_ranges : List PhysicalMemoryRun) (apic_base : Nat) :
    List Nat :=
  pm_ranges.flatMap
    (fun run => EptInitialization.pageAddresses (u64 (run.base_page * PAGE_SIZE)) run.page_count 0)
    ++ [u64 (apic_base * PAGE_SIZE)]

/-- What a successful `EptInitialization` leaves, from the state `k0` to the
state `k1` with the returned `EptData`: a tree and a pool well formed for
runtime context, the counter at 0, the EPT pointer, the 50 pool tables `L`,
the blocks allocated (pool tables, pointer array, tree tables, pointer page,
`EptData`), nothing freed, no allocation failed, the leaves of every page
of every run and of the APIC page in place, and no other leaf. -/
structure Initialized (k0 k1 : Kernel) (d : EptData) (pm_ranges : List PhysicalMemoryRun)
    (apic_base : Nat) : Prop where
  wellFormed : WellFormed k1 d.ept_pml4 (some d)
  count : d.preallocated_entries_count = 0
  pointer : d.ept_pointer_value = ⟨kWriteBack, 3, false, 0, d.ept_pml4, 0⟩
  pool : ∃ L owned, d.preallocated_array = L.map some ∧
    L.length = kVmxpNumberOfPreallocatedEntries ∧ TreeInv k1 d.ept_pml4 owned L ∧
    k1.allocated = L.reverse ++ d.preallocated_entries :: (owned ++ [d.ept_pointer, d.self])
  freed : k1.freed = k0.freed
  failed : k1.failed = k0.failed
  runs : ∀ run ∈ pm_ranges, ∀ j, j < run.page_count →
    Mapped k1 d.ept_pml4 (u64 (u64 (run.base_page * PAGE_SIZE) + j * PAGE_SIZE))
  apic : Mapped k1 d.ept_pml4 (u64 (apic_base * PAGE_SIZE))
  leaves : Leaves k1 d.ept_pml4 (EptInitialization.addresses pm_ranges apic_base)

/-- The blocks `EptpDestructTables` frees below and at `table`, in the order
of the calls, `height` being the number of table levels it descends. -/
def subtree (tables : Nat → Nat → EptCommonEntry) : (height : Nat) → (table : Nat) → List Nat
  | 0, table => [table]
  | height + 1, table =>
    ((List.range 512).filter (fun i => decide ((tables table i).physial_address ≠ 0))).flatMap
      (fun i => subtree tables height (UtilVaFromPfn (tables table i).physial_address))
      ++ [table]

/-- A kernel whose table memory is zero and whose pool answers with the
blocks `first`, `first + 1`, ..., `count` times, and then fails. -/
def sampleKernel (first count : Nat) : Kernel :=
  ⟨fun _ _ => EptCommonEntry.zero, (List.range count).map (fun i => some (first + i)), [], [], 0, 0⟩

/-- An `EptData` whose PML4 is block 1 and whose pool holds blocks 2 to 51,
with `used` of them consumed. -/
def sampleData (used : Int) : EptData :=
  ⟨100, 101, EptPointer.zero, 1, 102, (List.range 50).map (fun i => some (i + 2)), used⟩

/-- The four selectors of an address, from the PML4 down to the page table. -/
def selectors (physical_address : Nat) : List Nat :=
  pathOf physical_address ++ [EptpAddressToPteIndex physical_address]

/-- The slot `(a, j)` is the slot that the walk of the address reads at depth
`n`: depth 0 is the PML4, depth 3 the page table. -/
def OnPathAt (k : Kernel) (root physical_address n a j : Nat) : Prop :=
  n ≤ 3 ∧ walk k root ((pathOf physical_address).take n) = some a ∧
    (selectors physical_address)[n]? = some j

/-- Effect on table memory of a call of `EptpConstructTables` for the address
`pa` that has worked on the depths below `n`, from the state `k0` to the state
`k1`, `new` being the tables it linked in.
* `kept`: every walk of the old tree is a walk of the new tree;
* `reflected`: a walk of the new tree is a walk of the old tree, or leads to a
  new table along the path of the address;
* `old_slots`: a slot of a table that is not new changes only where the walk of
  the address reads it, at a depth below `n`; above the page table the slot was
  zero before, in the page table it is the old entry made a leaf;
* `new_slots`: a new table is zero but for the slot the walk of the address
  reads;
* `freed`: nothing is freed. -/
structure Descent (k0 : Kernel) (root pa n : Nat) (k1 : Kernel) (new : List Nat) : Prop where
  kept : ∀ q x, q.length ≤ 3 → walk k0 root q = some x → walk k1 root q = some x
  reflected : ∀ q x, q.length ≤ 3 → walk k1 root q = some x →
    walk k0 root q = some x ∨ (x ∈ new ∧ ∃ m, 0 < m ∧ m ≤ n ∧ m ≤ 3 ∧ q = (pathOf pa).take m)
  old_slots : ∀ a j, a ∉ new → k1.tables a j ≠ k0.tables a j →
    ∃ m, m < n ∧ OnPathAt k1 root pa m a j ∧ (m < 3 → (k0.tables a j).all = 0) ∧
      (m = 3 → k1.tables a j = EptpInitTableEntry (k0.tables a j) 1 pa)
  new_slots : ∀ a j, a ∈ new → k1.tables a j ≠ EptCommonEntry.zero →
    ∃ m, m < n ∧ OnPathAt k1 root pa m a j ∧
      (m = 3 → k1.tables a j = EptpInitTableEntry EptCommonEntry.zero 1 pa)
  freed : k1.freed = k0.freed

/-- The leaf slot of an address is empty: when the path of the address
exists, the slot of the address in its page table is zero. -/
def LeafEmpty (k : Kernel) (root physical_address : Nat) : Prop :=
  ∀ t1, walk k root (pathOf physical_address) = some t1 →
    (k.tables t1 (EptpAddressToPteIndex physical_address)).all = 0

/-- Frame of a call of `EptpConstructTables` from level 4 on a well-formed
tree, from the state `k` to the state `k1`: the call went `n` levels down
with the effect `Descent`, the tree keeps its shape, the tables linked in are
the first upcoming ones; a returned entry is the slot of the address in the
page table its path leads to, all four levels were worked on, and the
assertion of case 1 is tripped exactly when the leaf slot was not empty; a
null result comes from one of the three upper levels, whose slot is still
zero, and trips no assertion. -/
def ConstructFrame (k : Kernel) (root : Nat) (owned : List Nat) (ept_data : Option EptData)
    (physical_address : Nat) (r : Option (Nat × Nat)) (ed1 : Option EptData) (k1 : Kernel) :
    Prop :=
  ∃ new n, Descent k root physical_address n k1 new ∧
    TreeInv k1 root (new ++ owned) (upcoming ed1 k1) ∧ PoolZeroed ed1 k1 ∧
    upcoming ept_data k = new.reverse ++ upcoming ed1 k1 ∧
    (∀ slot, r = some slot → n = 4 ∧
      ∃ t1, slot = (t1, EptpAddressToPteIndex physical_address) ∧
        walk k1 root (pathOf physical_address) = some t1 ∧
        (LeafEmpty k root physical_address → k1.assertion_failures = k.assertion_failures) ∧
        (¬ LeafEmpty k root physical_address →
          k1.assertion_failures = k.assertion_failures + 1)) ∧
    (r = none → n ≤ 2 ∧ k1.assertion_failures = k.assertion_failures ∧
      ∃ t i, walk k1 root ((pathOf physical_address).take n) = some t ∧
        (selectors physical_address)[n]? = some i ∧ (k1.tables t i).all = 0)

/-- The state after `EptpConstructTables(pml4, 4, 0x1000, nullptr)` on the
empty tree of `sampleKernel 2 6`: the tables 2, 3 and 4 are linked in and the
leaf of the page `0x1000` is slot 1 of table 4. -/
def sampleMapped : Kernel :=
  ((EptpConstructTables 4 1 0x1000 none (sampleKernel 2 6)).toOption.map
    (fun r => r.2.2)).getD (sampleKernel 2 6)

/-- The recursive call of `EptpConstructTables` at level `L` on the table `T`
in the state `(E, K)` is reached from the call at `level` on `table` in the
state `(ed, k)`: at every level in between the slot of the address was
entered and led one level down. -/
inductive Reaches (pa : Nat) : Nat → Nat → Option EptData → Kernel →
    Nat → Nat → Option EptData → Kernel → Prop
  | here (level table : Nat) (ed : Option EptData) (k : Kernel) :
      Reaches pa level table ed k level table ed k
  | down {level table i sub : Nat} {ed ed1 : Option EptData} {k k1 : Kernel}
      {L T : Nat} {E : Option EptData} {K : Kernel}
      (hl : level = 3 ∨ level = 2 ∨ level = 1)
      (hi : (selectors pa)[3 - level]? = some i)
      (he : EptpConstructTables.enter table (level + 1) i ed k = .ok (some sub, ed1, k1))
      (hr : Reaches pa level sub ed1 k1 L T E K) :
      Reaches pa (level + 1) table ed k L T E K

/-- A call of `EptpConstructTables` from level 4 in the state `(ed0, k0)` has
gone `n` levels down to `table`, in the state `(ed, k)`: the effect so far is
`Descent`, the tree has its shape, the tables linked in are the first upcoming
ones, and no assertion was tripped. -/
def Descended (k0 : Kernel) (root : Nat) (owned : List Nat) (ed0 : Option EptData)
    (pa n table : Nat) (ed : Option EptData) (k : Kernel) : Prop :=
  ∃ new, Descent k0 root pa n k new ∧
    TreeInv k root (new ++ owned) (upcoming ed k) ∧ PoolZeroed ed k ∧
    upcoming ed0 k0 = new.reverse ++ upcoming ed k ∧
    k.assertion_failures = k0.assertion_failures ∧
    walk k root ((pathOf pa).take n) = some table

/-- The state in which the call `EptpConstructTables(pml4, 4, 0x1000, nullptr)`
on the empty tree of `sampleKernel 2 1` reaches level 3: the one block of the
kernel pool is linked in as table 2 and the pool is empty. -/
def sampleEntered : Kernel :=
  ((EptpConstructTables.enter 1 4 0 none (sampleKernel 2 1)).toOption.map
    (fun r => r.2.2)).getD (sampleKernel 2 1)

/-- A sequence of calls `EptpConstructTables(root, 4, address, ept_data)`, one
per address of the list, each in the state the call before it left.  The
sequence ends at the first call that returns null; the boolean tells whether
every call returned an entry. -/
def constructMany (root : Nat) :
    List Nat → Option EptData → Kernel → Except Fault (Bool × Option EptData × Kernel)
  | [], ept_data, k => .ok (true, ept_data, k)
  | physical_address :: rest, ept_data, k =>
    match EptpConstructTables 4 root physical_address ept_data k with
    | .error f => .error f
    | .ok (none, d1, k1) => .ok (false, d1, k1)
    | .ok (some _, d1, k1) => constructMany root rest d1 k1

/-- `EptpDestructTables` with a ghost log: every slot whose test
`entry.fields.physial_address` passes is put in front of the log when the
loop visits it.  The code is that of `EptpDestructTables`. -/
def EptpDestructTables.traced :
    (table_level : Nat) → (table : Nat) → Kernel × List (Nat × Nat) → Kernel × List (Nat × Nat)
  | 0, table, s => (ExFreePoolWithTag table s.1, s.2)
  | level + 1, table, s =>
    let s1 := (List.range 512).foldl (fun s i =>
      let entry := s.1.tables table i
      if entry.physial_address ≠ 0 then
        let sub_table := UtilVaFromPfn entry.physial_address
        if level + 1 = 4 ∨ level + 1 = 3 then
          EptpDestructTables.traced level sub_table (s.1, (table, i) :: s.2)
        else if level + 1 = 2 then (ExFreePoolWithTag sub_table s.1, (table, i) :: s.2)
        else (s.1, (table, i) :: s.2)
      else s) s
    (ExFreePoolWithTag table s1.1, s1.2)

/-- The slots `EptpDestructTables` finds present below and at `table`, in the
order of the visits. -/
def EptpDestructTables.visits (tables : Nat → Nat → EptCommonEntry) :
    (table_level : Nat) → (table : Nat) → List (Nat × Nat)
  | 0, _ => []
  | level + 1, table =>
    ((List.range 512).filter (fun i => decide ((tables table i).physial_address ≠ 0))).flatMap
      (fun i => (table, i) ::
        (if level + 1 = 4 ∨ level + 1 = 3 then
          EptpDestructTables.visits tables level (UtilVaFromPfn (tables table i).physial_address)
        else []))

/-- Bookkeeping of a stretch of runtime-context code from the state `(d, k)`
to the state `(ed1, k1)`: the `EptData` is still there and only its counter
may differ, and the kernel pool and the logs of allocations and frees are as
they were. -/
def RuntimeStep (d : EptData) (k : Kernel) (ed1 : Option EptData) (k1 : Kernel) : Prop :=
  (∃ c, ed1 = some { d with preallocated_entries_count := c }) ∧
    k1.allocated = k.allocated ∧ k1.freed = k.freed ∧ k1.pool = k.pool ∧ k1.failed = k.failed

/-- `EptpConstructTables` with a ghost log: every call puts its level in front
of the log on entry.  The code is that of `EptpConstructTables`; the default
branch of the switch is the branch of the levels outside 1 to 4. -/
def EptpConstructTables.traced : (table_level : Nat) → (table physical_address : Nat) →
    Option EptData → Kernel → List Nat →
    Except Fault (Option (Nat × Nat) × Option EptData × Kernel) × List Nat
  | 0, _, _, ept_data, k, log => (.ok (none, ept_data, k), 0 :: log)
  | level + 1, table, physical_address, ept_data, k, log =>
    if level + 1 = 4 then
      match EptpConstructTables.enter table 4 (EptpAddressToPxeIndex physical_address)
          ept_data k with
      | .error f => (.error f, (level + 1) :: log)
      | .ok (none, d1, k1) => (.ok (none, d1, k1), (level + 1) :: log)
      | .ok (some ept_pdpt, d1, k1) =>
        EptpConstructTables.traced level ept_pdpt physical_address d1 k1 ((level + 1) :: log)
    else if level + 1 = 3 then
      match EptpConstructTables.enter table 3 (EptpAddressToPpeIndex physical_address)
          ept_data k with
      | .error f => (.error f, (level + 1) :: log)
      | .ok (none, d1, k1) => (.ok (none, d1, k1), (level + 1) :: log)
      | .ok (some ept_pdt, d1, k1) =>
        EptpConstructTables.traced level ept_pdt physical_address d1 k1 ((level + 1) :: log)
    else if level + 1 = 2 then
      match EptpConstructTables.enter table 2 (EptpAddressToPdeIndex physical_address)
          ept_data k with
      | .error f => (.error f, (level + 1) :: log)
      | .ok (none, d1, k1) => (.ok (none, d1, k1), (level + 1) :: log)
      | .ok (some ept_pt, d1, k1) =>
        EptpConstructTables.traced level ept_pt physical_address d1 k1 ((level + 1) :: log)
    else if level + 1 = 1 then
      let pte_index := EptpAddressToPteIndex physical_address
      let k1 := if (k.tables table pte_index).all = 0 then k else k.assertFailed
      let k2 := k1.store table pte_index
        (EptpInitTableEntry (k1.tables table pte_index) 1 physical_address)
      (.ok (some (table, pte_index), ept_data, k2), (level + 1) :: log)
    else (.ok (none, ept_data, k), (level + 1) :: log)

/-- `EptpGetEptPtEntry` with a ghost log: every call puts its level in front
of the log on entry. -/
def EptpGetEptPtEntry.traced (k : Kernel) : (table_level : Nat) →
    (table physical_address : Nat) → List Nat → Option (Nat × Nat) × List Nat
  | 0, _, _, log => (none, 0 :: log)
  | level + 1, table, physical_address, log =>
    if level + 1 = 4 then
      EptpGetEptPtEntry.traced k level
        (UtilVaFromPfn (k.tables table (EptpAddressToPxeIndex physical_address)).physial_address)
        physical_address ((level + 1) :: log)
    else if level + 1 = 3 then
      EptpGetEptPtEntry.traced k level
        (UtilVaFromPfn (k.tables table (EptpAddressToPpeIndex physical_address)).physial_address)
        physical_address ((level + 1) :: log)
    else if level + 1 = 2 then
      EptpGetEptPtEntry.traced k level
        (UtilVaFromPfn (k.tables table (EptpAddressToPdeIndex physical_address)).physial_address)
        physical_address ((level + 1) :: log)
    else if level + 1 = 1 then
      (some (table, EptpAddressToPteIndex physical_address), (level + 1) :: log)
    else (none, (level + 1) :: log)

/-- `EptpDestructTables` with a ghost log: every call puts its level in front
of the log on entry.  The default branch of the switch is taken for a present
slot in a call at a level outside 2 to 4. -/
def EptpDestructTables.leveled :
    (table_level : Nat) → (table : Nat) → Kernel × List Nat → Kernel × List Nat
  | 0, table, s => (ExFreePoolWithTag table s.1, 0 :: s.2)
  | level + 1, table, s =>
    let s1 := (List.range 512).foldl (fun s i =>
      let entry := s.1.tables table i
      if entry.physial_address ≠ 0 then
        let sub_table := UtilVaFromPfn entry.physial_address
        if level + 1 = 4 ∨ level + 1 = 3 then EptpDestructTables.leveled level sub_table s
        else if level + 1 = 2 then (ExFreePoolWithTag sub_table s.1, s.2)
        else s
      else s) (s.1, (level + 1) :: s.2)
    (ExFreePoolWithTag table s1.1, s1.2)

/-- The number of tables missing on the path of an address: the depths 1, 2
and 3 that the walk of the address does not reach. -/
def absentTables (k : Kernel) (root physical_address : Nat) : Nat :=
  ((List.range 3).filter
    (fun m => (walk k root ((pathOf physical_address).take (m + 1))).isNone)).length

/-- A sequence of entry-miss faults, one per address of the list, each handled
by the first branch of `EptHandleEptViolation` in the state the fault before
it left. -/
def EptHandleEptViolation.missMany (pm_ranges : List PhysicalMemoryRun) :
    List Nat → EptData → Kernel → Except Fault (EptData × Kernel)
  | [], ept_data, k => .ok (ept_data, k)
  | fault_pa :: rest, ept_data, k =>
    match EptHandleEptViolation.miss pm_ranges ept_data k fault_pa with
    | .error f => .error f
    | .ok (d1, k1, _) => EptHandleEptViolation.missMany pm_ranges rest d1 k1

end Ept

/-! # Properties -/

namespace Ept

/-! ## Index codec: properties -/

theorem and_mask_eq_mod (x : Nat) : x &&& kVmxpPtxMask = x % 512 := by
  have h := Nat.and_pow_two_sub_one_eq_mod x 9
  simpa [kVmxpPtxMask] using h

theorem pxe_eq (pa : Nat) : EptpAddressToPxeIndex pa = pa / 2 ^ 39 % 512 := by
  simp [EptpAddressToPxeIndex, and_mask_eq_mod, kVmxpPxiShift, Nat.shiftRight_eq_div_pow]

theorem ppe_eq (pa : Nat) : EptpAddressToPpeIndex pa = pa / 2 ^ 30 % 512 := by
  simp [EptpAddressToPpeIndex, and_mask_eq_mod, kVmxpPpiShift, Nat.shiftRight_eq_div_pow]

theorem pde_eq (pa : Nat) : EptpAddressToPdeIndex pa = pa / 2 ^ 21 % 512 := by
  simp [EptpAddressToPdeIndex, and_mask_eq_mod, kVmxpPdiShift, Nat.shiftRight_eq_div_pow]

theorem pte_eq (pa : Nat) : EptpAddressToPteIndex pa = pa / 2 ^ 12 % 512 := by
  simp [EptpAddressToPteIndex, and_mask_eq_mod, kVmxpPtiShift, Nat.shiftRight_eq_div_pow]

theorem testBit_div_mod_512 (pa s i : Nat) :
    (pa / 2 ^ s % 512).testBit i = (decide (i < 9) && pa.testBit (s + i)) := by
  have h : (512 : Nat) = 2 ^ 9 := by norm_num
  rw [h, Nat.testBit_mod_two_pow, ← Nat.shiftRight_eq_div_pow, Nat.testBit_shiftRight]

/-- C8: the four selectors are the values of address bits 39..47, 30..38,
21..29 and 12..20 (bit `i` of a selector is bit `shift + i` of the address for
`i < 9` and is clear above), that is the address shifted right by 39, 30, 21
and 12 and reduced modulo 512, and each selector is below 512. -/
theorem address_to_index_selects_nine_bits (physical_address : Nat) :
    (EptpAddressToPxeIndex physical_address = physical_address / 2 ^ 39 % 2 ^ 9 ∧
      EptpAddressToPpeIndex physical_address = physical_address / 2 ^ 30 % 2 ^ 9 ∧
      EptpAddressToPdeIndex physical_address = physical_address / 2 ^ 21 % 2 ^ 9 ∧
      EptpAddressToPteIndex physical_address = physical_address / 2 ^ 12 % 2 ^ 9) ∧
    (∀ i, (EptpAddressToPxeIndex physical_address).testBit i =
        (decide (i < 9) && physical_address.testBit (39 + i))) ∧
    (∀ i, (EptpAddressToPpeIndex physical_address).testBit i =
        (decide (i < 9) && physical_address.testBit (30 + i))) ∧
    (∀ i, (EptpAddressToPdeIndex physical_address).testBit i =
        (decide (i < 9) && physical_address.testBit (21 + i))) ∧
    (∀ i, (EptpAddressToPteIndex physical_address).testBit i =
        (decide (i < 9) && physical_address.testBit (12 + i))) ∧
    EptpAddressToPxeIndex physical_address < 512 ∧
    EptpAddressToPpeIndex physical_address < 512 ∧
    EptpAddressToPdeIndex physical_address < 512 ∧
    EptpAddressToPteIndex physical_address < 512 := by
  refine ⟨⟨?_, ?_, ?_, ?_⟩, ?_, ?_, ?_, ?_, ?_, ?_, ?_, ?_⟩
  · simpa using pxe_eq physical_address
  · simpa using ppe_eq physical_address
  · simpa using pde_eq physical_address
  · simpa using pte_eq physical_address
  · intro i; rw [pxe_eq]; exact testBit_div_mod_512 _ _ _
  · intro i; rw [ppe_eq]; exact testBit_div_mod_512 _ _ _
  · intro i; rw [pde_eq]; exact testBit_div_mod_512 _ _ _
  · intro i; rw [pte_eq]; exact testBit_div_mod_512 _ _ _
  · rw [pxe_eq]; exact Nat.mod_lt _ (by norm_num)
  · rw [ppe_eq]; exact Nat.mod_lt _ (by norm_num)
  · rw [pde_eq]; exact Nat.mod_lt _ (by norm_num)
  · rw [pte_eq]; exact Nat.mod_lt _ (by norm_num)


/-! ## Device memory classifier -/

theorem inBounds_iff_covers (run : PhysicalMemoryRun) (pa : Nat) (hpa : pa < 2 ^ 64)
    (hend : (run.base_page + run.page_count) * PAGE_SIZE ≤ 2 ^ 64)
    (hempty : run.page_count = 0 → 0 < run.base_page ∧ run.base_page * PAGE_SIZE < 2 ^ 64) :
    UtilIsInBounds pa (u64 (run.base_page * PAGE_SIZE))
        (u64 (u64 (run.base_page * PAGE_SIZE) + u64 (run.page_count * PAGE_SIZE)
          + (2 ^ 64 - 1))) = true ↔ run.covers pa := by
  obtain ⟨b, c⟩ := run
  simp only [UtilIsInBounds, u64, PAGE_SIZE, PhysicalMemoryRun.covers, Bool.and_eq_true,
    decide_eq_true_eq] at *
  norm_num at *
  omega

/-- Where no address computation wraps and no run is the empty run at page 0,
`EptpIsDeviceMemory` is true exactly for the addresses outside every run. -/
theorem isDeviceMemory_iff_outside_every_run (pm_ranges : List PhysicalMemoryRun) (pa : Nat)
    (hpa : pa < 2 ^ 64)
    (hend : ∀ run ∈ pm_ranges, (run.base_page + run.page_count) * PAGE_SIZE ≤ 2 ^ 64)
    (hempty : ∀ run ∈ pm_ranges, run.page_count = 0 →
      0 < run.base_page ∧ run.base_page * PAGE_SIZE < 2 ^ 64) :
    EptpIsDeviceMemory pm_ranges pa = true ↔ ∀ run ∈ pm_ranges, ¬ run.covers pa := by
  induction pm_ranges with
  | nil => simp [EptpIsDeviceMemory]
  | cons run rest ih =>
    have hrun := inBounds_iff_covers run pa hpa (hend run (List.mem_cons_self _ _))
      (hempty run (List.mem_cons_self _ _))
    have ih1 := ih (fun r hr => hend r (List.mem_cons_of_mem _ hr))
      (fun r hr => hempty r (List.mem_cons_of_mem _ hr))
    rw [List.forall_mem_cons, ← ih1, ← hrun]
    rw [show EptpIsDeviceMemory (run :: rest) pa =
      (if UtilIsInBounds pa (u64 (run.base_page * PAGE_SIZE))
          (u64 (u64 (run.base_page * PAGE_SIZE) + u64 (run.page_count * PAGE_SIZE)
            + (2 ^ 64 - 1))) then false else EptpIsDeviceMemory rest pa) from rfl]
    split <;> simp_all

/-- C9: with the single run of no pages at base page 0, the address 0x5000
lies outside every run (the run covers no address), yet
`EptpIsDeviceMemory` answers false: the end address `0 + 0 * 4096 - 1` wraps
to `2^64 - 1` and the inclusive test accepts every address. -/
theorem isDeviceMemory_false_outside_empty_run_at_zero :
    EptpIsDeviceMemory [⟨0, 0⟩] 0x5000 = false ∧
      ∀ run ∈ [(⟨0, 0⟩ : PhysicalMemoryRun)], ¬ run.covers 0x5000 := by
  decide


/-! ## Entry allocator: the pre-allocated pool -/

theorem interlockedIncrement_eq (c : Int) (h0 : -2 ^ 31 ≤ c) (h1 : c < 2 ^ 31 - 1) :
    InterlockedIncrement c = c + 1 := by
  unfold InterlockedIncrement
  norm_num at *
  omega

theorem fromPreAllocated_in_range (d : EptData) (c : Int)
    (hc : d.preallocated_entries_count = c)
    (hlen : d.preallocated_array.length = kVmxpNumberOfPreallocatedEntries)
    (h0 : 0 ≤ c) (h1 : c < kVmxpNumberOfPreallocatedEntries) :
    EptpAllocateEptEntryFromPreAllocated d =
      .ok (d.preallocated_array.getD c.toNat none,
        { d with preallocated_entries_count := c + 1 }) := by
  have hinc : InterlockedIncrement c = c + 1 := by
    apply interlockedIncrement_eq <;> simp [kVmxpNumberOfPreallocatedEntries] at * <;> omega
  unfold EptpAllocateEptEntryFromPreAllocated
  simp only [hc, hinc, hlen]
  simp only [kVmxpNumberOfPreallocatedEntries] at *
  have h2 : ¬ (c + 1 > ((50 : Nat) : Int)) := by push_cast; omega
  have h3 : 0 ≤ c + 1 - 1 ∧ (c + 1 - 1).toNat < 50 := by omega
  rw [if_neg h2, if_pos h3]
  simp

theorem fromPreAllocated_exhausted (d : EptData) (c : Int)
    (hc : d.preallocated_entries_count = c)
    (h0 : (kVmxpNumberOfPreallocatedEntries : Int) ≤ c) (h1 : c < 2 ^ 31 - 1) :
    EptpAllocateEptEntryFromPreAllocated d = .error (.exhaustedPreallocatedEntries (c + 1)) := by
  have hinc : InterlockedIncrement c = c + 1 := by
    apply interlockedIncrement_eq <;> simp [kVmxpNumberOfPreallocatedEntries] at * <;> omega
  unfold EptpAllocateEptEntryFromPreAllocated
  simp only [hc, hinc]
  simp only [kVmxpNumberOfPreallocatedEntries] at *
  have h2 : c + 1 > ((50 : Nat) : Int) := by push_cast at *; omega
  rw [if_pos h2]

/-- C6: with a pool of 50 slots and a consumption counter `c`, a
runtime-context `EptpAllocateEptEntry` returns the slot
`preallocated_entries[c]` and leaves the counter at `c + 1` when `c < 50` (at
`c = 49` the fiftieth request returns the last slot), and takes the bug check
`kExhaustedPreallocatedEntries` when `50 ≤ c`.  The counter ranges over the
values the code can hold when the allocator is entered: `EptInitialization`
sets it to 0 and only `InterlockedIncrement` writes it, so it is never
negative, and it stays below the last value of a `long`, `2^31 - 1`
(`allocationRequests_counter` below: from 0 the counter of a returning
request lies in `0 .. 50` and the 51st request takes the bug check). -/
theorem allocate_runtime_pool_boundary (d : EptData) (k : Kernel) (c : Int)
    (hc : d.preallocated_entries_count = c)
    (hlen : d.preallocated_array.length = kVmxpNumberOfPreallocatedEntries)
    (h0 : 0 ≤ c) (h1 : c < 2 ^ 31 - 1) :
    (c < kVmxpNumberOfPreallocatedEntries →
      EptpAllocateEptEntry (some d) k =
        .ok (d.preallocated_array.getD c.toNat none,
          some { d with preallocated_entries_count := c + 1 }, k)) ∧
    (c = 49 →
      EptpAllocateEptEntry (some d) k =
        .ok (d.preallocated_array.getD 49 none,
          some { d with preallocated_entries_count := 50 }, k)) ∧
    ((kVmxpNumberOfPreallocatedEntries : Int) ≤ c →
      EptpAllocateEptEntry (some d) k = .error (.exhaustedPreallocatedEntries (c + 1))) := by
  refine ⟨?_, ?_, ?_⟩
  · intro h
    simp only [EptpAllocateEptEntry, fromPreAllocated_in_range d c hc hlen h0 h]
  · intro h
    subst h
    have := fromPreAllocated_in_range d 49 hc hlen (by norm_num)
      (by simp [kVmxpNumberOfPreallocatedEntries])
    simp only [EptpAllocateEptEntry, this]
    rfl
  · intro h
    simp only [EptpAllocateEptEntry, fromPreAllocated_exhausted d c hc h h1]

/-- Witness of C6: the sample pool with 49 slots consumed. -/
theorem allocate_runtime_pool_boundary_witness :
    (((49 : Int) < kVmxpNumberOfPreallocatedEntries →
      EptpAllocateEptEntry (some (sampleData 49)) (sampleKernel 0 0) =
        .ok ((sampleData 49).preallocated_array.getD (49 : Int).toNat none,
          some { sampleData 49 with preallocated_entries_count := 49 + 1 },
          sampleKernel 0 0)) ∧
    ((49 : Int) = 49 →
      EptpAllocateEptEntry (some (sampleData 49)) (sampleKernel 0 0) =
        .ok ((sampleData 49).preallocated_array.getD 49 none,
          some { sampleData 49 with preallocated_entries_count := 50 }, sampleKernel 0 0)) ∧
    ((kVmxpNumberOfPreallocatedEntries : Int) ≤ 49 →
      EptpAllocateEptEntry (some (sampleData 49)) (sampleKernel 0 0) =
        .error (.exhaustedPreallocatedEntries (49 + 1)))) :=
  allocate_runtime_pool_boundary (sampleData 49) (sampleKernel 0 0) 49 rfl (by decide)
    (by decide) (by decide)

/-- The upper bound on the counter in C6 is the width of a `long`: at
`2^31 - 1`, a value the counter never takes, `InterlockedIncrement` wraps to
`-2^31`, the test `count > 50` is false and the call does not take the bug
check `kExhaustedPreallocatedEntries`. -/
theorem allocate_runtime_counter_wrap :
    InterlockedIncrement 2147483647 = -2147483648 ∧
    ∀ count, EptpAllocateEptEntry (some (sampleData 2147483647)) (sampleKernel 0 0) ≠
      .error (.exhaustedPreallocatedEntries count) := by
  refine ⟨by decide, ?_⟩
  intro count h
  have h1 : EptpAllocateEptEntry (some (sampleData 2147483647)) (sampleKernel 0 0) =
      .error (.invalidRead (-2147483649)) := rfl
  rw [h1] at h
  cases h

theorem allocationRequests_spec (cpus : List Nat) :
    ∀ (d : EptData) (c : Nat), d.preallocated_entries_count = c →
      d.preallocated_array.length = kVmxpNumberOfPreallocatedEntries →
      c + cpus.length ≤ kVmxpNumberOfPreallocatedEntries →
      ∃ entries, allocationRequests cpus d =
          .ok (entries, { d with preallocated_entries_count := (c + cpus.length : Nat) }) ∧
        entries.map Prod.fst = cpus ∧
        entries.map Prod.snd =
          (List.range cpus.length).map (fun j => d.preallocated_array.getD (c + j) none) := by
  induction cpus with
  | nil =>
    intro d c hc _ _
    refine ⟨[], ?_, rfl, rfl⟩
    simp only [allocationRequests, List.length_nil, Nat.add_zero]
    rw [← hc]
  | cons cpu rest ih =>
    intro d c hc hlen hk
    simp only [List.length_cons] at hk
    have h1 := fromPreAllocated_in_range d c hc hlen (by omega)
      (by simp only [kVmxpNumberOfPreallocatedEntries] at *; omega)
    obtain ⟨entries, he, hf, hs⟩ := ih { d with preallocated_entries_count := (c : Int) + 1 }
      (c + 1) (by simp) hlen (by omega)
    refine ⟨(cpu, d.preallocated_array.getD c none) :: entries, ?_, ?_, ?_⟩
    · simp only [allocationRequests, h1, he, Int.toNat_ofNat, List.length_cons]
      congr 3
      push_cast
      omega
    · simp [hf]
    · simp only [List.map_cons, hs, List.length_cons, List.range_succ_eq_map, List.map_map]
      simp only [List.map_cons, Nat.add_zero, List.map_map]
      congr 1
      apply List.map_congr_left
      intro j _
      simp only [Function.comp]
      congr 1
      omega

/-- From a counter `c ≤ 50`, a sequence of more than `50 - c` requests takes
the bug check `kExhaustedPreallocatedEntries` at its request number
`50 - c + 1`, with the count 51. -/
theorem allocationRequests_exhausts (cpus : List Nat) :
    ∀ (d : EptData) (c : Nat), d.preallocated_entries_count = c →
      d.preallocated_array.length = kVmxpNumberOfPreallocatedEntries →
      c ≤ kVmxpNumberOfPreallocatedEntries →
      kVmxpNumberOfPreallocatedEntries < c + cpus.length →
      allocationRequests cpus d = .error (.exhaustedPreallocatedEntries 51) := by
  induction cpus with
  | nil =>
    intro d c _ _ h1 h2
    simp only [List.length_nil] at h2
    omega
  | cons cpu rest ih =>
    intro d c hc hlen h1 h2
    simp only [List.length_cons] at h2
    by_cases h50 : c = 50
    · subst h50
      have := fromPreAllocated_exhausted d 50 (by simpa using hc)
        (by simp [kVmxpNumberOfPreallocatedEntries]) (by norm_num)
      simp only [allocationRequests, this]
      rfl
    · have hlt : c < 50 := by simp only [kVmxpNumberOfPreallocatedEntries] at h1; omega
      have h3 := fromPreAllocated_in_range d c hc hlen (by omega)
        (by simp only [kVmxpNumberOfPreallocatedEntries]; exact_mod_cast hlt)
      have h4 := ih { d with preallocated_entries_count := (c : Int) + 1 } (c + 1) (by simp) hlen
        (by simp only [kVmxpNumberOfPreallocatedEntries]; omega)
        (by simp only [kVmxpNumberOfPreallocatedEntries] at *; omega)
      simp only [allocationRequests, h3, h4]

/-- The values of the counter: from the counter 0 that `EptInitialization`
leaves, a sequence of at most 50 requests returns with the counter at the
number of requests, a longer sequence takes the bug check with the count 51,
and so the counter after every sequence of requests that returns lies in
`0 .. 50`. -/
theorem allocationRequests_counter (cpus : List Nat) (d : EptData)
    (hc : d.preallocated_entries_count = 0)
    (hlen : d.preallocated_array.length = kVmxpNumberOfPreallocatedEntries) :
    (cpus.length ≤ kVmxpNumberOfPreallocatedEntries →
      ∃ entries d1, allocationRequests cpus d = .ok (entries, d1) ∧
        d1.preallocated_entries_count = (cpus.length : Nat)) ∧
    (kVmxpNumberOfPreallocatedEntries < cpus.length →
      allocationRequests cpus d = .error (.exhaustedPreallocatedEntries 51)) ∧
    (∀ entries d1, allocationRequests cpus d = .ok (entries, d1) →
      0 ≤ d1.preallocated_entries_count ∧
        d1.preallocated_entries_count ≤ kVmxpNumberOfPreallocatedEntries) := by
  have h1 : cpus.length ≤ kVmxpNumberOfPreallocatedEntries →
      ∃ entries d1, allocationRequests cpus d = .ok (entries, d1) ∧
        d1.preallocated_entries_count = (cpus.length : Nat) := by
    intro hk
    obtain ⟨entries, he, -, -⟩ := allocationRequests_spec cpus d 0 (by simpa using hc) hlen
      (by omega)
    exact ⟨entries, _, he, by simp⟩
  have h2 : kVmxpNumberOfPreallocatedEntries < cpus.length →
      allocationRequests cpus d = .error (.exhaustedPreallocatedEntries 51) := by
    intro hk
    exact allocationRequests_exhausts cpus d 0 (by simpa using hc) hlen (by omega) (by omega)
  refine ⟨h1, h2, ?_⟩
  intro entries d1 h
  by_cases hk : cpus.length ≤ kVmxpNumberOfPreallocatedEntries
  · obtain ⟨e, d2, he, hcount⟩ := h1 hk
    rw [he] at h
    simp only [Except.ok.injEq, Prod.mk.injEq] at h
    obtain ⟨-, rfl⟩ := h
    rw [hcount]
    exact ⟨by positivity, by exact_mod_cast hk⟩
  · rw [h2 (by omega)] at h
    cases h

/-- C7: any sequence of `k ≤ 50` runtime-context requests against an `EptData`
whose counter is 0, whichever processors issue them and in whichever order
their atomic increments take effect, succeeds; the `j`-th request receives
pool slot `j`, so the slots issued are the indices `0 .. k-1`, each once, the
counter ends at `k`, and where the pool holds distinct blocks no two requests
receive the same block. -/
theorem allocation_requests_receive_distinct_slots (cpus : List Nat) (d : EptData)
    (hc : d.preallocated_entries_count = 0)
    (hlen : d.preallocated_array.length = kVmxpNumberOfPreallocatedEntries)
    (hk : cpus.length ≤ kVmxpNumberOfPreallocatedEntries) :
    ∃ entries, allocationRequests cpus d =
        .ok (entries, { d with preallocated_entries_count := (cpus.length : Nat) }) ∧
      entries.map Prod.fst = cpus ∧
      entries.map Prod.snd =
        (List.range cpus.length).map (fun j => d.preallocated_array.getD j none) ∧
      (List.range cpus.length).Nodup ∧
      (d.preallocated_array.Nodup → (entries.map Prod.snd).Nodup) := by
  obtain ⟨entries, he, hf, hs⟩ := allocationRequests_spec cpus d 0 (by simpa using hc) hlen
    (by omega)
  refine ⟨entries, ?_, hf, ?_, List.nodup_range _, ?_⟩
  · simpa using he
  · simpa using hs
  · intro hnd
    have htake : entries.map Prod.snd = d.preallocated_array.take cpus.length := by
      rw [hs]
      apply List.ext_getElem
      · simp; omega
      · intro i h1 h2
        simp only [List.length_map, List.length_range] at h1
        simp [List.getD_eq_getElem?_getD, List.getElem?_eq_getElem (show i < d.preallocated_array.length by omega)]
    rw [htake]
    exact (List.take_sublist _ _).nodup hnd

/-- Witness of C7: processors 0, 1 and 0 again issue three requests. -/
theorem allocation_requests_receive_distinct_slots_witness :
    ∃ entries, allocationRequests [0, 1, 0] (sampleData 0) =
        .ok (entries,
          { sampleData 0 with preallocated_entries_count := (([0, 1, 0] : List Nat).length : Nat) }) ∧
      entries.map Prod.fst = [0, 1, 0] ∧
      entries.map Prod.snd =
        (List.range ([0, 1, 0] : List Nat).length).map
          (fun j => (sampleData 0).preallocated_array.getD j none) ∧
      (List.range ([0, 1, 0] : List Nat).length).Nodup ∧
      ((sampleData 0).preallocated_array.Nodup → (entries.map Prod.snd).Nodup) :=
  allocation_requests_receive_distinct_slots [0, 1, 0] (sampleData 0) rfl (by decide) (by decide)


/-! ## Violation dispatcher -/

/-- The entry-miss branch ends in a fault or with the single event
`UtilInveptAll`. -/
theorem miss_events (pm_ranges : List PhysicalMemoryRun) (d : EptData) (k : Kernel) (pa : Nat)
    (d1 : EptData) (k1 : Kernel) (evs : List Event)
    (h : EptHandleEptViolation.miss pm_ranges d k pa = .ok (d1, k1, evs)) :
    evs = [Event.inveptAll] := by
  unfold EptHandleEptViolation.miss at h
  generalize (if EptpIsDeviceMemory pm_ranges pa then k else k.assertFailed) = k0 at h
  simp only at h
  cases hc : EptpConstructTables 4 d.ept_pml4 pa (some d) k0 with
  | error f => rw [hc] at h; exact absurd h (by simp)
  | ok r =>
    obtain ⟨s, d2, k2⟩ := r
    rw [hc] at h
    simp only [Except.ok.injEq, Prod.mk.injEq] at h
    exact h.2.2.symm

/-- C3 (amended): `EptHandleEptViolation` runs the entry-miss branch (construct
the leaf for the faulting physical address from level 4 with the `EptData`
as allocation context, then `UtilInveptAll`) exactly when the qualification
reports the page as not readable, not writeable and not executable, whether
or not the fault is translation-caused; in every other case it returns the
state unchanged with one event that is not `UtilInveptAll`. -/
theorem handler_miss_branch_iff (pm_ranges : List PhysicalMemoryRun) (d : EptData)
    (sh_data shared_sh_data : Nat) (k : Kernel) (q : EptViolationQualification)
    (fault_pa guest_linear_address : Nat) :
    (EptHandleEptViolation pm_ranges d sh_data shared_sh_data k q fault_pa guest_linear_address =
        EptHandleEptViolation.miss pm_ranges d k fault_pa ↔
      (q.ept_readable = false ∧ q.ept_writeable = false ∧ q.ept_executable = false)) ∧
    (EptHandleEptViolation.miss pm_ranges d k fault_pa =
      match EptpConstructTables 4 d.ept_pml4 fault_pa (some d)
          (if EptpIsDeviceMemory pm_ranges fault_pa then k else k.assertFailed) with
      | .error f => .error f
      | .ok (_, d1, k2) => .ok (d1.getD d, k2, [Event.inveptAll])) ∧
    (¬ (q.ept_readable = false ∧ q.ept_writeable = false ∧ q.ept_executable = false) →
      ∃ ev, ev ≠ Event.inveptAll ∧
        EptHandleEptViolation pm_ranges d sh_data shared_sh_data k q fault_pa
          guest_linear_address = .ok (d, k, [ev])) := by
  have hother : ¬ (q.ept_readable = false ∧ q.ept_writeable = false ∧ q.ept_executable = false) →
      ∃ ev, ev ≠ Event.inveptAll ∧
        EptHandleEptViolation pm_ranges d sh_data shared_sh_data k q fault_pa
          guest_linear_address = .ok (d, k, [ev]) := by
    intro hq
    have hc : (!q.ept_readable && !q.ept_writeable && !q.ept_executable) = false := by
      rcases q with ⟨_, _, _, r, w, x, _, _⟩
      revert hq; cases r <;> cases w <;> cases x <;> simp
    unfold EptHandleEptViolation
    simp only [hc, Bool.false_eq_true, if_false]
    split
    · split
      · exact ⟨_, by simp, rfl⟩
      · exact ⟨_, by simp, rfl⟩
    · exact ⟨_, by simp, rfl⟩
  refine ⟨⟨?_, ?_⟩, rfl, hother⟩
  · intro h
    by_contra hq
    obtain ⟨ev, hev, he⟩ := hother hq
    rw [he] at h
    have := miss_events pm_ranges d k fault_pa d k [ev] h.symm
    simp only [List.cons.injEq, and_true] at this
    exact hev this
  · rintro ⟨h1, h2, h3⟩
    unfold EptHandleEptViolation
    simp [h1, h2, h3]

/-- C3 as stated fails: with the page reported not readable, not writeable and
not executable and the fault translation-caused, the dispatcher still runs the
entry-miss branch; on the sample state it consumes three pool entries and
invalidates the caches.  This is so for the first read of a page that has no
entry yet (read access, valid linear address, translation-caused), and also
for the qualification with the translation-caused bit alone. -/
theorem handler_miss_branch_when_translation_caused :
    ((⟨true, false, false, false, false, false, true, true⟩ :
        EptViolationQualification).caused_by_translation = true ∧
      EptHandleEptViolation [] (sampleData 0) 0 0 (sampleKernel 0 0)
          ⟨true, false, false, false, false, false, true, true⟩ 0x104000 0x7ff0 =
        EptHandleEptViolation.miss [] (sampleData 0) (sampleKernel 0 0) 0x104000 ∧
      (EptHandleEptViolation [] (sampleData 0) 0 0 (sampleKernel 0 0)
          ⟨true, false, false, false, false, false, true, true⟩ 0x104000 0x7ff0).toOption.map
        (fun r => (r.1.preallocated_entries_count, r.2.2)) = some (3, [Event.inveptAll])) ∧
    (⟨false, false, false, false, false, false, false, true⟩ :
      EptViolationQualification).caused_by_translation = true ∧
    EptHandleEptViolation [] (sampleData 0) 0 0 (sampleKernel 0 0)
        ⟨false, false, false, false, false, false, false, true⟩ 0x104000 0 =
      EptHandleEptViolation.miss [] (sampleData 0) (sampleKernel 0 0) 0x104000 ∧
    (EptHandleEptViolation [] (sampleData 0) 0 0 (sampleKernel 0 0)
        ⟨false, false, false, false, false, false, false, true⟩ 0x104000 0).toOption.map
      (fun r => (r.1.preallocated_entries_count, r.2.2)) = some (3, [Event.inveptAll]) := by
  refine ⟨⟨rfl, rfl, ?_⟩, rfl, rfl, ?_⟩
  · decide
  · decide

/-- C4 (amended): when the fault is translation-caused, a permission mismatch
exists and at least one of the EPT permission bits of the qualification is
set, `EptHandleEptViolation` makes the single call `ShHandleEptViolation` with
the `EptData` and the guest linear address (null when the qualification does
not mark it valid), and returns the `EptData` (pool counter included) and the
kernel state (tables included) unchanged. -/
theorem handler_forwards_permission_fault (pm_ranges : List PhysicalMemoryRun) (d : EptData)
    (sh_data shared_sh_data : Nat) (k : Kernel) (q : EptViolationQualification)
    (fault_pa guest_linear_address : Nat)
    (hcaused : q.caused_by_translation = true)
    (hmismatch : (q.read_access = true ∧ q.ept_readable = false) ∨
      (q.write_access = true ∧ q.ept_writeable = false) ∨
      (q.execute_access = true ∧ q.ept_executable = false))
    (hpresent : q.ept_readable = true ∨ q.ept_writeable = true ∨ q.ept_executable = true) :
    EptHandleEptViolation pm_ranges d sh_data shared_sh_data k q fault_pa guest_linear_address =
      .ok (d, k, [Event.shHandleEptViolation sh_data shared_sh_data d
        (if q.valid_guest_linear_address then some guest_linear_address else none)]) := by
  rcases q with ⟨ra, wa, xa, r, w, x, v, c⟩
  simp only at hcaused hmismatch hpresent
  subst hcaused
  unfold EptHandleEptViolation
  revert hmismatch hpresent
  cases ra <;> cases wa <;> cases xa <;> cases r <;> cases w <;> cases x <;> simp

/-- Witness of C4 (amended): a write to a page that is readable but not
writeable, with a valid linear address. -/
theorem handler_forwards_permission_fault_witness :
    EptHandleEptViolation [] (sampleData 0) 7 8 (sampleKernel 0 0)
        ⟨false, true, false, true, false, false, true, true⟩ 0x104000 0x7ff0 =
      .ok (sampleData 0, sampleKernel 0 0, [Event.shHandleEptViolation 7 8 (sampleData 0)
        (if (⟨false, true, false, true, false, false, true, true⟩ :
          EptViolationQualification).valid_guest_linear_address then some 0x7ff0 else none)]) :=
  handler_forwards_permission_fault [] (sampleData 0) 7 8 (sampleKernel 0 0)
    ⟨false, true, false, true, false, false, true, true⟩ 0x104000 0x7ff0 rfl
    (Or.inr (Or.inl ⟨rfl, rfl⟩)) (Or.inl rfl)

/-- C4 as stated fails: a translation-caused read of a page reported not
readable, not writeable and not executable is a permission mismatch, yet the
dispatcher does not call `ShHandleEptViolation`; it runs the entry-miss
branch, which on the sample state consumes three pool entries. -/
theorem handler_constructs_on_mismatch_without_permissions :
    ((⟨true, false, false, false, false, false, false, true⟩ :
      EptViolationQualification).caused_by_translation = true ∧
     (⟨true, false, false, false, false, false, false, true⟩ :
      EptViolationQualification).read_access = true ∧
     (⟨true, false, false, false, false, false, false, true⟩ :
      EptViolationQualification).ept_readable = false) ∧
    (EptHandleEptViolation [] (sampleData 0) 0 0 (sampleKernel 0 0)
        ⟨true, false, false, false, false, false, false, true⟩ 0x104000 0).toOption.map
      (fun r => (r.1.preallocated_entries_count, r.2.2)) = some (3, [Event.inveptAll]) := by
  refine ⟨⟨rfl, rfl, rfl⟩, ?_⟩
  decide

/-- When at least one EPT permission bit of the qualification is set and the
fault is either translation-caused without permission mismatch or not
translation-caused, `EptHandleEptViolation` only prints the ignore message:
the `EptData` (pool array and counter) and the kernel state (tables) are
returned unchanged and the only event is the `DbgPrint`. -/
theorem handler_ignores_when_permitted (pm_ranges : List PhysicalMemoryRun) (d : EptData)
    (sh_data shared_sh_data : Nat) (k : Kernel) (q : EptViolationQualification)
    (fault_pa guest_linear_address : Nat)
    (hpresent : q.ept_readable = true ∨ q.ept_writeable = true ∨ q.ept_executable = true)
    (hother : (q.caused_by_translation = true ∧
        ¬ ((q.read_access = true ∧ q.ept_readable = false) ∨
          (q.write_access = true ∧ q.ept_writeable = false) ∨
          (q.execute_access = true ∧ q.ept_executable = false))) ∨
      q.caused_by_translation = false) :
    EptHandleEptViolation pm_ranges d sh_data shared_sh_data k q fault_pa guest_linear_address =
      .ok (d, k, [Event.dbgPrint
        (if q.valid_guest_linear_address then some guest_linear_address else none) fault_pa]) := by
  rcases q with ⟨ra, wa, xa, r, w, x, v, c⟩
  simp only at hother hpresent
  unfold EptHandleEptViolation
  revert hother hpresent
  cases ra <;> cases wa <;> cases xa <;> cases r <;> cases w <;> cases x <;> cases c <;> simp

/-- C5: for every exit qualification that reports the faulting access (a
read, a write or an instruction fetch: the qualification of an EPT violation
records which one it was) and that is translation-caused with no permission
mismatch, or not translation-caused with an EPT permission bit set,
`EptHandleEptViolation` only prints the ignore message: the `EptData` (pool
array and consumption counter) and the kernel state (tables) are returned
unchanged, and the only event is the `DbgPrint`, so neither the constructor,
nor `UtilInveptAll`, nor `ShHandleEptViolation` is called. -/
theorem handler_ignores_other_faults (pm_ranges : List PhysicalMemoryRun) (d : EptData)
    (sh_data shared_sh_data : Nat) (k : Kernel) (q : EptViolationQualification)
    (fault_pa guest_linear_address : Nat)
    (haccess : q.read_access = true ∨ q.write_access = true ∨ q.execute_access = true)
    (hother : (q.caused_by_translation = true ∧
        ¬ ((q.read_access = true ∧ q.ept_readable = false) ∨
          (q.write_access = true ∧ q.ept_writeable = false) ∨
          (q.execute_access = true ∧ q.ept_executable = false))) ∨
      (q.caused_by_translation = false ∧
        (q.ept_readable = true ∨ q.ept_writeable = true ∨ q.ept_executable = true))) :
    EptHandleEptViolation pm_ranges d sh_data shared_sh_data k q fault_pa guest_linear_address =
      .ok (d, k, [Event.dbgPrint
        (if q.valid_guest_linear_address then some guest_linear_address else none) fault_pa]) := by
  rcases q with ⟨ra, wa, xa, r, w, x, v, c⟩
  simp only at hother haccess
  unfold EptHandleEptViolation
  revert hother haccess
  cases ra <;> cases wa <;> cases xa <;> cases r <;> cases w <;> cases x <;> cases c <;> simp

/-- Witness of C5: a translation-caused read of a readable page, which is no
mismatch, with a valid linear address. -/
theorem handler_ignores_other_faults_witness :
    EptHandleEptViolation [] (sampleData 0) 7 8 (sampleKernel 0 0)
        ⟨true, false, false, true, false, false, true, true⟩ 0x104000 0x7ff0 =
      .ok (sampleData 0, sampleKernel 0 0, [Event.dbgPrint
        (if (⟨true, false, false, true, false, false, true, true⟩ :
          EptViolationQualification).valid_guest_linear_address then some 0x7ff0 else none)
        0x104000]) :=
  handler_ignores_other_faults [] (sampleData 0) 7 8 (sampleKernel 0 0)
    ⟨true, false, false, true, false, false, true, true⟩ 0x104000 0x7ff0 (Or.inl rfl)
    (Or.inl ⟨rfl, by decide⟩)

/-- The access hypothesis of C5 is used: the qualification with the
translation-caused bit alone, which reports no access and so is not the
qualification of an EPT violation, has no permission mismatch, yet with no
EPT permission bit set the dispatcher runs the entry-miss branch: on the
sample state the pool counter moves from 0 to 3 and the caches are
invalidated. -/
theorem handler_constructs_without_mismatch :
    ((⟨false, false, false, false, false, false, false, true⟩ :
      EptViolationQualification).caused_by_translation = true ∧
     ¬ (((⟨false, false, false, false, false, false, false, true⟩ :
          EptViolationQualification).read_access = true ∧
        (⟨false, false, false, false, false, false, false, true⟩ :
          EptViolationQualification).ept_readable = false) ∨
       ((⟨false, false, false, false, false, false, false, true⟩ :
          EptViolationQualification).write_access = true ∧
        (⟨false, false, false, false, false, false, false, true⟩ :
          EptViolationQualification).ept_writeable = false) ∨
       ((⟨false, false, false, false, false, false, false, true⟩ :
          EptViolationQualification).execute_access = true ∧
        (⟨false, false, false, false, false, false, false, true⟩ :
          EptViolationQualification).ept_executable = false))) ∧
    (sampleData 0).preallocated_entries_count = 0 ∧
    (EptHandleEptViolation [] (sampleData 0) 0 0 (sampleKernel 0 0)
        ⟨false, false, false, false, false, false, false, true⟩ 0x104000 0).toOption.map
      (fun r => (r.1.preallocated_entries_count, r.2.2)) = some (3, [Event.inveptAll]) := by
  refine ⟨⟨rfl, by decide⟩, rfl, ?_⟩
  decide


/-! ## Entries and walks -/

theorem all_eq_zero_iff (e : EptCommonEntry) : e.all = 0 ↔ e = EptCommonEntry.zero := by
  obtain ⟨r, w, x, mt, r1, pfn, r2⟩ := e
  simp only [EptCommonEntry.all, EptCommonEntry.zero, EptCommonEntry.mk.injEq]
  constructor
  · intro h
    have h48 : (2 : Nat) ^ 48 = 281474976710656 := by norm_num
    rw [h48] at h
    cases r <;> cases w <;> cases x <;> (simp at h ⊢; try omega)
  · rintro ⟨rfl, rfl, rfl, rfl, rfl, rfl, rfl⟩
    simp

theorem all_ne_zero_of_read (e : EptCommonEntry) (h : e.read_access = true) : e.all ≠ 0 := by
  intro h0
  rw [all_eq_zero_iff] at h0
  rw [h0] at h
  simp [EptCommonEntry.zero] at h

theorem pfn_of_table (t : Nat) (h : t < 2 ^ 36) :
    UtilPfnFromPa (UtilPaFromVa t) % 2 ^ 36 = t := by
  unfold UtilPfnFromPa UtilPaFromVa u64 PAGE_SIZE
  rw [Nat.shiftRight_eq_div_pow]
  norm_num at *
  omega

theorem walk_append (k : Kernel) (p q : List Nat) :
    ∀ t, walk k t (p ++ q) = (walk k t p).bind (fun s => walk k s q) := by
  induction p with
  | nil => intro t; simp [walk]
  | cons i rest ih =>
    intro t
    simp only [List.cons_append, walk]
    split
    · exact ih _
    · rfl

theorem walk_congr (k k1 : Kernel) (h : k1.tables = k.tables) (t : Nat) (p : List Nat) :
    walk k1 t p = walk k t p := by
  induction p generalizing t with
  | nil => rfl
  | cons i rest ih => simp only [walk, h, ih]

theorem TreeInv.congr {k k1 : Kernel} {root : Nat} {owned fresh : List Nat}
    (hinv : TreeInv k root owned fresh) (h : k1.tables = k.tables) :
    TreeInv k1 root owned fresh where
  inj := by
    intro p q t hp hq h1 h2
    rw [walk_congr k k1 h] at h1 h2
    exact hinv.inj p q t hp hq h1 h2
  reach := by
    intro t
    simp only [walk_congr k k1 h]
    exact hinv.reach t
  nodup := hinv.nodup
  range := hinv.range

theorem TreeInv.not_fresh {k : Kernel} {root : Nat} {owned fresh : List Nat}
    (hinv : TreeInv k root owned fresh) {p : List Nat} {t : Nat} (hp : p.length ≤ 3)
    (hw : walk k root p = some t) : t ∉ fresh := by
  intro hf
  have ho : t ∈ owned := (hinv.reach t).1 ⟨p, hp, hw⟩
  exact (List.nodup_append.1 hinv.nodup).2.2 ho hf


/-! ## The allocator hands out the upcoming tables -/

theorem ExAllocatePoolWithTag_spec (k : Kernel) :
    (ExAllocatePoolWithTag k).2.tables = k.tables ∧
    (ExAllocatePoolWithTag k).2.freed = k.freed ∧
    (ExAllocatePoolWithTag k).2.assertion_failures = k.assertion_failures ∧
    ((ExAllocatePoolWithTag k).1 = none →
      (ExAllocatePoolWithTag k).2.pool.reduceOption = k.pool.reduceOption ∧
      (ExAllocatePoolWithTag k).2.allocated = k.allocated ∧
      (ExAllocatePoolWithTag k).2.failed = k.failed + 1) ∧
    (∀ a, (ExAllocatePoolWithTag k).1 = some a →
      k.pool.reduceOption = a :: (ExAllocatePoolWithTag k).2.pool.reduceOption ∧
      (ExAllocatePoolWithTag k).2.allocated = a :: k.allocated ∧
      (ExAllocatePoolWithTag k).2.failed = k.failed) := by
  unfold ExAllocatePoolWithTag
  rcases hp : k.pool with _ | ⟨_ | a, rest⟩ <;> simp [List.reduceOption_cons_of_none,
    List.reduceOption_cons_of_some]

theorem allocate_spec (ed : Option EptData) (k : Kernel) (r : Option Nat)
    (ed1 : Option EptData) (k1 : Kernel) (hz : PoolZeroed ed k)
    (h : EptpAllocateEptEntry ed k = .ok (r, ed1, k1)) :
    PoolZeroed ed1 k1 ∧ (ed1 = none ↔ ed = none) ∧
    (r = none → k1.tables = k.tables ∧ upcoming ed1 k1 = upcoming ed k) ∧
    (∀ T, r = some T → upcoming ed k = T :: upcoming ed1 k1 ∧
      (∀ i, k1.tables T i = EptCommonEntry.zero) ∧
      ∀ t, t ≠ T → k1.tables t = k.tables t) := by
  cases ed with
  | none =>
    simp only [EptpAllocateEptEntry, EptpAllocateEptEntryFromPool] at h
    have hs := ExAllocatePoolWithTag_spec k
    rcases ha : ExAllocatePoolWithTag k with ⟨_ | a, k0⟩
    · rw [ha] at h hs
      simp only [Except.ok.injEq, Prod.mk.injEq] at h
      obtain ⟨rfl, rfl, rfl⟩ := h
      refine ⟨(by intro d hd; cases hd), (by simp), ?_, (by simp)⟩
      intro _
      exact ⟨hs.1, (hs.2.2.2.1 rfl).1⟩
    · rw [ha] at h hs
      simp only [Except.ok.injEq, Prod.mk.injEq] at h
      obtain ⟨rfl, rfl, rfl⟩ := h
      refine ⟨(by intro d hd; cases hd), (by simp), (by simp), ?_⟩
      intro T hT
      simp only [Option.some.injEq] at hT
      subst hT
      refine ⟨(hs.2.2.2.2 a rfl).1, ?_, ?_⟩
      · intro i; simp [RtlZeroMemory]
      · intro t ht
        funext i
        simp only [RtlZeroMemory, ht, if_false]
        rw [hs.1]
  | some d =>
    obtain ⟨h0, h50, hlen, hzero⟩ := hz d rfl
    rcases lt_or_eq_of_le h50 with hlt | heq
    · have hok := fromPreAllocated_in_range d _ rfl hlen h0 hlt
      simp only [EptpAllocateEptEntry, hok, Except.ok.injEq, Prod.mk.injEq] at h
      obtain ⟨rfl, rfl, rfl⟩ := h
      obtain ⟨c, hc⟩ := Int.eq_ofNat_of_zero_le h0
      have hcl : c < d.preallocated_array.length := by
        rw [hlen]; rw [hc] at hlt; exact_mod_cast hlt
      have hdrop : d.preallocated_array.drop c =
          d.preallocated_array[c] :: d.preallocated_array.drop (c + 1) :=
        List.drop_eq_getElem_cons hcl
      have hr : d.preallocated_array.getD d.preallocated_entries_count.toNat none =
          d.preallocated_array[c] := by
        simp [hc, List.getD_eq_getElem?_getD, List.getElem?_eq_getElem hcl]
      have hup : upcoming (some d) k = (d.preallocated_array.drop c).reduceOption := by
        simp [upcoming, hc]
      have hup1 : upcoming (some { d with preallocated_entries_count :=
          d.preallocated_entries_count + 1 }) k =
          (d.preallocated_array.drop (c + 1)).reduceOption := by
        simp only [upcoming, hc]
        congr 2
      rw [hr]
      have hnone : d.preallocated_array[c] = none →
          upcoming (some { d with preallocated_entries_count :=
            d.preallocated_entries_count + 1 }) k = upcoming (some d) k := by
        intro hn
        rw [hup, hup1, hdrop, hn, List.reduceOption_cons_of_none]
      have hsome : ∀ T, d.preallocated_array[c] = some T →
          upcoming (some d) k = T :: upcoming (some { d with preallocated_entries_count :=
            d.preallocated_entries_count + 1 }) k := by
        intro T hT
        rw [hup, hup1, hdrop, hT, List.reduceOption_cons_of_some]
      refine ⟨?_, (by simp), fun hn => ⟨rfl, hnone hn⟩,
        fun T hT => ⟨hsome T hT, ?_, fun _ _ => rfl⟩⟩
      · intro d1 hd1
        simp only [Option.some.injEq] at hd1
        subst hd1
        refine ⟨(by simp only; omega), (by simp only; omega), hlen, ?_⟩
        intro t ht i
        apply hzero t _ i
        rcases hx : d.preallocated_array[c] with _ | T
        · rw [hnone hx] at ht; exact ht
        · rw [show upcoming (some d) k = upcoming (some d) k from rfl, hsome T hx]
          exact List.mem_cons_of_mem _ ht
      · intro i
        apply hzero T _ i
        rw [show upcoming (some d) k = upcoming (some d) k from rfl, hsome T hT]
        exact List.mem_cons_self _ _
    · have herr := fromPreAllocated_exhausted d _ rfl (le_of_eq heq.symm)
        (by rw [heq]; simp [kVmxpNumberOfPreallocatedEntries])
      simp [EptpAllocateEptEntry, herr] at h


/-! ## Linking a fresh table into the tree -/

theorem walk_snoc (k : Kernel) (t : Nat) (p : List Nat) (i s : Nat)
    (hw : walk k t p = some s) :
    walk k t (p ++ [i]) =
      if i < 512 ∧ (k.tables s i).all ≠ 0 then
        some (UtilVaFromPfn (k.tables s i).physial_address) else none := by
  rw [walk_append, hw]
  simp only [Option.bind, walk]

/-- Walks of the old tree survive a change that leaves every non-zero slot of
a reached table as it was. -/
theorem walk_preserved (k k1 : Kernel) (root T : Nat) (owned fresh : List Nat)
    (hinv : TreeInv k root owned (T :: fresh))
    (hrest : ∀ a j, a ≠ T → (k.tables a j).all ≠ 0 → k1.tables a j = k.tables a j) :
    ∀ (q p0 : List Nat) (s x : Nat), walk k root p0 = some s → p0.length + q.length ≤ 3 →
      walk k s q = some x → walk k1 s q = some x := by
  intro q
  induction q with
  | nil => intro p0 s x _ _ h; simpa [walk] using h
  | cons j rest ih =>
    intro p0 s x hs hlen h
    simp only [List.length_cons] at hlen
    simp only [walk] at h ⊢
    split at h
    · rename_i hc
      have hsT : s ≠ T := by
        intro he
        exact hinv.not_fresh (by omega) hs (he ▸ List.mem_cons_self _ _)
      have heq := hrest s j hsT hc.2
      rw [heq, if_pos hc]
      refine ih (p0 ++ [j]) _ x ?_ (by simp; omega) h
      rw [walk_snoc k root p0 j s hs, if_pos hc]
    · exact absurd h (by simp)

/-- A walk of the new tree is a walk of the old tree or ends at the table that
was linked in. -/
theorem walk_reflected (k k1 : Kernel) (root T t i : Nat) (p owned fresh : List Nat)
    (hinv : TreeInv k root owned (T :: fresh)) (hp : p.length ≤ 2)
    (hw : walk k root p = some t)
    (hT : ∀ j, k1.tables T j = EptCommonEntry.zero)
    (hE : (k1.tables t i).physial_address = T)
    (hrest : ∀ a j, a ≠ T → ¬ (a = t ∧ j = i) → k1.tables a j = k.tables a j) :
    ∀ (q p0 : List Nat) (s x : Nat), walk k root p0 = some s → p0.length + q.length ≤ 3 →
      walk k1 s q = some x → walk k s q = some x ∨ (p0 ++ q = p ++ [i] ∧ x = T) := by
  intro q
  induction q with
  | nil => intro p0 s x _ _ h; left; simpa [walk] using h
  | cons j rest ih =>
    intro p0 s x hs hlen h
    simp only [List.length_cons] at hlen
    have hsT : s ≠ T := by
      intro he
      exact hinv.not_fresh (by omega) hs (he ▸ List.mem_cons_self _ _)
    simp only [walk] at h ⊢
    split at h
    · rename_i hc
      by_cases hslot : s = t ∧ j = i
      · obtain ⟨rfl, rfl⟩ := hslot
        right
        have hpp : p0 = p := hinv.inj p0 p s (by omega) (by omega) hs hw
        rw [hE] at h
        cases rest with
        | nil =>
          simp only [walk, UtilVaFromPfn, Option.some.injEq] at h
          exact ⟨by rw [hpp], h.symm⟩
        | cons j2 rest2 =>
          simp only [walk, UtilVaFromPfn, hT, EptCommonEntry.zero, EptCommonEntry.all] at h
          simp at h
      · have heq := hrest s j hsT hslot
        rw [heq] at h hc
        rw [if_pos hc]
        have hnext : walk k root (p0 ++ [j]) =
            some (UtilVaFromPfn (k.tables s j).physial_address) := by
          rw [walk_snoc k root p0 j s hs, if_pos hc]
        rcases ih (p0 ++ [j]) _ x hnext (by simp; omega) h with h1 | h1
        · left; exact h1
        · right; simpa using h1
    · exact absurd h (by simp)

/-- Filling the empty slot `i` of the reached table `t` with a pointer to the
first fresh table `T`, itself zeroed, keeps the shape of the tree: `T` joins
the tree and is reached along the path of `t` followed by `i`. -/
theorem TreeInv.graft {k k1 : Kernel} {root T t i : Nat} {p owned fresh : List Nat}
    (hinv : TreeInv k root owned (T :: fresh)) (hp : p.length ≤ 2)
    (hw : walk k root p = some t) (hi : i < 512) (hslot : (k.tables t i).all = 0)
    (hT : ∀ j, k1.tables T j = EptCommonEntry.zero)
    (hE1 : (k1.tables t i).all ≠ 0) (hE : (k1.tables t i).physial_address = T)
    (hrest : ∀ a j, a ≠ T → ¬ (a = t ∧ j = i) → k1.tables a j = k.tables a j) :
    TreeInv k1 root (T :: owned) fresh ∧ walk k1 root (p ++ [i]) = some T ∧
      ∀ q x, q.length ≤ 3 → walk k root q = some x → walk k1 root q = some x := by
  have hrest1 : ∀ a j, a ≠ T → (k.tables a j).all ≠ 0 → k1.tables a j = k.tables a j := by
    intro a j ha hne
    apply hrest a j ha
    rintro ⟨rfl, rfl⟩
    exact hne hslot
  have hpres : ∀ q x, q.length ≤ 3 → walk k root q = some x → walk k1 root q = some x := by
    intro q x hq h
    exact walk_preserved k k1 root T owned fresh hinv hrest1 q [] root x rfl (by simpa using hq) h
  have hrefl : ∀ q x, q.length ≤ 3 → walk k1 root q = some x →
      walk k root q = some x ∨ (q = p ++ [i] ∧ x = T) := by
    intro q x hq h
    simpa using walk_reflected k k1 root T t i p owned fresh hinv hp hw hT hE hrest q [] root x
      rfl (by simpa using hq) h
  have hnew : walk k1 root (p ++ [i]) = some T := by
    rw [walk_snoc k1 root p i t (hpres p t (by omega) hw), if_pos ⟨hi, hE1⟩, hE]
    rfl
  have hTo : T ∉ owned := by
    have := hinv.nodup
    rw [List.nodup_append] at this
    intro h
    exact this.2.2 h (List.mem_cons_self _ _)
  refine ⟨⟨?_, ?_, ?_, ?_⟩, hnew, hpres⟩
  · intro q1 q2 x h1 h2 hw1 hw2
    rcases hrefl q1 x h1 hw1 with a1 | ⟨a1, b1⟩ <;> rcases hrefl q2 x h2 hw2 with a2 | ⟨a2, b2⟩
    · exact hinv.inj q1 q2 x h1 h2 a1 a2
    · subst b2
      exact absurd ((hinv.reach x).1 ⟨q1, h1, a1⟩) hTo
    · subst b1
      exact absurd ((hinv.reach x).1 ⟨q2, h2, a2⟩) hTo
    · rw [a1, a2]
  · intro x
    constructor
    · rintro ⟨q, hq, h⟩
      rcases hrefl q x hq h with a | ⟨_, b⟩
      · exact List.mem_cons_of_mem _ ((hinv.reach x).1 ⟨q, hq, a⟩)
      · rw [b]; exact List.mem_cons_self _ _
    · intro hx
      rcases List.mem_cons.1 hx with rfl | hx
      · exact ⟨p ++ [i], by simp; omega, hnew⟩
      · obtain ⟨q, hq, h⟩ := (hinv.reach x).2 hx
        exact ⟨q, hq, hpres q x hq h⟩
  · have := hinv.nodup
    exact (List.perm_middle.nodup_iff).1 this
  · intro x hx
    apply hinv.range x
    have : x ∈ T :: (owned ++ fresh) := by simpa using hx
    exact (List.perm_middle.mem_iff).2 this


/-! ## One level of the constructor -/

theorem upcoming_store (ed : Option EptData) (k : Kernel) (t i : Nat) (e : EptCommonEntry) :
    upcoming ed (k.store t i e) = upcoming ed k := by
  cases ed <;> rfl

theorem upcoming_assertFailed (ed : Option EptData) (k : Kernel) :
    upcoming ed k.assertFailed = upcoming ed k := by
  cases ed <;> rfl

theorem PoolZeroed.store {ed : Option EptData} {k : Kernel} (hz : PoolZeroed ed k)
    (t i : Nat) (e : EptCommonEntry) (ht : t ∉ upcoming ed k) :
    PoolZeroed ed (k.store t i e) := by
  intro d hd
  obtain ⟨h0, h1, h2, h3⟩ := hz d hd
  refine ⟨h0, h1, h2, ?_⟩
  intro a ha j
  rw [upcoming_store] at ha
  have hne : a ≠ t := fun he => ht (he ▸ ha)
  simp only [Kernel.store, hne, false_and, if_false]
  exact h3 a ha j

/-- The block of cases 4, 3 and 2: on a reached table it keeps the shape of
the tree, takes the tables it links from the front of the upcoming ones,
keeps every walk and every page table of the old tree, and the table it
returns is reached along the path extended by the slot. -/
theorem enter_spec {k : Kernel} {root : Nat} {owned : List Nat} {ed : Option EptData}
    {p : List Nat} {t lvl i : Nat} {r : Option Nat} {ed1 : Option EptData} {k1 : Kernel}
    (hinv : TreeInv k root owned (upcoming ed k)) (hz : PoolZeroed ed k)
    (hp : p.length ≤ 2) (hw : walk k root p = some t) (hi : i < 512)
    (h : EptpConstructTables.enter t lvl i ed k = .ok (r, ed1, k1)) :
    ∃ new, TreeInv k1 root (new ++ owned) (upcoming ed1 k1) ∧ PoolZeroed ed1 k1 ∧
      (ed1 = none ↔ ed = none) ∧
      upcoming ed k = new.reverse ++ upcoming ed1 k1 ∧
      (∀ q x, q.length ≤ 3 → walk k root q = some x → walk k1 root q = some x) ∧
      (∀ q x, q.length = 3 → walk k root q = some x → k1.tables x = k.tables x) ∧
      (∀ a j, a ∈ owned → (k.tables a j).all ≠ 0 → k1.tables a j = k.tables a j) ∧
      (∀ c, r = some c → walk k1 root (p ++ [i]) = some c) ∧
      (r = none → k1.tables = k.tables) := by
  unfold EptpConstructTables.enter at h
  by_cases hslot : (k.tables t i).all = 0
  · rw [if_pos hslot] at h
    rcases ha : EptpAllocateEptEntry ed k with f | ⟨_ | T, d0, k0⟩
    · rw [ha] at h; simp at h
    · rw [ha] at h
      simp only [Except.ok.injEq, Prod.mk.injEq] at h
      obtain ⟨rfl, rfl, rfl⟩ := h
      obtain ⟨hz1, hn, hnone, -⟩ := allocate_spec ed k none d0 k0 hz ha
      obtain ⟨htab, hup⟩ := hnone rfl
      refine ⟨[], ?_, hz1, hn, by simp [hup], ?_, ?_, ?_, by simp, fun _ => htab⟩
      · rw [hup]; exact hinv.congr htab
      · intro q x _ hq; rw [walk_congr k k0 htab]; exact hq
      · intro q x _ _; rw [htab]
      · intro a j _ _; rw [htab]
    · rw [ha] at h
      simp only [Except.ok.injEq, Prod.mk.injEq] at h
      obtain ⟨rfl, rfl, rfl⟩ := h
      obtain ⟨hz1, hn, -, hsome⟩ := allocate_spec ed k (some T) d0 k0 hz ha
      obtain ⟨hup, hTz, hoth⟩ := hsome T rfl
      rw [hup] at hinv
      have hto : t ∈ owned := (hinv.reach t).1 ⟨p, by omega, hw⟩
      have htT : t ≠ T := by
        intro he
        exact hinv.not_fresh (by omega) hw (he ▸ List.mem_cons_self _ _)
      have hTr : 0 < T ∧ T < 2 ^ 36 := hinv.range T (by simp)
      have hEq : (k0.store t i (EptpInitTableEntry (k0.tables t i) lvl (UtilPaFromVa T))).tables
          t i = EptpInitTableEntry (k0.tables t i) lvl (UtilPaFromVa T) := by
        simp [Kernel.store]
      have hE : ((k0.store t i (EptpInitTableEntry (k0.tables t i) lvl
          (UtilPaFromVa T))).tables t i).physial_address = T := by
        rw [hEq]
        simp only [EptpInitTableEntry]
        exact pfn_of_table T hTr.2
      have hE1 : ((k0.store t i (EptpInitTableEntry (k0.tables t i) lvl
          (UtilPaFromVa T))).tables t i).all ≠ 0 := by
        rw [hEq]
        exact all_ne_zero_of_read _ rfl
      have hTz1 : ∀ j, (k0.store t i (EptpInitTableEntry (k0.tables t i) lvl
          (UtilPaFromVa T))).tables T j = EptCommonEntry.zero := by
        intro j
        simp only [Kernel.store, htT.symm, false_and, if_false]
        exact hTz j
      have hrest : ∀ a j, a ≠ T → ¬ (a = t ∧ j = i) →
          (k0.store t i (EptpInitTableEntry (k0.tables t i) lvl (UtilPaFromVa T))).tables a j
            = k.tables a j := by
        intro a j ha1 ha2
        simp only [Kernel.store, ha2, if_false]
        rw [hoth a ha1]
      obtain ⟨hinv1, hnew, hpres⟩ := hinv.graft hp hw hi hslot hTz1 hE1 hE hrest
      refine ⟨[T], ?_, ?_, hn, ?_, hpres, ?_, ?_, ?_, by simp⟩
      · rw [upcoming_store]; exact hinv1
      · apply hz1.store
        exact fun hm => (List.nodup_append.1 hinv.nodup).2.2 hto (List.mem_cons_of_mem _ hm)
      · rw [upcoming_store, hup]; rfl
      · intro q x hq hx
        have hxo : x ∈ owned := (hinv.reach x).1 ⟨q, by omega, hx⟩
        have hxT : x ≠ T := by
          intro he
          exact hinv.not_fresh (by omega) hx (he ▸ List.mem_cons_self _ _)
        have hxt : x ≠ t := by
          intro he
          have := hinv.inj q p x (by omega) (by omega) hx (he ▸ hw)
          rw [this] at hq; omega
        funext j
        exact hrest x j hxT (fun hc => hxt hc.1)
      · intro a j hao hne
        have haT : a ≠ T := by
          intro he
          exact (List.nodup_append.1 hinv.nodup).2.2 hao (he ▸ List.mem_cons_self _ _)
        apply hrest a j haT
        rintro ⟨rfl, rfl⟩
        exact hne hslot
      · intro c hc
        simp only [Option.some.injEq] at hc
        rw [← hc, hnew, hE]
        rfl
  · rw [if_neg hslot] at h
    simp only [Except.ok.injEq, Prod.mk.injEq] at h
    obtain ⟨rfl, rfl, rfl⟩ := h
    refine ⟨[], hinv, hz, Iff.rfl, by simp, fun _ _ _ hq => hq, fun _ _ _ _ => rfl,
      fun _ _ _ _ => rfl, ?_, by simp⟩
    intro c hc
    simp only [Option.some.injEq] at hc
    rw [walk_snoc k root p i t hw, if_pos ⟨hi, hslot⟩, hc]


/-! ## The constructor on a well-formed tree -/

theorem index_lt (pa : Nat) :
    EptpAddressToPxeIndex pa < 512 ∧ EptpAddressToPpeIndex pa < 512 ∧
      EptpAddressToPdeIndex pa < 512 ∧ EptpAddressToPteIndex pa < 512 := by
  rw [pxe_eq, ppe_eq, pde_eq, pte_eq]
  omega

/-- Walks of at most three slots do not read the page tables. -/
theorem walk_leaf_change (k k2 : Kernel) (root t1 : Nat) (p owned fresh : List Nat)
    (hinv : TreeInv k root owned fresh) (hp : p.length = 3) (hw : walk k root p = some t1)
    (hk : ∀ a, a ≠ t1 → k2.tables a = k.tables a) :
    ∀ (q p0 : List Nat) (s : Nat), walk k root p0 = some s → p0.length + q.length ≤ 3 →
      walk k2 s q = walk k s q := by
  intro q
  induction q with
  | nil => intro p0 s _ _; rfl
  | cons j rest ih =>
    intro p0 s hs hlen
    simp only [List.length_cons] at hlen
    have hst : s ≠ t1 := by
      intro he
      have := hinv.inj p0 p s (by omega) (by omega) hs (he ▸ hw)
      rw [this] at hlen; omega
    simp only [walk, hk s hst]
    split
    · rename_i hc
      apply ih (p0 ++ [j]) _ _ (by simp; omega)
      rw [walk_snoc k root p0 j s hs, if_pos hc]
    · rfl

theorem TreeInv.of_walk_eq {k k2 : Kernel} {root : Nat} {owned fresh : List Nat}
    (hinv : TreeInv k root owned fresh)
    (h : ∀ q, q.length ≤ 3 → walk k2 root q = walk k root q) :
    TreeInv k2 root owned fresh where
  inj := by
    intro p q t hp hq h1 h2
    rw [h p hp] at h1
    rw [h q hq] at h2
    exact hinv.inj p q t hp hq h1 h2
  reach := by
    intro t
    rw [← hinv.reach t]
    constructor
    · rintro ⟨q, hq, hw⟩; exact ⟨q, hq, by rw [← h q hq]; exact hw⟩
    · rintro ⟨q, hq, hw⟩; exact ⟨q, hq, by rw [h q hq]; exact hw⟩
  nodup := hinv.nodup
  range := hinv.range

theorem isLeafFor_init (e : EptCommonEntry) (pa : Nat) :
    IsLeafFor (EptpInitTableEntry e 1 pa) pa := by
  simp [IsLeafFor, EptpInitTableEntry, UtilPfnFromPa]

theorem construct_level1 {k : Kernel} {root t : Nat} {owned : List Nat} {ed : Option EptData}
    {pa : Nat} {r : Option (Nat × Nat)} {ed1 : Option EptData} {k1 : Kernel}
    (hinv : TreeInv k root owned (upcoming ed k)) (hz : PoolZeroed ed k)
    (hw : walk k root (pathOf pa) = some t)
    (h : EptpConstructTables 1 t pa ed k = .ok (r, ed1, k1)) :
    ConstructPost k root owned ed pa r ed1 k1 := by
  simp only [EptpConstructTables, Nat.reduceAdd, Nat.reduceEqDiff, if_false, if_true,
    OfNat.ofNat_ne_one, Nat.succ_ne_self, Except.ok.injEq, Prod.mk.injEq] at h
  obtain ⟨rfl, rfl, rfl⟩ := h
  have hlen : (pathOf pa).length = 3 := rfl
  have hto : t ∈ owned := (hinv.reach t).1 ⟨_, by rw [hlen], hw⟩
  have htu : t ∉ upcoming ed k := hinv.not_fresh (by rw [hlen]) hw
  generalize hk0 : (if (k.tables t (EptpAddressToPteIndex pa)).all = 0 then k
    else k.assertFailed) = k0
  have hk0t : k0.tables = k.tables := by
    rw [← hk0]; split <;> rfl
  have hk0u : upcoming ed k0 = upcoming ed k := by
    rw [← hk0]; split
    · rfl
    · exact upcoming_assertFailed ed k
  have hoth : ∀ a, a ≠ t → (k0.store t (EptpAddressToPteIndex pa)
      (EptpInitTableEntry (k0.tables t (EptpAddressToPteIndex pa)) 1 pa)).tables a
        = k.tables a := by
    intro a ha
    funext j
    simp only [Kernel.store, ha, false_and, if_false, hk0t]
  have hwalk : ∀ q, q.length ≤ 3 → walk (k0.store t (EptpAddressToPteIndex pa)
      (EptpInitTableEntry (k0.tables t (EptpAddressToPteIndex pa)) 1 pa)) root q
        = walk k root q := by
    intro q hq
    exact walk_leaf_change k _ root t (pathOf pa) owned _ hinv hlen hw hoth q [] root rfl
      (by simpa using hq)
  have hz0 : PoolZeroed ed k0 := by
    intro d hd
    obtain ⟨h0, h1, h2, h3⟩ := hz d hd
    refine ⟨h0, h1, h2, ?_⟩
    intro a ha j
    rw [hk0u] at ha
    rw [hk0t]
    exact h3 a ha j
  refine ⟨[], ?_, ?_, Iff.rfl, ?_, ?_, ?_, ?_⟩
  · rw [upcoming_store, hk0u]
    exact hinv.of_walk_eq hwalk
  · exact hz0.store _ _ _ (by rw [hk0u]; exact htu)
  · rw [upcoming_store, hk0u]; rfl
  · intro q x hq hx
    rw [hwalk q hq]; exact hx
  · intro q x j hq hx hne
    by_cases hxt : x = t
    · subst hxt
      have hqp : q = pathOf pa := hinv.inj q _ x (by omega) (by rw [hlen]) hx hw
      have hj : j ≠ EptpAddressToPteIndex pa := fun hj => hne ⟨hqp, hj⟩
      simp only [Kernel.store, hj, and_false, if_false, hk0t]
    · rw [hoth x hxt]
  · intro slot hs
    simp only [Option.some.injEq] at hs
    refine ⟨t, hs.symm, ?_, ?_⟩
    · rw [hwalk _ (by rw [hlen])]; exact hw
    · simp only [Kernel.store, and_self, if_true]
      exact isLeafFor_init _ _

theorem ConstructPost.after_failed_enter {k : Kernel} {root : Nat} {owned : List Nat}
    {ed : Option EptData} {pa : Nat} {p : List Nat} {t lvl i : Nat}
    {ed1 : Option EptData} {k1 : Kernel}
    (hinv : TreeInv k root owned (upcoming ed k)) (hz : PoolZeroed ed k)
    (hp : p.length ≤ 2) (hw : walk k root p = some t) (hi : i < 512)
    (h : EptpConstructTables.enter t lvl i ed k = .ok (none, ed1, k1)) :
    ConstructPost k root owned ed pa none ed1 k1 := by
  obtain ⟨new, h1, h2, h3, h4, h5, h6, -, -, -⟩ := enter_spec hinv hz hp hw hi h
  refine ⟨new, h1, h2, h3, h4, h5, ?_, by simp⟩
  intro q x j hq hx _
  rw [h6 q x hq hx]

theorem ConstructPost.after_enter {k : Kernel} {root : Nat} {owned : List Nat}
    {ed : Option EptData} {pa : Nat} {p : List Nat} {t lvl i c : Nat}
    {ed1 : Option EptData} {k1 : Kernel} {r : Option (Nat × Nat)}
    {ed2 : Option EptData} {k2 : Kernel}
    (hinv : TreeInv k root owned (upcoming ed k)) (hz : PoolZeroed ed k)
    (hp : p.length ≤ 2) (hw : walk k root p = some t) (hi : i < 512)
    (h : EptpConstructTables.enter t lvl i ed k = .ok (some c, ed1, k1))
    (hrec : ∀ owned1, TreeInv k1 root owned1 (upcoming ed1 k1) → PoolZeroed ed1 k1 →
      walk k1 root (p ++ [i]) = some c → ConstructPost k1 root owned1 ed1 pa r ed2 k2) :
    ConstructPost k root owned ed pa r ed2 k2 := by
  obtain ⟨new, h1, h2, h3, h4, h5, h6, -, h8, -⟩ := enter_spec hinv hz hp hw hi h
  obtain ⟨new2, g1, g2, g3, g4, g5, g6, g7⟩ := hrec _ h1 h2 (h8 c rfl)
  refine ⟨new2 ++ new, ?_, g2, g3.trans h3, ?_, ?_, ?_, g7⟩
  · rw [List.append_assoc]; exact g1
  · rw [h4, g4]; simp
  · intro q x hq hx
    exact g5 q x hq (h5 q x hq hx)
  · intro q x j hq hx hne
    rw [g6 q x j hq (h5 q x (by omega) hx) hne, h6 q x hq hx]

/-- On a well-formed tree `EptpConstructTables` from level 4 satisfies
`ConstructPost`. -/
theorem construct_spec {k : Kernel} {root : Nat} {owned : List Nat} {ed : Option EptData}
    {pa : Nat} {r : Option (Nat × Nat)} {ed1 : Option EptData} {k1 : Kernel}
    (hinv : TreeInv k root owned (upcoming ed k)) (hz : PoolZeroed ed k)
    (h : EptpConstructTables 4 root pa ed k = .ok (r, ed1, k1)) :
    ConstructPost k root owned ed pa r ed1 k1 := by
  obtain ⟨hx, hpp, hd, -⟩ := index_lt pa
  simp only [EptpConstructTables, Nat.reduceAdd, Nat.reduceEqDiff, if_false, if_true] at h
  rcases h4 : EptpConstructTables.enter root 4 (EptpAddressToPxeIndex pa) ed k with
    f | ⟨_ | c3, d3, k3⟩
  · rw [h4] at h; simp at h
  · rw [h4] at h
    simp only [Except.ok.injEq, Prod.mk.injEq] at h
    obtain ⟨rfl, rfl, rfl⟩ := h
    exact ConstructPost.after_failed_enter (p := []) hinv hz (by simp) rfl hx h4
  rw [h4] at h
  simp only at h
  refine ConstructPost.after_enter (p := []) hinv hz (by simp) rfl hx h4 ?_
  intro owned3 hinv3 hz3 hw3
  rcases h3 : EptpConstructTables.enter c3 3 (EptpAddressToPpeIndex pa) d3 k3 with
    f | ⟨_ | c2, d2, k2⟩
  · rw [h3] at h; simp at h
  · rw [h3] at h
    simp only [Except.ok.injEq, Prod.mk.injEq] at h
    obtain ⟨rfl, rfl, rfl⟩ := h
    exact ConstructPost.after_failed_enter hinv3 hz3 (by simp) hw3 hpp h3
  rw [h3] at h
  simp only at h
  refine ConstructPost.after_enter hinv3 hz3 (by simp) hw3 hpp h3 ?_
  intro owned2 hinv2 hz2 hw2
  rcases h2 : EptpConstructTables.enter c2 2 (EptpAddressToPdeIndex pa) d2 k2 with
    f | ⟨_ | c1, d1, k1'⟩
  · rw [h2] at h; simp at h
  · rw [h2] at h
    simp only [Except.ok.injEq, Prod.mk.injEq] at h
    obtain ⟨rfl, rfl, rfl⟩ := h
    exact ConstructPost.after_failed_enter hinv2 hz2 (by simp) hw2 hd h2
  rw [h2] at h
  simp only at h
  refine ConstructPost.after_enter hinv2 hz2 (by simp) hw2 hd h2 ?_
  intro owned1 hinv1 hz1 hw1
  exact construct_level1 hinv1 hz1 hw1 h


theorem walk_prefix (k : Kernel) (t : Nat) (p q : List Nat) (x : Nat)
    (h : walk k t (p ++ q) = some x) : ∃ s, walk k t p = some s := by
  rw [walk_append] at h
  cases hp : walk k t p with
  | none => rw [hp] at h; simp at h
  | some s => exact ⟨s, rfl⟩

theorem lookup_of_walk (k : Kernel) (root pa t1 : Nat)
    (h : walk k root (pathOf pa) = some t1) :
    EptpGetEptPtEntry k 4 root pa = some (t1, EptpAddressToPteIndex pa) := by
  simp only [pathOf, walk] at h
  split at h
  · split at h
    · split at h
      · simp only [Option.some.injEq] at h
        simp only [EptpGetEptPtEntry, Nat.reduceAdd, Nat.reduceEqDiff, if_false, if_true, h]
      · simp at h
    · simp at h
  · simp at h

/-- A zeroed root is a tree of one table. -/
theorem TreeInv.empty {k : Kernel} {root : Nat} {fresh : List Nat}
    (hzero : ∀ i, k.tables root i = EptCommonEntry.zero)
    (hnd : (root :: fresh).Nodup) (hr : ∀ t ∈ root :: fresh, 0 < t ∧ t < 2 ^ 36) :
    TreeInv k root [root] fresh := by
  have hwalk : ∀ q x, walk k root q = some x → q = [] ∧ x = root := by
    intro q x h
    cases q with
    | nil => simp only [walk, Option.some.injEq] at h; exact ⟨rfl, h.symm⟩
    | cons i rest =>
      simp only [walk, hzero, EptCommonEntry.zero, EptCommonEntry.all] at h
      simp at h
  refine ⟨?_, ?_, by simpa using hnd, by simpa using hr⟩
  · intro p q t _ _ h1 h2
    rw [(hwalk p t h1).1, (hwalk q t h2).1]
  · intro t
    constructor
    · rintro ⟨q, _, h⟩
      simp [(hwalk q t h).2]
    · intro h
      simp only [List.mem_singleton] at h
      exact ⟨[], by simp, by simp [walk, h]⟩

/-- C2: on a well-formed tree, for either allocation context, a call
`EptpConstructTables(pml4, 4, address, state)` that returns an entry leaves a
well-formed tree in which the three tables on the path of the address exist,
returns the level-1 slot selected by the address, which grants read, write and
execute with memory type write-back and holds the frame number `address >> 12`
for every address below `2^48`, and `EptpGetEptPtEntry(pml4, 4, address)` then
returns that same entry.  Physical addresses are below `2^48`:
`EptIsEptAvailable` refuses a processor with more than 48 physical-address
bits, and the callers pass run pages, the APIC base and the guest-physical
address of the fault.  For any 64-bit value the field holds
`(address >> 12) mod 2^36`.  This holds whether or not the leaf slot was empty
before the call. -/
theorem construct_builds_path_and_leaf (k : Kernel) (root : Nat) (ed : Option EptData)
    (pa : Nat) (slot : Nat × Nat) (ed1 : Option EptData) (k1 : Kernel)
    (hwf : WellFormed k root ed)
    (h : EptpConstructTables 4 root pa ed k = .ok (some slot, ed1, k1)) :
    WellFormed k1 root ed1 ∧
    (∃ t3 t2 t1, walk k1 root [EptpAddressToPxeIndex pa] = some t3 ∧
      walk k1 root [EptpAddressToPxeIndex pa, EptpAddressToPpeIndex pa] = some t2 ∧
      walk k1 root [EptpAddressToPxeIndex pa, EptpAddressToPpeIndex pa,
        EptpAddressToPdeIndex pa] = some t1 ∧
      slot = (t1, EptpAddressToPteIndex pa)) ∧
    (k1.tables slot.1 slot.2).read_access = true ∧
    (k1.tables slot.1 slot.2).write_access = true ∧
    (k1.tables slot.1 slot.2).execute_access = true ∧
    (k1.tables slot.1 slot.2).memory_type = kWriteBack ∧
    (k1.tables slot.1 slot.2).physial_address = (pa >>> 12) % 2 ^ 36 ∧
    (pa < 2 ^ 48 → (k1.tables slot.1 slot.2).physial_address = pa >>> 12) ∧
    EptpGetEptPtEntry k1 4 root pa = some slot := by
  obtain ⟨⟨owned, hinv⟩, hz⟩ := hwf
  obtain ⟨new, g1, g2, -, -, -, -, g7⟩ := construct_spec hinv hz h
  obtain ⟨t1, hs, hw, hl⟩ := g7 slot rfl
  obtain ⟨l1, l2, l3, l4, l5⟩ := hl
  obtain ⟨t2, ht2⟩ := walk_prefix k1 root
    [EptpAddressToPxeIndex pa, EptpAddressToPpeIndex pa] [EptpAddressToPdeIndex pa] t1 hw
  obtain ⟨t3, ht3⟩ := walk_prefix k1 root
    [EptpAddressToPxeIndex pa] [EptpAddressToPpeIndex pa] t2 ht2
  subst hs
  refine ⟨⟨⟨_, g1⟩, g2⟩, ⟨t3, t2, t1, ht3, ht2, hw, rfl⟩, l1, l2, l3, l4, l5, ?_,
    lookup_of_walk k1 root pa t1 hw⟩
  intro hpa
  rw [l5, Nat.shiftRight_eq_div_pow]
  apply Nat.mod_eq_of_lt
  norm_num at hpa ⊢
  omega

theorem sampleKernel_wellFormed : WellFormed (sampleKernel 2 3) 1 none := by
  refine ⟨⟨[1], TreeInv.empty (fun _ => rfl) ?_ ?_⟩, ?_⟩
  · decide
  · decide
  · intro d hd; cases hd

/-- Witness of C2: the address 0x104000 on the empty tree whose root
is block 1, in initialization context with the pool blocks 2, 3 and 4. -/
theorem construct_builds_path_and_leaf_witness :
    WellFormed (sampleKernel 2 3) 1 none ∧
    ∃ k1, EptpConstructTables 4 1 0x104000 none (sampleKernel 2 3) =
        .ok (some (4, 260), none, k1) ∧
      (k1.tables 4 260).physial_address = 0x104 ∧
      EptpGetEptPtEntry k1 4 1 0x104000 = some (4, 260) :=
  ⟨sampleKernel_wellFormed, _, rfl,
    (construct_builds_path_and_leaf (sampleKernel 2 3) 1 none 0x104000 (4, 260) none _
      sampleKernel_wellFormed rfl).2.2.2.2.2.2.2.1 (by norm_num),
    (construct_builds_path_and_leaf (sampleKernel 2 3) 1 none 0x104000 (4, 260) none _
      sampleKernel_wellFormed rfl).2.2.2.2.2.2.2.2⟩

/-- The bound `2^48` of C2 is the width of the frame-number field: for the
value `2^48`, which is no physical address of a processor that
`EptIsEptAvailable` accepts, the call on the empty well-formed tree succeeds
and the frame number of the returned entry is 0, while `2^48 >> 12 = 2^36`. -/
theorem construct_truncates_frame_number :
    WellFormed (sampleKernel 2 3) 1 none ∧
    (∀ t i, (sampleKernel 2 3).tables t i = EptCommonEntry.zero) ∧
    (EptpConstructTables 4 1 (2 ^ 48) none (sampleKernel 2 3)).toOption.bind
      (fun r => r.1.map (fun s => (r.2.2.tables s.1 s.2).physial_address)) = some 0 ∧
    (2 ^ 48 : Nat) >>> 12 = 2 ^ 36 := by
  refine ⟨sampleKernel_wellFormed, fun _ _ => rfl, ?_, by decide⟩
  decide


/-! ## The constructor, slot by slot -/

/-- The block of cases 4, 3 and 2 on a reached table, with its effect on
every slot: besides the facts of `enter_spec`, a walk of the new tree is a
walk of the old tree or ends at the table linked in, the only slot of an old
table that changes is the slot entered, which was zero, the table linked in
is zero, no assertion is tripped and nothing is freed. -/
theorem enter_full {k : Kernel} {root : Nat} {owned : List Nat} {ed : Option EptData}
    {p : List Nat} {t lvl i : Nat} {r : Option Nat} {ed1 : Option EptData} {k1 : Kernel}
    (hinv : TreeInv k root owned (upcoming ed k)) (hz : PoolZeroed ed k)
    (hp : p.length ≤ 2) (hw : walk k root p = some t) (hi : i < 512)
    (h : EptpConstructTables.enter t lvl i ed k = .ok (r, ed1, k1)) :
    ∃ new, TreeInv k1 root (new ++ owned) (upcoming ed1 k1) ∧ PoolZeroed ed1 k1 ∧
      upcoming ed k = new.reverse ++ upcoming ed1 k1 ∧
      (∀ q x, q.length ≤ 3 → walk k root q = some x → walk k1 root q = some x) ∧
      (∀ q x, q.length ≤ 3 → walk k1 root q = some x →
        walk k root q = some x ∨ (q = p ++ [i] ∧ x ∈ new)) ∧
      (∀ a j, a ∉ new → k1.tables a j ≠ k.tables a j →
        a = t ∧ j = i ∧ (k.tables t i).all = 0) ∧
      (∀ a j, a ∈ new → k1.tables a j = EptCommonEntry.zero) ∧
      k1.assertion_failures = k.assertion_failures ∧ k1.freed = k.freed ∧
      (∀ c, r = some c → walk k1 root (p ++ [i]) = some c) ∧
      (r = none → k1.tables = k.tables ∧ (k.tables t i).all = 0 ∧ new = []) := by
  unfold EptpConstructTables.enter at h
  by_cases hslot : (k.tables t i).all = 0
  · rw [if_pos hslot] at h
    rcases ha : EptpAllocateEptEntry ed k with f | ⟨_ | T, d0, k0⟩
    · rw [ha] at h; simp at h
    · rw [ha] at h
      simp only [Except.ok.injEq, Prod.mk.injEq] at h
      obtain ⟨rfl, rfl, rfl⟩ := h
      obtain ⟨hz1, hn, hnone, -⟩ := allocate_spec ed k none d0 k0 hz ha
      obtain ⟨htab, hup⟩ := hnone rfl
      have hlogs : k0.assertion_failures = k.assertion_failures ∧ k0.freed = k.freed := by
        cases ed with
        | none =>
          simp only [EptpAllocateEptEntry, EptpAllocateEptEntryFromPool] at ha
          have hs := ExAllocatePoolWithTag_spec k
          rcases hx : ExAllocatePoolWithTag k with ⟨_ | a, kx⟩
          · rw [hx] at ha hs
            simp only [Except.ok.injEq, Prod.mk.injEq] at ha
            obtain ⟨-, -, rfl⟩ := ha
            exact ⟨hs.2.2.1, hs.2.1⟩
          · rw [hx] at ha; simp at ha
        | some d =>
          simp only [EptpAllocateEptEntry] at ha
          split at ha
          · simp at ha
          · simp only [Except.ok.injEq, Prod.mk.injEq] at ha
            obtain ⟨-, -, rfl⟩ := ha
            exact ⟨rfl, rfl⟩
      refine ⟨[], ?_, hz1, by simp [hup], ?_, ?_, ?_, by simp, hlogs.1, hlogs.2, by simp,
        fun _ => ⟨htab, hslot, rfl⟩⟩
      · rw [hup]; exact hinv.congr htab
      · intro q x _ hq; rw [walk_congr k k0 htab]; exact hq
      · intro q x _ hq; left; rw [← walk_congr k k0 htab]; exact hq
      · intro a j _ hne; rw [htab] at hne; exact absurd rfl hne
    · rw [ha] at h
      simp only [Except.ok.injEq, Prod.mk.injEq] at h
      obtain ⟨rfl, rfl, rfl⟩ := h
      obtain ⟨hz1, hn, -, hsome⟩ := allocate_spec ed k (some T) d0 k0 hz ha
      obtain ⟨hup, hTz, hoth⟩ := hsome T rfl
      have hlogs : k0.assertion_failures = k.assertion_failures ∧ k0.freed = k.freed := by
        cases ed with
        | none =>
          simp only [EptpAllocateEptEntry, EptpAllocateEptEntryFromPool] at ha
          have hs := ExAllocatePoolWithTag_spec k
          rcases hx : ExAllocatePoolWithTag k with ⟨_ | a, kx⟩
          · rw [hx] at ha; simp at ha
          · rw [hx] at ha hs
            simp only [Except.ok.injEq, Prod.mk.injEq] at ha
            obtain ⟨-, -, rfl⟩ := ha
            exact ⟨hs.2.2.1, hs.2.1⟩
        | some d =>
          simp only [EptpAllocateEptEntry] at ha
          split at ha
          · simp at ha
          · simp only [Except.ok.injEq, Prod.mk.injEq] at ha
            obtain ⟨-, -, rfl⟩ := ha
            exact ⟨rfl, rfl⟩
      rw [hup] at hinv
      have hto : t ∈ owned := (hinv.reach t).1 ⟨p, by omega, hw⟩
      have htT : t ≠ T := by
        intro he
        exact hinv.not_fresh (by omega) hw (he ▸ List.mem_cons_self _ _)
      have hTr : 0 < T ∧ T < 2 ^ 36 := hinv.range T (by simp)
      have hEq : (k0.store t i (EptpInitTableEntry (k0.tables t i) lvl (UtilPaFromVa T))).tables
          t i = EptpInitTableEntry (k0.tables t i) lvl (UtilPaFromVa T) := by
        simp [Kernel.store]
      have hE : ((k0.store t i (EptpInitTableEntry (k0.tables t i) lvl
          (UtilPaFromVa T))).tables t i).physial_address = T := by
        rw [hEq]
        simp only [EptpInitTableEntry]
        exact pfn_of_table T hTr.2
      have hE1 : ((k0.store t i (EptpInitTableEntry (k0.tables t i) lvl
          (UtilPaFromVa T))).tables t i).all ≠ 0 := by
        rw [hEq]
        exact all_ne_zero_of_read _ rfl
      have hTz1 : ∀ j, (k0.store t i (EptpInitTableEntry (k0.tables t i) lvl
          (UtilPaFromVa T))).tables T j = EptCommonEntry.zero := by
        intro j
        simp only [Kernel.store, htT.symm, false_and, if_false]
        exact hTz j
      have hrest : ∀ a j, a ≠ T → ¬ (a = t ∧ j = i) →
          (k0.store t i (EptpInitTableEntry (k0.tables t i) lvl (UtilPaFromVa T))).tables a j
            = k.tables a j := by
        intro a j ha1 ha2
        simp only [Kernel.store, ha2, if_false]
        rw [hoth a ha1]
      obtain ⟨hinv1, hnew, hpres⟩ := hinv.graft hp hw hi hslot hTz1 hE1 hE hrest
      refine ⟨[T], ?_, ?_, ?_, hpres, ?_, ?_, ?_, hlogs.1, hlogs.2, ?_, by simp⟩
      · rw [upcoming_store]; exact hinv1
      · apply hz1.store
        exact fun hm => (List.nodup_append.1 hinv.nodup).2.2 hto (List.mem_cons_of_mem _ hm)
      · rw [upcoming_store, hup]; rfl
      · intro q x hq hx
        rcases walk_reflected k _ root T t i p owned _ hinv hp hw hTz1 hE hrest q [] root x rfl
          (by simpa using hq) hx with h1 | ⟨h1, h2⟩
        · left; exact h1
        · right; exact ⟨by simpa using h1, by simp [h2]⟩
      · intro a j ha hne
        have haT : a ≠ T := by simpa using ha
        by_contra hc
        exact hne (hrest a j haT (fun hx => hc ⟨hx.1, hx.2, hslot⟩))
      · intro a j ha
        simp only [List.mem_singleton] at ha
        subst ha
        exact hTz1 j
      · intro c hc
        simp only [Option.some.injEq] at hc
        rw [← hc, hnew, hE]
        rfl
  · rw [if_neg hslot] at h
    simp only [Except.ok.injEq, Prod.mk.injEq] at h
    obtain ⟨rfl, rfl, rfl⟩ := h
    refine ⟨[], hinv, hz, by simp, fun _ _ _ hq => hq, fun _ _ _ hq => Or.inl hq,
      fun _ _ _ hne => absurd rfl hne, by simp, rfl, rfl, ?_, by simp⟩
    intro c hc
    simp only [Option.some.injEq] at hc
    rw [walk_snoc k root p i t hw, if_pos ⟨hi, hslot⟩, hc]

/-! ## What a call of the constructor changes -/

theorem selectors_eq (pa : Nat) : selectors pa = [EptpAddressToPxeIndex pa,
    EptpAddressToPpeIndex pa, EptpAddressToPdeIndex pa, EptpAddressToPteIndex pa] := rfl

theorem take_pathOf_succ (pa n i : Nat) (hn : n ≤ 2) (hi : (selectors pa)[n]? = some i) :
    (pathOf pa).take (n + 1) = (pathOf pa).take n ++ [i] := by
  rw [selectors_eq] at hi
  interval_cases n <;> simp_all [pathOf]

theorem length_take_pathOf (pa m : Nat) (hm : m ≤ 3) : ((pathOf pa).take m).length = m := by
  simp [pathOf]; omega

/-- Two depths at which the path of an address reaches the same table are
the same depth. -/
theorem TreeInv.depth_unique {k : Kernel} {root : Nat} {owned fresh : List Nat}
    (hinv : TreeInv k root owned fresh) {pa m n a : Nat} (hm : m ≤ 3) (hn : n ≤ 3)
    (h1 : walk k root ((pathOf pa).take m) = some a)
    (h2 : walk k root ((pathOf pa).take n) = some a) : m = n := by
  have := hinv.inj _ _ a (by rw [length_take_pathOf pa m hm]; exact hm)
    (by rw [length_take_pathOf pa n hn]; exact hn) h1 h2
  have hl := congrArg List.length this
  rwa [length_take_pathOf pa m hm, length_take_pathOf pa n hn] at hl

theorem OnPathAt.lift {k k2 : Kernel} {root pa m a j : Nat}
    (hkept : ∀ q x, q.length ≤ 3 → walk k root q = some x → walk k2 root q = some x)
    (h : OnPathAt k root pa m a j) : OnPathAt k2 root pa m a j :=
  ⟨h.1, hkept _ _ (by rw [length_take_pathOf pa m h.1]; exact h.1) h.2.1, h.2.2⟩

theorem Descent.start (k : Kernel) (root pa : Nat) : Descent k root pa 0 k [] where
  kept := fun _ _ _ h => h
  reflected := fun _ _ _ h => Or.inl h
  old_slots := fun _ _ _ h => absurd rfl h
  new_slots := fun _ _ h => absurd h (List.not_mem_nil _)
  freed := rfl

/-- One more level: the effect of the block of cases 4, 3 and 2 at depth `n`
added to the effect of the levels above. -/
theorem Descent.step {k0 k1 k2 : Kernel} {root pa n t i : Nat}
    {owned1 fresh1 new new2 : List Nat}
    (hd : Descent k0 root pa n k1 new) (hinv1 : TreeInv k1 root owned1 fresh1)
    (hn : n ≤ 2) (hw : walk k1 root ((pathOf pa).take n) = some t)
    (hi : (selectors pa)[n]? = some i)
    (hkept : ∀ q x, q.length ≤ 3 → walk k1 root q = some x → walk k2 root q = some x)
    (hrefl : ∀ q x, q.length ≤ 3 → walk k2 root q = some x →
      walk k1 root q = some x ∨ (q = (pathOf pa).take n ++ [i] ∧ x ∈ new2))
    (hoth : ∀ a j, a ∉ new2 → k2.tables a j ≠ k1.tables a j →
      a = t ∧ j = i ∧ (k1.tables t i).all = 0)
    (hzero : ∀ a j, a ∈ new2 → k2.tables a j = EptCommonEntry.zero)
    (hfreed : k2.freed = k1.freed) :
    Descent k0 root pa (n + 1) k2 (new2 ++ new) where
  kept := fun q x hq h => hkept q x hq (hd.kept q x hq h)
  reflected := by
    intro q x hq h
    rcases hrefl q x hq h with h1 | ⟨h1, h2⟩
    · rcases hd.reflected q x hq h1 with h3 | ⟨h3, m, hm0, hmn, hm3, hqm⟩
      · exact Or.inl h3
      · exact Or.inr ⟨List.mem_append_right _ h3, m, hm0, by omega, hm3, hqm⟩
    · refine Or.inr ⟨List.mem_append_left _ h2, n + 1, by omega, le_refl _, by omega, ?_⟩
      rw [h1, take_pathOf_succ pa n i hn hi]
  old_slots := by
    intro a j ha hne
    simp only [List.mem_append, not_or] at ha
    by_cases h21 : k2.tables a j = k1.tables a j
    · rw [h21] at hne
      obtain ⟨m, hm, hon, hz, -⟩ := hd.old_slots a j ha.2 hne
      exact ⟨m, by omega, hon.lift hkept, hz, fun h3 => by omega⟩
    · obtain ⟨rfl, rfl, hz⟩ := hoth a j ha.1 h21
      refine ⟨n, by omega, ⟨by omega, hkept _ _ (by rw [length_take_pathOf pa n (by omega)]; omega) hw, hi⟩,
        ?_, fun h3 => by omega⟩
      intro _
      by_cases h10 : k1.tables a j = k0.tables a j
      · rw [← h10]; exact hz
      · obtain ⟨m, hm, hon, -, -⟩ := hd.old_slots a j ha.2 h10
        have := hinv1.depth_unique hon.1 (by omega) hon.2.1 hw
        omega
  new_slots := by
    intro a j ha hne
    by_cases ha2 : a ∈ new2
    · exact absurd (hzero a j ha2) hne
    · have ha1 : a ∈ new := by
        rcases List.mem_append.1 ha with h | h
        · exact absurd h ha2
        · exact h
      by_cases h21 : k2.tables a j = k1.tables a j
      · rw [h21] at hne
        obtain ⟨m, hm, hon, -⟩ := hd.new_slots a j ha1 hne
        exact ⟨m, by omega, hon.lift hkept, fun h3 => by omega⟩
      · obtain ⟨rfl, rfl, -⟩ := hoth a j ha2 h21
        exact ⟨n, by omega,
          ⟨by omega, hkept _ _ (by rw [length_take_pathOf pa n (by omega)]; omega) hw, hi⟩,
          fun h3 => by omega⟩
  freed := hfreed.trans hd.freed

/-- The page-table level: the effect of case 1 added to the effect of the
three levels above. -/
theorem Descent.leaf {k0 k1 k2 : Kernel} {root pa t1 : Nat} {owned1 fresh1 new : List Nat}
    (hd : Descent k0 root pa 3 k1 new) (hinv1 : TreeInv k1 root owned1 fresh1)
    (hw : walk k1 root (pathOf pa) = some t1)
    (hwalk : ∀ q, q.length ≤ 3 → walk k2 root q = walk k1 root q)
    (hleaf : k2.tables t1 (EptpAddressToPteIndex pa) =
      EptpInitTableEntry (k1.tables t1 (EptpAddressToPteIndex pa)) 1 pa)
    (hoth : ∀ a j, ¬ (a = t1 ∧ j = EptpAddressToPteIndex pa) → k2.tables a j = k1.tables a j)
    (hfreed : k2.freed = k1.freed) :
    Descent k0 root pa 4 k2 new where
  kept := fun q x hq h => by rw [hwalk q hq]; exact hd.kept q x hq h
  reflected := by
    intro q x hq h
    rw [hwalk q hq] at h
    rcases hd.reflected q x hq h with h3 | ⟨h3, m, hm0, hmn, hm3, hqm⟩
    · exact Or.inl h3
    · exact Or.inr ⟨h3, m, hm0, by omega, hm3, hqm⟩
  old_slots := by
    have hkept : ∀ q x, q.length ≤ 3 → walk k1 root q = some x → walk k2 root q = some x :=
      fun q x hq h => by rw [hwalk q hq]; exact h
    have hw3 : walk k1 root ((pathOf pa).take 3) = some t1 := hw
    intro a j ha hne
    by_cases hs : a = t1 ∧ j = EptpAddressToPteIndex pa
    · obtain ⟨rfl, rfl⟩ := hs
      refine ⟨3, by omega, ⟨le_refl _, hkept _ _ (by simp [pathOf]) hw3, rfl⟩,
        fun h3 => by omega, fun _ => ?_⟩
      rw [hleaf]
      by_cases h10 : k1.tables a (EptpAddressToPteIndex pa) =
          k0.tables a (EptpAddressToPteIndex pa)
      · rw [h10]
      · obtain ⟨m, hm, hon, -, -⟩ := hd.old_slots a _ ha h10
        have := hinv1.depth_unique hon.1 (le_refl 3) hon.2.1 hw3
        omega
    · rw [hoth a j hs] at hne
      obtain ⟨m, hm, hon, hz, -⟩ := hd.old_slots a j ha hne
      exact ⟨m, by omega, hon.lift hkept, hz, fun h3 => by omega⟩
  new_slots := by
    have hkept : ∀ q x, q.length ≤ 3 → walk k1 root q = some x → walk k2 root q = some x :=
      fun q x hq h => by rw [hwalk q hq]; exact h
    have hw3 : walk k1 root ((pathOf pa).take 3) = some t1 := hw
    intro a j ha hne
    by_cases hs : a = t1 ∧ j = EptpAddressToPteIndex pa
    · obtain ⟨rfl, rfl⟩ := hs
      refine ⟨3, by omega, ⟨le_refl _, hkept _ _ (by simp [pathOf]) hw3, rfl⟩, fun _ => ?_⟩
      rw [hleaf]
      by_cases h10 : k1.tables a (EptpAddressToPteIndex pa) = EptCommonEntry.zero
      · rw [h10]
      · obtain ⟨m, hm, hon, -⟩ := hd.new_slots a _ ha h10
        have := hinv1.depth_unique hon.1 (le_refl 3) hon.2.1 hw3
        omega
    · rw [hoth a j hs] at hne
      obtain ⟨m, hm, hon, -⟩ := hd.new_slots a j ha hne
      exact ⟨m, by omega, hon.lift hkept, fun h3 => by omega⟩
  freed := hfreed.trans hd.freed

theorem Descent.of_tables_eq {k0 k1 k2 : Kernel} {root pa n : Nat} {new : List Nat}
    (hd : Descent k0 root pa n k1 new) (ht : k2.tables = k1.tables)
    (hf : k2.freed = k1.freed) : Descent k0 root pa n k2 new where
  kept := fun q x hq h => by rw [walk_congr k1 k2 ht]; exact hd.kept q x hq h
  reflected := fun q x hq h => hd.reflected q x hq (by rw [← walk_congr k1 k2 ht]; exact h)
  old_slots := by
    intro a j ha hne
    rw [ht] at hne
    obtain ⟨m, hm, hon, h1, h2⟩ := hd.old_slots a j ha hne
    refine ⟨m, hm, ⟨hon.1, by rw [walk_congr k1 k2 ht]; exact hon.2.1, hon.2.2⟩, h1, ?_⟩
    rw [ht]; exact h2
  new_slots := by
    intro a j ha hne
    rw [ht] at hne
    obtain ⟨m, hm, hon, h2⟩ := hd.new_slots a j ha hne
    refine ⟨m, hm, ⟨hon.1, by rw [walk_congr k1 k2 ht]; exact hon.2.1, hon.2.2⟩, ?_⟩
    rw [ht]; exact h2
  freed := hf.trans hd.freed

/-- A failed allocation at depth `n` ends the call with the frame of the
levels above. -/
theorem frame_fail {k0 k : Kernel} {root pa n t lvl i : Nat} {owned new : List Nat}
    {ed0 ed ed1 : Option EptData} {k1 : Kernel}
    (hd : Descent k0 root pa n k new) (hinv : TreeInv k root (new ++ owned) (upcoming ed k))
    (hz : PoolZeroed ed k) (hup : upcoming ed0 k0 = new.reverse ++ upcoming ed k)
    (haf : k.assertion_failures = k0.assertion_failures)
    (hn : n ≤ 2) (hw : walk k root ((pathOf pa).take n) = some t)
    (hi : (selectors pa)[n]? = some i) (hi5 : i < 512)
    (h : EptpConstructTables.enter t lvl i ed k = .ok (none, ed1, k1)) :
    ConstructFrame k0 root owned ed0 pa none ed1 k1 := by
  obtain ⟨new2, h1, h2, h3, h4, -, -, -, h8, h9, -, h11⟩ :=
    enter_full hinv hz (by rw [length_take_pathOf pa n (by omega)]; exact hn) hw hi5 h
  obtain ⟨ht, hs, rfl⟩ := h11 rfl
  refine ⟨new, n, hd.of_tables_eq ht h9, h1, h2, ?_, by simp, fun _ => ⟨hn, h8.trans haf, t, i, ?_, hi, ?_⟩⟩
  · rw [hup, h3]; simp
  · rw [walk_congr k k1 ht]; exact hw
  · rw [ht]; exact hs

/-- A slot entered at depth `n` takes the call one level down. -/
theorem frame_step {k0 k : Kernel} {root pa n t lvl i c : Nat} {owned new : List Nat}
    {ed0 ed ed1 : Option EptData} {k1 : Kernel}
    (hd : Descent k0 root pa n k new) (hinv : TreeInv k root (new ++ owned) (upcoming ed k))
    (hz : PoolZeroed ed k) (hup : upcoming ed0 k0 = new.reverse ++ upcoming ed k)
    (haf : k.assertion_failures = k0.assertion_failures)
    (hn : n ≤ 2) (hw : walk k root ((pathOf pa).take n) = some t)
    (hi : (selectors pa)[n]? = some i) (hi5 : i < 512)
    (h : EptpConstructTables.enter t lvl i ed k = .ok (some c, ed1, k1)) :
    ∃ new1, Descent k0 root pa (n + 1) k1 new1 ∧
      TreeInv k1 root (new1 ++ owned) (upcoming ed1 k1) ∧ PoolZeroed ed1 k1 ∧
      upcoming ed0 k0 = new1.reverse ++ upcoming ed1 k1 ∧
      k1.assertion_failures = k0.assertion_failures ∧
      walk k1 root ((pathOf pa).take (n + 1)) = some c := by
  obtain ⟨new2, h1, h2, h3, h4, h5, h6, h7, h8, h9, h10, -⟩ :=
    enter_full hinv hz (by rw [length_take_pathOf pa n (by omega)]; exact hn) hw hi5 h
  refine ⟨new2 ++ new, hd.step hinv hn hw hi h4 h5 h6 h7 h9, ?_, h2, ?_, h8.trans haf, ?_⟩
  · rw [List.append_assoc]; exact h1
  · rw [hup, h3]; simp
  · rw [take_pathOf_succ pa n i hn hi]; exact h10 c rfl

/-- Case 1 of the constructor, reached along the path of the address. -/
theorem frame_leaf {k0 k : Kernel} {root pa t1 : Nat} {owned fresh0 new : List Nat}
    {ed0 ed ed1 : Option EptData} {k1 : Kernel} {r : Option (Nat × Nat)}
    (hinv0 : TreeInv k0 root owned fresh0)
    (hd : Descent k0 root pa 3 k new) (hinv : TreeInv k root (new ++ owned) (upcoming ed k))
    (hz : PoolZeroed ed k) (hup : upcoming ed0 k0 = new.reverse ++ upcoming ed k)
    (haf : k.assertion_failures = k0.assertion_failures)
    (hw : walk k root (pathOf pa) = some t1)
    (h : EptpConstructTables 1 t1 pa ed k = .ok (r, ed1, k1)) :
    ConstructFrame k0 root owned ed0 pa r ed1 k1 := by
  simp only [EptpConstructTables, Nat.reduceAdd, Nat.reduceEqDiff, if_false, if_true,
    OfNat.ofNat_ne_one, Nat.succ_ne_self, Except.ok.injEq, Prod.mk.injEq] at h
  obtain ⟨rfl, rfl, rfl⟩ := h
  have hlen : (pathOf pa).length = 3 := rfl
  have hw3 : walk k root ((pathOf pa).take 3) = some t1 := hw
  generalize hk0 : (if (k.tables t1 (EptpAddressToPteIndex pa)).all = 0 then k
    else k.assertFailed) = kx at *
  have hkxt : kx.tables = k.tables := by
    rw [← hk0]; split <;> rfl
  have hkxf : kx.freed = k.freed := by
    rw [← hk0]; split <;> rfl
  have hkxu : upcoming ed kx = upcoming ed k := by
    rw [← hk0]; split
    · rfl
    · exact upcoming_assertFailed ed k
  have hoth : ∀ a, a ≠ t1 → (kx.store t1 (EptpAddressToPteIndex pa)
      (EptpInitTableEntry (kx.tables t1 (EptpAddressToPteIndex pa)) 1 pa)).tables a
        = k.tables a := by
    intro a ha
    funext j
    simp only [Kernel.store, ha, false_and, if_false, hkxt]
  have hwalk : ∀ q, q.length ≤ 3 → walk (kx.store t1 (EptpAddressToPteIndex pa)
      (EptpInitTableEntry (kx.tables t1 (EptpAddressToPteIndex pa)) 1 pa)) root q
        = walk k root q := by
    intro q hq
    exact walk_leaf_change k _ root t1 (pathOf pa) _ _ hinv hlen hw hoth q [] root rfl
      (by simpa using hq)
  have hdesc : Descent k0 root pa 4 (kx.store t1 (EptpAddressToPteIndex pa)
      (EptpInitTableEntry (kx.tables t1 (EptpAddressToPteIndex pa)) 1 pa)) new := by
    refine hd.leaf hinv hw hwalk ?_ ?_ ?_
    · simp [Kernel.store, hkxt]
    · intro a j hs
      simp only [Kernel.store, hs, if_false, hkxt]
    · simp [Kernel.store, hkxf]
  have hzero_iff : (k.tables t1 (EptpAddressToPteIndex pa)).all = 0 ↔ LeafEmpty k0 root pa := by
    have hsame : t1 ∉ new → k.tables t1 (EptpAddressToPteIndex pa) =
        k0.tables t1 (EptpAddressToPteIndex pa) := by
      intro hnew
      by_contra hne
      obtain ⟨m, hm, hon, -, -⟩ := hd.old_slots _ _ hnew hne
      have := hinv.depth_unique hon.1 (le_refl 3) hon.2.1 hw3
      omega
    constructor
    · intro hzr t' ht'
      have ht1 : walk k root (pathOf pa) = some t' := hd.kept _ _ (by rw [hlen]) ht'
      rw [hw] at ht1
      simp only [Option.some.injEq] at ht1
      subst ht1
      have hto : t1 ∈ owned := (hinv0.reach t1).1 ⟨_, by rw [hlen], ht'⟩
      have hnew : t1 ∉ new := fun hm =>
        (List.nodup_append.1 (List.nodup_append.1 hinv.nodup).1).2.2 hm hto
      rw [← hsame hnew]; exact hzr
    · intro hle
      by_cases hnew : t1 ∈ new
      · by_contra hne
        have hne1 : k.tables t1 (EptpAddressToPteIndex pa) ≠ EptCommonEntry.zero := by
          intro he; rw [he] at hne; exact hne rfl
        obtain ⟨m, hm, hon, -⟩ := hd.new_slots _ _ hnew hne1
        have := hinv.depth_unique hon.1 (le_refl 3) hon.2.1 hw3
        omega
      · rcases hd.reflected _ _ (by rw [hlen]) hw with h0 | ⟨h0, -⟩
        · rw [hsame hnew]; exact hle t1 h0
        · exact absurd h0 hnew
  have htu : t1 ∉ upcoming ed k := hinv.not_fresh (by rw [hlen]) hw
  have hzx : PoolZeroed ed kx := by
    intro d hd
    obtain ⟨h0, h1, h2, h3⟩ := hz d hd
    refine ⟨h0, h1, h2, ?_⟩
    intro a ha j
    rw [hkxu] at ha
    rw [hkxt]
    exact h3 a ha j
  refine ⟨new, 4, hdesc, ?_, ?_, ?_, ?_, by simp⟩
  · rw [upcoming_store, hkxu]
    exact hinv.of_walk_eq hwalk
  · exact hzx.store _ _ _ (by rw [hkxu]; exact htu)
  · rw [upcoming_store, hkxu]; exact hup
  · intro slot hs
    simp only [Option.some.injEq] at hs
    refine ⟨rfl, t1, hs.symm, by rw [hwalk _ (by rw [hlen])]; exact hw, ?_, ?_⟩
    · intro hle
      have := hzero_iff.2 hle
      rw [← hk0, if_pos this]; exact haf
    · intro hle
      have : ¬ (k.tables t1 (EptpAddressToPteIndex pa)).all = 0 := fun h => hle (hzero_iff.1 h)
      rw [← hk0, if_neg this]
      simp [Kernel.store, Kernel.assertFailed, haf]

/-- On a well-formed tree `EptpConstructTables` from level 4 satisfies
`ConstructFrame`. -/
theorem construct_frame {k : Kernel} {root : Nat} {owned : List Nat} {ed : Option EptData}
    {pa : Nat} {r : Option (Nat × Nat)} {ed1 : Option EptData} {k1 : Kernel}
    (hinv : TreeInv k root owned (upcoming ed k)) (hz : PoolZeroed ed k)
    (h : EptpConstructTables 4 root pa ed k = .ok (r, ed1, k1)) :
    ConstructFrame k root owned ed pa r ed1 k1 := by
  obtain ⟨hx, hpp, hpd, -⟩ := index_lt pa
  simp only [EptpConstructTables, Nat.reduceAdd, Nat.reduceEqDiff, if_false, if_true] at h
  have hd0 := Descent.start k root pa
  rcases h4 : EptpConstructTables.enter root 4 (EptpAddressToPxeIndex pa) ed k with
    f | ⟨_ | c3, d3, k3⟩
  · rw [h4] at h; simp at h
  · rw [h4] at h
    simp only [Except.ok.injEq, Prod.mk.injEq] at h
    obtain ⟨rfl, rfl, rfl⟩ := h
    exact frame_fail (n := 0) hd0 (by simpa using hinv) hz
      (show upcoming ed k = ([] : List Nat).reverse ++ upcoming ed k by simp) rfl (by omega) rfl rfl
      hx h4
  rw [h4] at h
  simp only at h
  obtain ⟨new3, hd3, hinv3, hz3, hup3, haf3, hw3⟩ :=
    frame_step (n := 0) hd0 (by simpa using hinv) hz
      (show upcoming ed k = ([] : List Nat).reverse ++ upcoming ed k by simp) rfl (by omega) rfl rfl
      hx h4
  rcases h3 : EptpConstructTables.enter c3 3 (EptpAddressToPpeIndex pa) d3 k3 with
    f | ⟨_ | c2, d2, k2⟩
  · rw [h3] at h; simp at h
  · rw [h3] at h
    simp only [Except.ok.injEq, Prod.mk.injEq] at h
    obtain ⟨rfl, rfl, rfl⟩ := h
    exact frame_fail (n := 1) hd3 hinv3 hz3 hup3 haf3 (by omega) hw3 rfl hpp h3
  rw [h3] at h
  simp only at h
  obtain ⟨new2, hd2, hinv2, hz2, hup2, haf2, hw2⟩ :=
    frame_step (n := 1) hd3 hinv3 hz3 hup3 haf3 (by omega) hw3 rfl hpp h3
  rcases h2 : EptpConstructTables.enter c2 2 (EptpAddressToPdeIndex pa) d2 k2 with
    f | ⟨_ | c1, d1, k1'⟩
  · rw [h2] at h; simp at h
  · rw [h2] at h
    simp only [Except.ok.injEq, Prod.mk.injEq] at h
    obtain ⟨rfl, rfl, rfl⟩ := h
    exact frame_fail (n := 2) hd2 hinv2 hz2 hup2 haf2 (by omega) hw2 rfl hpd h2
  rw [h2] at h
  simp only at h
  obtain ⟨new1, hd1, hinv1, hz1, hup1, haf1, hw1⟩ :=
    frame_step (n := 2) hd2 hinv2 hz2 hup2 haf2 (by omega) hw2 rfl hpd h2
  exact frame_leaf hinv hd1 hinv1 hz1 hup1 haf1 hw1 h

/-! ## The leaves of the tree -/

theorem Leaves.mono {k : Kernel} {root : Nat} {S S1 : List Nat} (h : Leaves k root S)
    (hs : ∀ pa ∈ S, pa ∈ S1) : Leaves k root S1 := by
  intro q t1 j hq hw hnz
  obtain ⟨pa, hpa, r⟩ := h q t1 j hq hw hnz
  exact ⟨pa, hs pa hpa, r⟩

/-- A tree whose root is zero has no page table. -/
theorem Leaves.of_zero_root {k : Kernel} {root : Nat}
    (hzero : ∀ i, k.tables root i = EptCommonEntry.zero) : Leaves k root [] := by
  intro q t1 j hq hw _
  cases q with
  | nil => simp at hq
  | cons i rest =>
    simp only [walk, hzero, EptCommonEntry.zero, EptCommonEntry.all] at hw
    simp at hw

/-- A call that went through the four levels adds the leaf of its address
and no other. -/
theorem Leaves.descent {k k1 : Kernel} {root pa : Nat} {owned1 fresh1 new S : List Nat}
    (hl : Leaves k root S) (hd : Descent k root pa 4 k1 new)
    (hinv1 : TreeInv k1 root owned1 fresh1) : Leaves k1 root (pa :: S) := by
  intro q t1 j hq hw hnz
  have hpath : ∀ m, m < 4 → OnPathAt k1 root pa m t1 j →
      m = 3 ∧ q = pathOf pa ∧ j = EptpAddressToPteIndex pa := by
    intro m hm hon
    have he := hinv1.inj _ _ t1 (by rw [length_take_pathOf pa m hon.1]; exact hon.1)
      (by omega) hon.2.1 hw
    have hlen := congrArg List.length he
    rw [length_take_pathOf pa m hon.1, hq] at hlen
    subst hlen
    refine ⟨rfl, ?_, ?_⟩
    · rw [← he]; rfl
    · have := hon.2.2
      rw [selectors_eq] at this
      simpa using this.symm
  by_cases hnew : t1 ∈ new
  · have hne : k1.tables t1 j ≠ EptCommonEntry.zero := by
      intro he; rw [he] at hnz; exact hnz rfl
    obtain ⟨m, hm, hon, hleaf⟩ := hd.new_slots t1 j hnew hne
    obtain ⟨rfl, hqp, hj⟩ := hpath m hm hon
    refine ⟨pa, List.mem_cons_self _ _, hqp, hj, ?_⟩
    rw [hleaf rfl]
    exact isLeafFor_init _ _
  · by_cases hsame : k1.tables t1 j = k.tables t1 j
    · rcases hd.reflected q t1 (by omega) hw with h0 | ⟨h0, -⟩
      · rw [hsame] at hnz ⊢
        obtain ⟨pb, hpb, r⟩ := hl q t1 j hq h0 hnz
        exact ⟨pb, List.mem_cons_of_mem _ hpb, r⟩
      · exact absurd h0 hnew
    · obtain ⟨m, hm, hon, -, hleaf⟩ := hd.old_slots t1 j hnew hsame
      obtain ⟨rfl, hqp, hj⟩ := hpath m hm hon
      refine ⟨pa, List.mem_cons_self _ _, hqp, hj, ?_⟩
      rw [hleaf rfl]
      exact isLeafFor_init _ _

/-- A call of `EptpConstructTables` that returns an entry adds the leaf of
its address and no other. -/
theorem construct_leaves {k : Kernel} {root : Nat} {owned S : List Nat} {ed : Option EptData}
    {pa : Nat} {slot : Nat × Nat} {ed1 : Option EptData} {k1 : Kernel}
    (hinv : TreeInv k root owned (upcoming ed k)) (hz : PoolZeroed ed k)
    (hl : Leaves k root S)
    (h : EptpConstructTables 4 root pa ed k = .ok (some slot, ed1, k1)) :
    Leaves k1 root (pa :: S) := by
  obtain ⟨new, n, hd, hinv1, -, -, hsome, -⟩ := construct_frame hinv hz h
  obtain ⟨rfl, -⟩ := hsome slot rfl
  exact hl.descent hd hinv1

theorem poolZeroed_none (k : Kernel) : PoolZeroed none k := by
  intro d hd; simp at hd

/-! ## The destructor frees the tables of the tree -/

theorem destruct_fold (tables : Nat → Nat → EptCommonEntry) (table : Nat)
    (step : Nat → Kernel → Kernel) (F : Nat → List Nat)
    (hstep : ∀ c k, k.tables = tables →
      step c k = { k with freed := (F c).reverse ++ k.freed }) :
    ∀ (l : List Nat) (k : Kernel), k.tables = tables →
      l.foldl (fun k i =>
        if (k.tables table i).physial_address ≠ 0 then
          step (UtilVaFromPfn (k.tables table i).physial_address) k
        else k) k =
      { k with freed :=
        ((l.filter (fun i => decide ((tables table i).physial_address ≠ 0))).flatMap
          (fun i => F (UtilVaFromPfn (tables table i).physial_address))).reverse ++ k.freed } := by
  intro l
  induction l with
  | nil => intro k _; simp
  | cons i rest ih =>
    intro k hk
    subst hk
    simp only [List.foldl_cons]
    by_cases hp : (k.tables table i).physial_address ≠ 0
    · have hs := hstep (UtilVaFromPfn (k.tables table i).physial_address) k rfl
      have hi := ih (step (UtilVaFromPfn (k.tables table i).physial_address) k) (by rw [hs])
      rw [if_pos hp, hi, hs]
      simp [List.filter_cons, hp, List.flatMap_cons, List.reverse_append]
    · rw [if_neg hp, ih k rfl]
      simp [List.filter_cons, hp]

theorem destruct_spec : ∀ (h : Nat), h ≤ 3 → ∀ (table : Nat) (k : Kernel),
    EptpDestructTables (h + 1) table k =
      { k with freed := (subtree k.tables h table).reverse ++ k.freed } := by
  intro h
  induction h with
  | zero =>
    intro _ table k
    have hf := destruct_fold k.tables table (fun _ k => k) (fun _ => [])
      (by intro c k _; simp) (List.range 512) k rfl
    simp only [EptpDestructTables, Nat.reduceAdd, Nat.reduceEqDiff, OfNat.ofNat_ne_one,
      or_self, if_false, Nat.succ_ne_self, OfNat.one_ne_ofNat] at hf ⊢
    rw [hf]
    simp [ExFreePoolWithTag, subtree]
  | succ n ih =>
    intro hn table k
    have ihn := ih (by omega)
    rcases Nat.eq_zero_or_pos n with h0 | hpos
    · subst h0
      have hf := destruct_fold k.tables table (fun c k => ExFreePoolWithTag c k)
        (fun c => [c]) (by intro c k _; simp [ExFreePoolWithTag]) (List.range 512) k rfl
      simp only [EptpDestructTables, Nat.reduceAdd, Nat.reduceEqDiff, or_self, if_false,
        if_true] at hf ⊢
      rw [hf]
      simp [ExFreePoolWithTag, subtree]
    · have hf := destruct_fold k.tables table (fun c k => EptpDestructTables (n + 1) c k)
        (fun c => subtree k.tables n c)
        (by intro c k1 hk1; show EptpDestructTables (n + 1) c k1 = _; rw [ihn c k1, hk1])
        (List.range 512) k rfl
      have hlev : n + 1 + 1 = 4 ∨ n + 1 + 1 = 3 := by omega
      simp only [EptpDestructTables, hlev, if_true] at hf ⊢
      rw [hf]
      simp [ExFreePoolWithTag, subtree]


theorem walk_from_root (k : Kernel) (root s : Nat) (p0 q : List Nat)
    (hs : walk k root p0 = some s) : walk k root (p0 ++ q) = walk k s q := by
  rw [walk_append, hs]; rfl

/-- In a reached table above the page tables the destructor and the
constructor agree on which slots are present. -/
theorem TreeInv.present_iff {k : Kernel} {root : Nat} {owned fresh : List Nat}
    (hinv : TreeInv k root owned fresh) {p0 : List Nat} {s i : Nat}
    (hs : walk k root p0 = some s) (hp : p0.length ≤ 2) (hi : i < 512) :
    (k.tables s i).physial_address ≠ 0 ↔ (k.tables s i).all ≠ 0 := by
  constructor
  · intro h h0
    rw [all_eq_zero_iff] at h0
    rw [h0] at h
    exact h rfl
  · intro h
    have hw : walk k root (p0 ++ [i]) = some (UtilVaFromPfn (k.tables s i).physial_address) := by
      rw [walk_snoc k root p0 i s hs, if_pos ⟨hi, h⟩]
    have ho := (hinv.reach _).1 ⟨p0 ++ [i], by simp; omega, hw⟩
    have := (hinv.range _ (List.mem_append_left _ ho)).1
    simp only [UtilVaFromPfn] at this
    omega

theorem mem_subtree {k : Kernel} {root : Nat} {owned fresh : List Nat}
    (hinv : TreeInv k root owned fresh) :
    ∀ (h : Nat) (p0 : List Nat) (s : Nat), walk k root p0 = some s → p0.length + h ≤ 3 →
      ∀ x, x ∈ subtree k.tables h s ↔ ∃ q, q.length ≤ h ∧ walk k s q = some x := by
  intro h
  induction h with
  | zero =>
    intro p0 s _ _ x
    simp only [subtree, List.mem_singleton]
    constructor
    · rintro rfl; exact ⟨[], by simp, rfl⟩
    · rintro ⟨q, hq, hw⟩
      have : q = [] := List.length_eq_zero.1 (by omega)
      subst this
      simp only [walk, Option.some.injEq] at hw
      exact hw.symm
  | succ n ih =>
    intro p0 s hs hlen x
    simp only [subtree, List.mem_append, List.mem_flatMap, List.mem_filter, List.mem_range,
      decide_eq_true_eq, List.mem_singleton]
    constructor
    · rintro (⟨i, ⟨hi, hp⟩, hx⟩ | rfl)
      · have hall := (hinv.present_iff hs (by omega) hi).1 hp
        have hw : walk k root (p0 ++ [i]) =
            some (UtilVaFromPfn (k.tables s i).physial_address) := by
          rw [walk_snoc k root p0 i s hs, if_pos ⟨hi, hall⟩]
        obtain ⟨q, hq, hwq⟩ := (ih (p0 ++ [i]) _ hw (by simp; omega) x).1 hx
        refine ⟨i :: q, by simp; omega, ?_⟩
        simp only [walk, if_pos (And.intro hi hall)]
        exact hwq
      · exact ⟨[], by simp, rfl⟩
    · rintro ⟨q, hq, hwq⟩
      cases q with
      | nil =>
        simp only [walk, Option.some.injEq] at hwq
        right; exact hwq.symm
      | cons i rest =>
        left
        simp only [walk] at hwq
        split at hwq
        · rename_i hc
          have hw : walk k root (p0 ++ [i]) =
              some (UtilVaFromPfn (k.tables s i).physial_address) := by
            rw [walk_snoc k root p0 i s hs, if_pos hc]
          refine ⟨i, ⟨hc.1, (hinv.present_iff hs (by omega) hc.1).2 hc.2⟩, ?_⟩
          exact (ih (p0 ++ [i]) _ hw (by simp; omega) x).2
            ⟨rest, by simp at hq; omega, hwq⟩
        · simp at hwq

theorem nodup_subtree {k : Kernel} {root : Nat} {owned fresh : List Nat}
    (hinv : TreeInv k root owned fresh) :
    ∀ (h : Nat) (p0 : List Nat) (s : Nat), walk k root p0 = some s → p0.length + h ≤ 3 →
      (subtree k.tables h s).Nodup := by
  intro h
  induction h with
  | zero => intro p0 s _ _; simp [subtree]
  | succ n ih =>
    intro p0 s hs hlen
    have hchild : ∀ i, i < 512 → (k.tables s i).physial_address ≠ 0 →
        walk k root (p0 ++ [i]) = some (UtilVaFromPfn (k.tables s i).physial_address) := by
      intro i hi hp
      rw [walk_snoc k root p0 i s hs, if_pos ⟨hi, (hinv.present_iff hs (by omega) hi).1 hp⟩]
    simp only [subtree]
    rw [List.nodup_append]
    refine ⟨?_, by simp, ?_⟩
    · rw [List.nodup_flatMap]
      constructor
      · intro i hi
        simp only [List.mem_filter, List.mem_range, decide_eq_true_eq] at hi
        exact ih (p0 ++ [i]) _ (hchild i hi.1 hi.2) (by simp; omega)
      · apply List.Nodup.pairwise_of_forall_ne
        · exact (List.nodup_range 512).filter _
        · intro i hi j hj hij
          simp only [List.mem_filter, List.mem_range, decide_eq_true_eq] at hi hj
          simp only [Function.onFun]
          rw [List.disjoint_left]
          intro x hxi hxj
          obtain ⟨q1, hq1, hw1⟩ :=
            (mem_subtree hinv n (p0 ++ [i]) _ (hchild i hi.1 hi.2) (by simp; omega) x).1 hxi
          obtain ⟨q2, hq2, hw2⟩ :=
            (mem_subtree hinv n (p0 ++ [j]) _ (hchild j hj.1 hj.2) (by simp; omega) x).1 hxj
          rw [← walk_from_root k root _ (p0 ++ [i]) q1 (hchild i hi.1 hi.2)] at hw1
          rw [← walk_from_root k root _ (p0 ++ [j]) q2 (hchild j hj.1 hj.2)] at hw2
          have := hinv.inj _ _ x (by simp; omega) (by simp; omega) hw1 hw2
          simp only [List.append_assoc, List.singleton_append, List.append_cancel_left_eq,
            List.cons.injEq] at this
          exact hij this.1
    · rw [List.disjoint_left]
      intro x hx hxs
      simp only [List.mem_singleton] at hxs
      subst hxs
      simp only [List.mem_flatMap, List.mem_filter, List.mem_range, decide_eq_true_eq] at hx
      obtain ⟨i, hi, hxi⟩ := hx
      obtain ⟨q1, hq1, hw1⟩ :=
        (mem_subtree hinv n (p0 ++ [i]) _ (hchild i hi.1 hi.2) (by simp; omega) x).1 hxi
      rw [← walk_from_root k root _ (p0 ++ [i]) q1 (hchild i hi.1 hi.2)] at hw1
      have := hinv.inj _ _ x (by simp; omega) (by omega) hw1 hs
      have hl := congrArg List.length this
      simp at hl

/-- The blocks freed by `EptpDestructTables(pml4, 4)` are the tables of the
tree, each once. -/
theorem subtree_perm_owned {k : Kernel} {root : Nat} {owned fresh : List Nat}
    (hinv : TreeInv k root owned fresh) : (subtree k.tables 3 root).Perm owned := by
  rw [List.perm_ext_iff_of_nodup (nodup_subtree hinv 3 [] root rfl (by simp))
    (List.nodup_append.1 hinv.nodup).1]
  intro x
  rw [mem_subtree hinv 3 [] root rfl (by simp) x, ← hinv.reach x]


/-! ## Initialization: building the mappings -/

theorem InitLogs.chain {k k1 k2 : Kernel} {b : Bool} (h1 : InitLogs k true k1)
    (h2 : InitLogs k1 b k2) : InitLogs k b k2 := by
  obtain ⟨a1, a2, a3, -⟩ := h1
  obtain ⟨b1, b2, b3, b4⟩ := h2
  refine ⟨b1.trans a1, b2.trans a2, ?_, ?_⟩
  · intro h; rw [b3 h, a3 rfl]
  · intro h; rw [b4 h, a3 rfl]

theorem enter_init (t lvl i : Nat) (k : Kernel) :
    ∃ r k1, EptpConstructTables.enter t lvl i none k = .ok (r, none, k1) ∧
      InitLogs k r.isSome k1 := by
  unfold EptpConstructTables.enter
  by_cases hslot : (k.tables t i).all = 0
  · rw [if_pos hslot]
    have hs := ExAllocatePoolWithTag_spec k
    simp only [EptpAllocateEptEntry, EptpAllocateEptEntryFromPool]
    rcases ha : ExAllocatePoolWithTag k with ⟨_ | a, k0⟩
    · rw [ha] at hs
      obtain ⟨-, h2, -, h4, -⟩ := hs
      obtain ⟨h5, h6, h7⟩ := h4 rfl
      refine ⟨none, k0, rfl, h2, ?_, by simp, fun _ => h7⟩
      rw [h5, h6]
    · rw [ha] at hs
      obtain ⟨-, h2, -, -, h4⟩ := hs
      obtain ⟨h5, h6, h7⟩ := h4 a rfl
      refine ⟨_, _, rfl, ?_, ?_, ?_, by simp⟩
      · simpa [Kernel.store, RtlZeroMemory] using h2
      · simp only [Kernel.store, RtlZeroMemory]
        simp only at h5 h6
        rw [h5, h6]
        simp
      · intro _
        simpa [Kernel.store, RtlZeroMemory] using h7
  · rw [if_neg hslot]
    exact ⟨_, _, rfl, rfl, rfl, fun _ => rfl, by simp⟩

theorem construct_init_logs (root pa : Nat) (k : Kernel) :
    ∃ r k1, EptpConstructTables 4 root pa none k = .ok (r, none, k1) ∧
      InitLogs k r.isSome k1 := by
  simp only [EptpConstructTables, Nat.reduceAdd, Nat.reduceEqDiff, if_false, if_true]
  obtain ⟨r4, k4, h4, l4⟩ := enter_init root 4 (EptpAddressToPxeIndex pa) k
  rw [h4]
  cases r4 with
  | none => exact ⟨none, k4, rfl, l4⟩
  | some c3 =>
    simp only
    obtain ⟨r3, k3, h3, l3⟩ := enter_init c3 3 (EptpAddressToPpeIndex pa) k4
    rw [h3]
    cases r3 with
    | none => exact ⟨none, k3, rfl, l4.chain l3⟩
    | some c2 =>
      simp only
      obtain ⟨r2, k2, h2, l2⟩ := enter_init c2 2 (EptpAddressToPdeIndex pa) k3
      rw [h2]
      cases r2 with
      | none => exact ⟨none, k2, rfl, (l4.chain l3).chain l2⟩
      | some c1 =>
        simp only
        refine ⟨_, _, rfl, (l4.chain l3).chain (l2.chain ?_)⟩
        refine ⟨?_, ?_, ?_, by simp⟩
        · simp only [Kernel.store]; split <;> rfl
        · simp only [Kernel.store]; split <;> rfl
        · intro _; simp only [Kernel.store]; split <;> rfl

theorem isLeafFor_congr (e : EptCommonEntry) (pa pb : Nat) (hp : pathOf pa = pathOf pb)
    (ht : EptpAddressToPteIndex pa = EptpAddressToPteIndex pb) (h : IsLeafFor e pb) :
    IsLeafFor e pa := by
  obtain ⟨h1, h2, h3, h4, h5⟩ := h
  refine ⟨h1, h2, h3, h4, ?_⟩
  rw [h5]
  simp only [pathOf, List.cons.injEq, and_true, pxe_eq, ppe_eq, pde_eq] at hp
  rw [pte_eq, pte_eq] at ht
  obtain ⟨a, b, c⟩ := hp
  simp only [Nat.shiftRight_eq_div_pow]
  norm_num at *
  omega

theorem InitStep.refl {root : Nat} {k : Kernel} {owned : List Nat}
    (hinv : TreeInv k root owned (upcoming none k)) : InitStep root k owned true k :=
  ⟨[], hinv, rfl, rfl, rfl, fun _ => ⟨rfl, fun _ h => h⟩, by simp⟩

theorem InitStep.compose {root : Nat} {k k1 k2 : Kernel} {owned : List Nat} {b : Bool}
    (h1 : InitStep root k owned true k1)
    (h2 : ∀ owned1, TreeInv k1 root owned1 (upcoming none k1) → InitStep root k1 owned1 b k2) :
    InitStep root k owned b k2 := by
  obtain ⟨new1, a1, a2, a3, a4, a5, -⟩ := h1
  obtain ⟨new2, b1, b2, b3, b4, b5, b6⟩ := h2 _ a1
  refine ⟨new2 ++ new1, ?_, ?_, ?_, b4.trans a4, ?_, ?_⟩
  · rw [List.append_assoc]; exact b1
  · rw [b2, a2, List.append_assoc]
  · rw [a3, b3]; simp
  · intro h
    obtain ⟨c1, c2⟩ := b5 h
    obtain ⟨d1, d2⟩ := a5 rfl
    exact ⟨c1.trans d1, fun pa hm => c2 pa (d2 pa hm)⟩
  · intro h
    rw [b6 h, (a5 rfl).1]

/-- One construction of `EptInitialization`. -/
theorem construct_init {k : Kernel} {root : Nat} {owned : List Nat} (pa : Nat)
    (hinv : TreeInv k root owned (upcoming none k)) :
    ∃ r k1, EptpConstructTables 4 root pa none k = .ok (r, none, k1) ∧
      InitStep root k owned r.isSome k1 ∧ (r.isSome = true → Mapped k1 root pa) := by
  obtain ⟨r, k1, h, l1, l2, l3, l4⟩ := construct_init_logs root pa k
  have hz : PoolZeroed none k := by intro d hd; cases hd
  obtain ⟨new, g1, -, -, g4, g5, g6, g7⟩ := construct_spec hinv hz h
  have halloc : k1.allocated = new ++ k.allocated := by
    have hu : k.pool.reduceOption = new.reverse ++ k1.pool.reduceOption := g4
    rw [hu, ← List.append_assoc] at l2
    have := List.append_cancel_right l2
    have h2 := congrArg List.reverse this
    simpa using h2
  refine ⟨r, k1, h, ⟨new, g1, halloc, g4, l1, ?_, l4⟩, ?_⟩
  · intro hr
    refine ⟨l3 hr, ?_⟩
    intro pb ⟨t1, hw, hl⟩
    refine ⟨t1, g5 _ _ (by simp [pathOf]) hw, ?_⟩
    by_cases hsame : pathOf pb = pathOf pa ∧
        EptpAddressToPteIndex pb = EptpAddressToPteIndex pa
    · obtain ⟨slot, hslot⟩ := Option.isSome_iff_exists.1 hr
      obtain ⟨t, -, hwt, hlt⟩ := g7 slot hslot
      have ht : t = t1 := by
        have h1 := g5 _ _ (by simp [pathOf]) hw
        rw [hsame.1, hwt] at h1
        exact Option.some.inj h1
      subst ht
      rw [hsame.2]
      exact isLeafFor_congr _ pb pa hsame.1 hsame.2 hlt
    · rw [g6 (pathOf pb) t1 _ (by simp [pathOf]) hw hsame]
      exact hl
  · intro hr
    obtain ⟨slot, hslot⟩ := Option.isSome_iff_exists.1 hr
    obtain ⟨t, -, hwt, hlt⟩ := g7 slot hslot
    exact ⟨t, hwt, hlt⟩


theorem pages_spec (root base_addr : Nat) :
    ∀ (n page_index : Nat) (k : Kernel) (owned : List Nat),
      TreeInv k root owned (upcoming none k) →
      ∃ b k1, EptInitialization.pages root base_addr n page_index k = .ok (b, k1) ∧
        InitStep root k owned b k1 ∧
        (b = true → ∀ j, j < n →
          Mapped k1 root (u64 (base_addr + (page_index + j) * PAGE_SIZE))) := by
  intro n
  induction n with
  | zero =>
    intro page_index k owned hinv
    exact ⟨true, k, rfl, InitStep.refl hinv, fun _ j hj => absurd hj (by omega)⟩
  | succ n ih =>
    intro page_index k owned hinv
    obtain ⟨r, k1, h, hstep, hmap⟩ :=
      construct_init (u64 (base_addr + page_index * PAGE_SIZE)) hinv
    simp only [EptInitialization.pages, h]
    cases r with
    | none => exact ⟨false, k1, rfl, hstep, by simp⟩
    | some slot =>
      simp only
      obtain ⟨new, hinv1, -⟩ := id hstep
      obtain ⟨b, k2, h2, hstep2, hmap2⟩ := ih (page_index + 1) k1 _ hinv1
      refine ⟨b, k2, h2, InitStep.compose hstep ?_, ?_⟩
      · intro owned1 hinv1'
        obtain ⟨b', k2', h2', hstep2', -⟩ := ih (page_index + 1) k1 owned1 hinv1'
        rw [h2] at h2'
        simp only [Except.ok.injEq, Prod.mk.injEq] at h2'
        rw [h2'.1, h2'.2]
        exact hstep2'
      · intro hb j hj
        rcases Nat.eq_zero_or_pos j with rfl | hpos
        · obtain ⟨new2, -, -, -, -, c5, -⟩ := hstep2
          exact (c5 hb).2 _ (hmap rfl)
        · have := hmap2 hb (j - 1) (by omega)
          have he : page_index + 1 + (j - 1) = page_index + j := by omega
          rw [he] at this
          exact this

theorem runs_spec (root : Nat) :
    ∀ (pm_ranges : List PhysicalMemoryRun) (k : Kernel) (owned : List Nat),
      TreeInv k root owned (upcoming none k) →
      ∃ b k1, EptInitialization.runs root pm_ranges k = .ok (b, k1) ∧
        InitStep root k owned b k1 ∧
        (b = true → ∀ run ∈ pm_ranges, ∀ j, j < run.page_count →
          Mapped k1 root (u64 (u64 (run.base_page * PAGE_SIZE) + j * PAGE_SIZE))) := by
  intro pm_ranges
  induction pm_ranges with
  | nil =>
    intro k owned hinv
    exact ⟨true, k, rfl, InitStep.refl hinv, by simp⟩
  | cons run rest ih =>
    intro k owned hinv
    obtain ⟨b1, k1, h1, hstep1, hmap1⟩ :=
      pages_spec root (u64 (run.base_page * PAGE_SIZE)) run.page_count 0 k owned hinv
    simp only [EptInitialization.runs, h1]
    cases b1 with
    | false => exact ⟨false, k1, rfl, hstep1, by simp⟩
    | true =>
      simp only
      obtain ⟨new, hinv1, -⟩ := id hstep1
      obtain ⟨b, k2, h2, hstep2, hmap2⟩ := ih k1 _ hinv1
      refine ⟨b, k2, h2, InitStep.compose hstep1 ?_, ?_⟩
      · intro owned1 hinv1'
        obtain ⟨b', k2', h2', hstep2', -⟩ := ih k1 owned1 hinv1'
        rw [h2] at h2'
        simp only [Except.ok.injEq, Prod.mk.injEq] at h2'
        rw [h2'.1, h2'.2]
        exact hstep2'
      · intro hb r hr j hj
        rcases List.mem_cons.1 hr with rfl | hr
        · obtain ⟨new2, -, -, -, -, c5, -⟩ := hstep2
          have := hmap1 rfl j hj
          simp only [Nat.zero_add] at this
          exact (c5 hb).2 _ this
        · exact hmap2 hb r hr j hj


/-! ## Initialization: the leaves built -/

theorem pages_leaves (root base_addr : Nat) :
    ∀ (n i : Nat) (k : Kernel) (owned S : List Nat) (k1 : Kernel),
      TreeInv k root owned (upcoming none k) → Leaves k root S →
      EptInitialization.pages root base_addr n i k = .ok (true, k1) →
      Leaves k1 root (S ++ EptInitialization.pageAddresses base_addr n i) := by
  intro n
  induction n with
  | zero =>
    intro i k owned S k1 _ hl h
    simp only [EptInitialization.pages, Except.ok.injEq, Prod.mk.injEq, true_and] at h
    subst h
    simpa [EptInitialization.pageAddresses] using hl
  | succ n ih =>
    intro i k owned S k1 hinv hl h
    simp only [EptInitialization.pages] at h
    rcases hc : EptpConstructTables 4 root (u64 (base_addr + i * PAGE_SIZE)) none k with
      f | ⟨_ | slot, d2, k2⟩
    · rw [hc] at h; simp at h
    · rw [hc] at h; simp at h
    · rw [hc] at h
      simp only at h
      obtain ⟨new, g1, -, g3, -⟩ := construct_spec hinv (poolZeroed_none k) hc
      have hd2 : d2 = none := g3.2 rfl
      subst hd2
      have hl2 := construct_leaves hinv (poolZeroed_none k) hl hc
      have := ih (i + 1) k2 _ _ k1 g1 hl2 h
      apply this.mono
      intro pa hpa
      simp only [EptInitialization.pageAddresses, List.mem_append, List.mem_cons, List.mem_map,
        List.mem_range] at hpa ⊢
      rcases hpa with (rfl | hpa) | ⟨j, hj, rfl⟩
      · exact Or.inr ⟨0, by omega, rfl⟩
      · exact Or.inl hpa
      · exact Or.inr ⟨j + 1, by omega, by rw [show i + (j + 1) = i + 1 + j by omega]⟩

theorem runs_leaves (root : Nat) :
    ∀ (pm_ranges : List PhysicalMemoryRun) (k : Kernel) (owned S : List Nat) (k1 : Kernel),
      TreeInv k root owned (upcoming none k) → Leaves k root S →
      EptInitialization.runs root pm_ranges k = .ok (true, k1) →
      Leaves k1 root (S ++ pm_ranges.flatMap (fun run =>
        EptInitialization.pageAddresses (u64 (run.base_page * PAGE_SIZE)) run.page_count 0)) := by
  intro pm_ranges
  induction pm_ranges with
  | nil =>
    intro k owned S k1 _ hl h
    simp only [EptInitialization.runs, Except.ok.injEq, Prod.mk.injEq, true_and] at h
    subst h
    simpa using hl
  | cons run rest ih =>
    intro k owned S k1 hinv hl h
    simp only [EptInitialization.runs] at h
    obtain ⟨b, k2, hp, hstep, -⟩ :=
      pages_spec root (u64 (run.base_page * PAGE_SIZE)) run.page_count 0 k owned hinv
    rw [hp] at h
    cases b with
    | false => simp at h
    | true =>
      simp only at h
      obtain ⟨new, g1, -⟩ := hstep
      have hl2 := pages_leaves root _ _ 0 k owned S k2 hinv hl hp
      have := ih k2 _ _ k1 g1 hl2 h
      simpa [List.flatMap_cons, List.append_assoc] using this

/-! ## Initialization: the pre-allocated pool and the unwinding -/

theorem walk_agree (k k2 : Kernel) (root : Nat) (owned fresh : List Nat)
    (hinv : TreeInv k root owned fresh)
    (hk : ∀ a ∈ owned, k2.tables a = k.tables a) :
    ∀ (q p0 : List Nat) (s : Nat), walk k root p0 = some s → p0.length + q.length ≤ 3 →
      walk k2 s q = walk k s q := by
  intro q
  induction q with
  | nil => intro p0 s _ _; rfl
  | cons j rest ih =>
    intro p0 s hs hlen
    simp only [List.length_cons] at hlen
    have hso : s ∈ owned := (hinv.reach s).1 ⟨p0, by omega, hs⟩
    simp only [walk, hk s hso]
    split
    · rename_i hc
      apply ih (p0 ++ [j]) _ _ (by simp; omega)
      rw [walk_snoc k root p0 j s hs, if_pos hc]
    · rfl

/-- The shape of the tree does not depend on tables outside the tree, and
survives the loss of fresh tables. -/
theorem TreeInv.agree {k k2 : Kernel} {root : Nat} {owned fresh fresh2 : List Nat}
    (hinv : TreeInv k root owned fresh)
    (hk : ∀ a ∈ owned, k2.tables a = k.tables a) (hsub : fresh2.Sublist fresh) :
    TreeInv k2 root owned fresh2 := by
  have h1 : TreeInv k2 root owned fresh :=
    hinv.of_walk_eq (fun q hq =>
      walk_agree k k2 root owned fresh hinv hk q [] root rfl (by simpa using hq))
  refine ⟨h1.inj, h1.reach, ?_, ?_⟩
  · exact (List.Sublist.append_left hsub owned).nodup h1.nodup
  · intro t ht
    apply h1.range t
    rcases List.mem_append.1 ht with h | h
    · exact List.mem_append_left _ h
    · exact List.mem_append_right _ (hsub.subset h)

theorem Mapped.transfer {k k2 : Kernel} {root pa : Nat} {owned fresh : List Nat}
    (hinv : TreeInv k root owned fresh)
    (hk : ∀ a ∈ owned, k2.tables a = k.tables a) (h : Mapped k root pa) :
    Mapped k2 root pa := by
  obtain ⟨t1, hw, hl⟩ := h
  have hto : t1 ∈ owned := (hinv.reach t1).1 ⟨_, by simp [pathOf], hw⟩
  refine ⟨t1, ?_, ?_⟩
  · rw [walk_agree k k2 root owned fresh hinv hk (pathOf pa) [] root rfl (by simp [pathOf])]
    exact hw
  · rw [hk t1 hto]; exact hl

theorem Leaves.carry {k k2 : Kernel} {root : Nat} {owned fresh S : List Nat}
    (hinv : TreeInv k root owned fresh)
    (hk : ∀ a ∈ owned, k2.tables a = k.tables a) (h : Leaves k root S) :
    Leaves k2 root S := by
  intro q t1 j hq hw hnz
  rw [walk_agree k k2 root owned fresh hinv hk q [] root rfl (by simp; omega)] at hw
  have hto : t1 ∈ owned := (hinv.reach t1).1 ⟨q, by omega, hw⟩
  rw [hk t1 hto] at hnz ⊢
  exact h q t1 j hq hw hnz

theorem allocate_init (k : Kernel) :
    ∃ r k1, EptpAllocateEptEntry none k = .ok (r, none, k1) ∧ k1.freed = k.freed ∧
      (r = none → k1.tables = k.tables ∧ upcoming none k1 = upcoming none k ∧
        k1.allocated = k.allocated ∧ k1.failed = k.failed + 1) ∧
      (∀ T, r = some T → upcoming none k = T :: upcoming none k1 ∧
        k1.allocated = T :: k.allocated ∧ k1.failed = k.failed ∧
        (∀ j, k1.tables T j = EptCommonEntry.zero) ∧
        ∀ t, t ≠ T → k1.tables t = k.tables t) := by
  have hs := ExAllocatePoolWithTag_spec k
  simp only [EptpAllocateEptEntry, EptpAllocateEptEntryFromPool]
  rcases ha : ExAllocatePoolWithTag k with ⟨_ | a, k0⟩
  · rw [ha] at hs
    obtain ⟨h1, h2, -, h4, -⟩ := hs
    obtain ⟨h5, h6, h7⟩ := h4 rfl
    exact ⟨none, k0, rfl, h2, fun _ => ⟨h1, h5, h6, h7⟩, by simp⟩
  · rw [ha] at hs
    obtain ⟨h1, h2, -, -, h4⟩ := hs
    obtain ⟨h5, h6, h7⟩ := h4 a rfl
    refine ⟨some a, RtlZeroMemory a k0, rfl, h2, by simp, ?_⟩
    intro T hT
    simp only [Option.some.injEq] at hT
    subst hT
    refine ⟨h5, h6, h7, fun j => by simp [RtlZeroMemory], ?_⟩
    intro t ht
    funext j
    simp only [RtlZeroMemory, ht, if_false]
    rw [h1]

theorem fill_spec (root : Nat) :
    ∀ (n i : Nat) (arr : List (Option Nat)) (k : Kernel) (owned : List Nat),
      TreeInv k root owned (upcoming none k) → i + n ≤ arr.length →
      ∃ b arr1 k1 L, EptInitialization.fill n i arr k = .ok (b, arr1, k1) ∧
        TreeInv k1 root owned (upcoming none k1) ∧
        k1.allocated = L.reverse ++ k.allocated ∧
        upcoming none k = L ++ upcoming none k1 ∧
        k1.freed = k.freed ∧
        (∀ a, a ∉ L → k1.tables a = k.tables a) ∧
        (∀ T ∈ L, ∀ j, k1.tables T j = EptCommonEntry.zero) ∧
        arr1 = arr.take i ++ L.map some ++ arr.drop (i + L.length) ∧
        (b = true → L.length = n ∧ k1.failed = k.failed) ∧
        (b = false → L.length < n ∧ k1.failed = k.failed + 1) := by
  intro n
  induction n with
  | zero =>
    intro i arr k owned hinv _
    exact ⟨true, arr, k, [], rfl, hinv, rfl, rfl, rfl, fun _ _ => rfl, by simp, by simp,
      fun _ => ⟨rfl, rfl⟩, by simp⟩
  | succ n ih =>
    intro i arr k owned hinv hlen
    obtain ⟨r, k0, h, hfreed, hnone, hsome⟩ := allocate_init k
    simp only [EptInitialization.fill, h]
    cases r with
    | none =>
      obtain ⟨h1, h2, h3, h4⟩ := hnone rfl
      refine ⟨false, arr, k0, [], rfl, ?_, by simp [h3], by simp [h2], hfreed,
        fun _ _ => by rw [h1], by simp, by simp, by simp, fun _ => ⟨by simp, h4⟩⟩
      rw [h2]; exact hinv.congr h1
    | some T =>
      simp only
      obtain ⟨h1, h2, h3, h4, h5⟩ := hsome T rfl
      rw [h1] at hinv
      have hTo : T ∉ owned := fun hm =>
        (List.nodup_append.1 hinv.nodup).2.2 hm (List.mem_cons_self _ _)
      have hinv0 : TreeInv k0 root owned (upcoming none k0) :=
        hinv.agree (fun a ha => h5 a (fun he => hTo (he ▸ ha))) (List.sublist_cons_self _ _)
      obtain ⟨b, arr1, k1, L, hfill, g1, g2, g3, g4, g5, g6, g7, g8, g9⟩ :=
        ih (i + 1) (arr.set i (some T)) k0 owned hinv0 (by simp; omega)
      have hTL : T ∉ L := by
        have hnd := (List.nodup_append.1 hinv.nodup).2.1
        rw [g3] at hnd
        intro hm
        exact (List.nodup_cons.1 hnd).1 (List.mem_append_left _ hm)
      refine ⟨b, arr1, k1, T :: L, hfill, g1, ?_, ?_, g4.trans hfreed, ?_, ?_, ?_, ?_, ?_⟩
      · rw [g2, h2]; simp
      · rw [h1, g3]; rfl
      · intro a ha
        simp only [List.mem_cons, not_or] at ha
        rw [g5 a ha.2, h5 a ha.1]
      · intro x hx j
        rcases List.mem_cons.1 hx with rfl | hx
        · rw [g5 x hTL]; exact h4 j
        · exact g6 x hx j
      · rw [g7]
        have hi : i < arr.length := by omega
        rw [List.set_eq_take_append_cons_drop, if_pos hi]
        have htk : (List.take i arr ++ some T :: List.drop (i + 1) arr).take (i + 1) =
            List.take i arr ++ [some T] := by
          rw [List.take_append_eq_append_take]
          simp [List.length_take, Nat.min_eq_left (le_of_lt hi)]
        have hdr : (List.take i arr ++ some T :: List.drop (i + 1) arr).drop (i + 1 + L.length) =
            List.drop (i + (L.length + 1)) arr := by
          rw [List.drop_append_eq_append_drop]
          simp only [List.length_take, Nat.min_eq_left (le_of_lt hi)]
          have h0 : List.drop (i + 1 + L.length) (List.take i arr) = [] := by
            apply List.drop_eq_nil_of_le
            simp; omega
          have h1 : i + 1 + L.length - i = L.length + 1 := by omega
          rw [h0, h1]
          simp only [List.nil_append, List.drop_succ_cons, List.drop_drop]
          congr 1
          omega
        rw [htk, hdr]
        simp
      · intro hb
        obtain ⟨c1, c2⟩ := g8 hb
        exact ⟨by simp [c1], c2.trans h3⟩
      · intro hb
        obtain ⟨c1, c2⟩ := g9 hb
        exact ⟨by simp; omega, by rw [c2, h3]⟩

theorem freeUnused_loop (L : List Nat) (tail : List (Option Nat)) :
    ∀ (fuel i : Nat) (k : Kernel), i ≤ L.length → L.length - i < fuel →
      EptpFreeUnusedPreAllocatedEntries.loop (L.map some ++ none :: tail) fuel (i : Int) k =
        .ok { k with freed := (L.drop i).reverse ++ k.freed } := by
  intro fuel
  induction fuel with
  | zero => intro i k _ h; omega
  | succ n ih =>
    intro i k hi hfuel
    have hneg : ¬ ((i : Int) < 0) := by omega
    simp only [EptpFreeUnusedPreAllocatedEntries.loop, hneg, if_false, Int.toNat_ofNat]
    rcases Nat.lt_or_ge i L.length with hlt | hge
    · have hget : (L.map some ++ none :: tail).getD i none = some L[i] := by
        simp [List.getD_eq_getElem?_getD, List.getElem?_append_left, hlt]
      rw [hget]
      simp only
      have := ih (i + 1) (ExFreePoolWithTag L[i] k) (by omega) (by omega)
      rw [show ((i : Int) + 1) = ((i + 1 : Nat) : Int) by push_cast; rfl, this]
      have hd : L.drop i = L[i] :: L.drop (i + 1) := List.drop_eq_getElem_cons hlt
      simp only [ExFreePoolWithTag, hd, List.reverse_cons, List.append_assoc,
        List.singleton_append]
    · have hie : i = L.length := by omega
      subst hie
      have hget : (L.map some ++ none :: tail).getD L.length none = none := by
        rw [List.getD_eq_getElem?_getD, List.getElem?_append_right (by simp)]
        simp
      rw [hget]
      simp

theorem unwind_spec {k : Kernel} {root : Nat} {owned fresh : List Nat} (ptr data : Nat)
    (hinv : TreeInv k root owned fresh) :
    ∃ S : List Nat, S.Perm owned ∧
      EptInitialization.unwind root ptr data k =
        { k with freed := data :: ptr :: (S.reverse ++ k.freed) } := by
  refine ⟨subtree k.tables 3 root, subtree_perm_owned hinv, ?_⟩
  simp only [EptInitialization.unwind, destruct_spec 3 (by omega), ExFreePoolWithTag]


theorem unwind_perm {S owned E F : List Nat} (ptr data : Nat) (hS : S.Perm owned)
    (hF : F.Perm E) :
    (data :: ptr :: (S.reverse ++ F)).Perm (E ++ (owned ++ [ptr, data])) := by
  have h1 : (S.reverse ++ F).Perm (E ++ owned) :=
    ((List.reverse_perm S).trans hS).append hF |>.trans List.perm_append_comm
  have h2 : (data :: ptr :: (S.reverse ++ F)).Perm ((E ++ owned) ++ [ptr, data]) := by
    refine List.Perm.trans ?_ List.perm_append_comm
    simp only [List.cons_append, List.nil_append]
    exact (List.Perm.swap ptr data _).trans ((h1.cons data).cons ptr)
  simpa [List.append_assoc] using h2

theorem InitStep.conserved {root : Nat} {k k1 : Kernel} {owned : List Nat} {b : Bool}
    (h : InitStep root k owned b k1) :
    k1.allocated.reverse ++ k1.pool.reduceOption = k.allocated.reverse ++ k.pool.reduceOption := by
  obtain ⟨new, -, h2, h3, -⟩ := h
  have h3' : k.pool.reduceOption = new.reverse ++ k1.pool.reduceOption := h3
  rw [h2, h3']
  simp


theorem reduceOption_map_some (L : List Nat) : (L.map some).reduceOption = L := by
  induction L with
  | nil => rfl
  | cons a rest ih => simp [List.reduceOption_cons_of_some, ih]

/-- `EptInitialization` from a state whose logs are empty: it returns, the
blocks it allocated are pairwise distinct, a null result comes with exactly one
failed allocation and with every allocated block freed once, and a non-null
result satisfies `Initialized`. -/
theorem init_spec (pm_ranges : List PhysicalMemoryRun) (apic_base : Nat) (k : Kernel)
    (hok : PoolOracleOk k) (ha : k.allocated = []) (hf : k.freed = []) :
    ∃ r k1, EptInitialization pm_ranges apic_base k = .ok (r, k1) ∧ k1.allocated.Nodup ∧
      (r = none → k1.failed = k.failed + 1 ∧ k1.freed.Perm k1.allocated) ∧
      (∀ d, r = some d → Initialized k k1 d pm_ranges apic_base) := by
  obtain ⟨hnd, hrange⟩ := hok
  have hcons : ∀ kx : Kernel,
      kx.allocated.reverse ++ kx.pool.reduceOption = k.pool.reduceOption →
      kx.allocated.Nodup := by
    intro kx h
    rw [← h] at hnd
    exact List.nodup_reverse.1 (List.nodup_append.1 hnd).1
  unfold EptInitialization
  have s1 := ExAllocatePoolWithTag_spec k
  rcases h1 : ExAllocatePoolWithTag k with ⟨_ | data, k1⟩
  · rw [h1] at s1
    obtain ⟨-, f1, -, n1, -⟩ := s1
    obtain ⟨-, n3, n4⟩ := n1 rfl
    simp only at n3 n4 f1
    refine ⟨none, k1, rfl, ?_, ?_, by simp⟩
    · rw [n3, ha]; simp
    · intro _
      refine ⟨n4, ?_⟩
      rw [f1, hf, n3, ha]
  rw [h1] at s1
  obtain ⟨t1, f1, -, -, a1⟩ := s1
  obtain ⟨p1, al1, fl1⟩ := a1 data rfl
  simp only at t1 f1 p1 al1 fl1 ⊢
  have s2 := ExAllocatePoolWithTag_spec k1
  rcases h2 : ExAllocatePoolWithTag k1 with ⟨_ | ptr, k2⟩
  · rw [h2] at s2
    obtain ⟨-, f2, -, n1, -⟩ := s2
    obtain ⟨n2, n3, n4⟩ := n1 rfl
    simp only at n2 n3 n4 f2
    refine ⟨none, _, rfl, ?_, ?_, by simp⟩
    · apply hcons
      simp only [ExFreePoolWithTag]
      rw [n3, al1, ha, n2, p1]; rfl
    · intro _
      simp only [ExFreePoolWithTag]
      refine ⟨by rw [n4, fl1], ?_⟩
      rw [f2, f1, hf, n3, al1, ha]
  rw [h2] at s2
  obtain ⟨t2, f2, -, -, a2⟩ := s2
  obtain ⟨p2, al2, fl2⟩ := a2 ptr rfl
  simp only at t2 f2 p2 al2 fl2 ⊢
  have s3 := ExAllocatePoolWithTag_spec k2
  rcases h3 : ExAllocatePoolWithTag k2 with ⟨_ | pml4, k3⟩
  · rw [h3] at s3
    obtain ⟨-, f3, -, n1, -⟩ := s3
    obtain ⟨n2, n3, n4⟩ := n1 rfl
    simp only at n2 n3 n4 f3
    refine ⟨none, _, rfl, ?_, ?_, by simp⟩
    · apply hcons
      simp only [ExFreePoolWithTag]
      rw [n3, al2, al1, ha, n2, p1, p2]; rfl
    · intro _
      simp only [ExFreePoolWithTag]
      refine ⟨by rw [n4, fl2, fl1], ?_⟩
      rw [f3, f2, f1, hf, n3, al2, al1, ha]
      exact List.Perm.swap _ _ _
  rw [h3] at s3
  obtain ⟨t3, f3, -, -, a3⟩ := s3
  obtain ⟨p3, al3, fl3⟩ := a3 pml4 rfl
  simp only at t3 f3 p3 al3 fl3 ⊢
  -- the state once the PML4 is zeroed
  have hpool : k.pool.reduceOption = data :: ptr :: pml4 :: k3.pool.reduceOption := by
    rw [p1, p2, p3]
  rw [hpool] at hnd hrange
  have hnd3 : (pml4 :: k3.pool.reduceOption).Nodup :=
    (List.nodup_cons.1 (List.nodup_cons.1 hnd).2).2
  have hinv4 : TreeInv (RtlZeroMemory pml4 k3) pml4 [pml4]
      (upcoming none (RtlZeroMemory pml4 k3)) := by
    apply TreeInv.empty
    · intro i; simp [RtlZeroMemory]
    · exact hnd3
    · intro t ht
      exact hrange t (List.mem_cons_of_mem _ (List.mem_cons_of_mem _ ht))
  have hal4 : (RtlZeroMemory pml4 k3).allocated = [pml4] ++ [ptr, data] := by
    simp only [RtlZeroMemory]; rw [al3, al2, al1, ha]; rfl
  have hfr4 : (RtlZeroMemory pml4 k3).freed = k.freed := by
    simp only [RtlZeroMemory]; rw [f3, f2, f1]
  have hfl4 : (RtlZeroMemory pml4 k3).failed = k.failed := by
    simp only [RtlZeroMemory]; rw [fl3, fl2, fl1]
  have hco4 : (RtlZeroMemory pml4 k3).allocated.reverse ++
      (RtlZeroMemory pml4 k3).pool.reduceOption = k.pool.reduceOption := by
    rw [hal4, hpool]; rfl
  have hptr : UtilPfnFromPa (UtilPaFromVa pml4) % 2 ^ 36 = pml4 :=
    pfn_of_table pml4 (hrange pml4 (by simp)).2
  have hzero4 : (RtlZeroMemory pml4 k3).tables =
      fun t i => if t = pml4 then EptCommonEntry.zero else k3.tables t i := rfl
  generalize RtlZeroMemory pml4 k3 = k4 at hinv4 hal4 hfr4 hfl4 hco4 hzero4 ⊢
  -- the failure endings share their bookkeeping
  have hfail : ∀ (kx : Kernel) (owned E F : List Nat), TreeInv kx pml4 owned (upcoming none kx) →
      kx.allocated = E ++ (owned ++ [ptr, data]) → kx.freed = F → F.Perm E →
      kx.allocated.reverse ++ kx.pool.reduceOption = k.pool.reduceOption →
      kx.failed = k.failed + 1 →
      (EptInitialization.unwind pml4 ptr data kx).allocated.Nodup ∧
      (EptInitialization.unwind pml4 ptr data kx).failed = k.failed + 1 ∧
      (EptInitialization.unwind pml4 ptr data kx).freed.Perm
        (EptInitialization.unwind pml4 ptr data kx).allocated := by
    intro kx owned E F hinv hal hfr hFE hco hfl
    obtain ⟨S, hS, hu⟩ := unwind_spec ptr data hinv
    rw [hu]
    refine ⟨hcons kx hco, hfl, ?_⟩
    simp only
    rw [hal, hfr]
    exact unwind_perm ptr data hS hFE
  obtain ⟨b5, k5, h5, hstep5, hmap5⟩ := runs_spec pml4 pm_ranges k4 [pml4] hinv4
  rw [h5]
  have hal5 : ∀ {b kx}, InitStep pml4 k4 [pml4] b kx →
      ∃ owned, TreeInv kx pml4 owned (upcoming none kx) ∧
        kx.allocated = owned ++ [ptr, data] := by
    intro b kx hs
    obtain ⟨new, c1, c2, -⟩ := hs
    exact ⟨new ++ [pml4], c1, by rw [c2, hal4, List.append_assoc]⟩
  cases b5 with
  | false =>
    obtain ⟨owned, hinv5, hal5'⟩ := hal5 hstep5
    obtain ⟨new, -, -, -, c4, -, c6⟩ := id hstep5
    obtain ⟨g1, g2, g3⟩ := hfail k5 owned [] [] hinv5 (by simpa using hal5')
      (by rw [c4, hfr4, hf]) (List.Perm.refl _) (hstep5.conserved.trans hco4)
      (by rw [c6 rfl, hfl4])
    exact ⟨none, _, rfl, g1, fun _ => ⟨g2, g3⟩, by simp⟩
  | true =>
  simp only
  obtain ⟨owned5, hinv5, -⟩ := hal5 hstep5
  obtain ⟨r6, k6, h6, hstep6, hmap6⟩ := construct_init (u64 (apic_base * PAGE_SIZE)) hinv5
  rw [h6]
  have hstep46 : InitStep pml4 k4 [pml4] r6.isSome k6 := by
    refine InitStep.compose hstep5 ?_
    intro owned1 hinv1
    obtain ⟨r6', k6', h6', hstep6', -⟩ :=
      construct_init (u64 (apic_base * PAGE_SIZE)) hinv1
    rw [h6] at h6'
    simp only [Except.ok.injEq, Prod.mk.injEq] at h6'
    rw [h6'.1, h6'.2.2]
    exact hstep6'
  cases r6 with
  | none =>
    obtain ⟨owned, hinv6, hal6⟩ := hal5 hstep46
    obtain ⟨new, -, -, -, c4, -, c6⟩ := id hstep46
    obtain ⟨g1, g2, g3⟩ := hfail k6 owned [] [] hinv6 (by simpa using hal6)
      (by rw [c4, hfr4, hf]) (List.Perm.refl _) (hstep46.conserved.trans hco4)
      (by rw [c6 rfl, hfl4])
    exact ⟨none, _, rfl, g1, fun _ => ⟨g2, g3⟩, by simp⟩
  | some slot6 =>
  simp only
  obtain ⟨owned, hinv6, hal6⟩ := hal5 hstep46
  obtain ⟨new46, -, -, -, hfr6, c5, -⟩ := id hstep46
  obtain ⟨hfl6, hmapped46⟩ := c5 rfl
  have hco6 := hstep46.conserved.trans hco4
  have hruns6 : ∀ run ∈ pm_ranges, ∀ j, j < run.page_count →
      Mapped k6 pml4 (u64 (u64 (run.base_page * PAGE_SIZE) + j * PAGE_SIZE)) := by
    intro run hr j hj
    obtain ⟨-, -, -, -, -, d5, -⟩ := id hstep6
    exact (d5 rfl).2 _ (hmap5 rfl run hr j hj)
  have hapic6 : Mapped k6 pml4 (u64 (apic_base * PAGE_SIZE)) := hmap6 rfl
  have hleaves6 : Leaves k6 pml4 (EptInitialization.addresses pm_ranges apic_base) := by
    have hl5 := runs_leaves pml4 pm_ranges k4 [pml4] [] k5 hinv4
      (Leaves.of_zero_root (fun i => by rw [hzero4]; simp)) h5
    have hl6 := construct_leaves hinv5 (poolZeroed_none k5) hl5 h6
    apply hl6.mono
    intro pa hpa
    simp only [EptInitialization.addresses, List.mem_cons, List.nil_append, List.mem_append,
      List.mem_singleton] at hpa ⊢
    tauto
  have s7 := ExAllocatePoolWithTag_spec k6
  rcases h7 : ExAllocatePoolWithTag k6 with ⟨_ | arrb, k7⟩
  · rw [h7] at s7
    obtain ⟨t7, f7, -, n1, -⟩ := s7
    obtain ⟨n2, n3, n4⟩ := n1 rfl
    simp only at t7 f7 n2 n3 n4
    have hinv7 : TreeInv k7 pml4 owned (upcoming none k7) := by
      have : upcoming none k7 = upcoming none k6 := n2
      rw [this]; exact hinv6.congr t7
    obtain ⟨g1, g2, g3⟩ := hfail k7 owned [] [] hinv7 (by rw [n3]; simpa using hal6)
      (by rw [f7, hfr6, hfr4, hf]) (List.Perm.refl _) (by rw [n3, n2]; exact hco6)
      (by rw [n4, hfl6, hfl4])
    exact ⟨none, _, rfl, g1, fun _ => ⟨g2, g3⟩, by simp⟩
  rw [h7] at s7
  obtain ⟨t7, f7, -, -, a7⟩ := s7
  obtain ⟨p7, al7, fl7⟩ := a7 arrb rfl
  simp only at t7 f7 p7 al7 fl7 ⊢
  have hinv7 : TreeInv k7 pml4 owned (upcoming none k7) := by
    have hu : upcoming none k6 = arrb :: upcoming none k7 := p7
    rw [hu] at hinv6
    exact hinv6.agree (fun a _ => by rw [t7]) (List.sublist_cons_self _ _)
  have hco7 : k7.allocated.reverse ++ k7.pool.reduceOption = k.pool.reduceOption := by
    rw [← hco6, al7, p7]; simp
  obtain ⟨b8, arr8, k8, L, h8, hinv8, al8, up8, fr8, tab8, zero8, harr8, hb8t, hb8f⟩ :=
    fill_spec pml4 kVmxpNumberOfPreallocatedEntries 0
      (List.replicate kVmxpNumberOfPreallocatedEntries none) k7 owned hinv7 (by simp)
  rw [h8]
  have hco8 : k8.allocated.reverse ++ k8.pool.reduceOption = k.pool.reduceOption := by
    have hu : k7.pool.reduceOption = L ++ k8.pool.reduceOption := up8
    rw [← hco7, al8, hu]; simp
  have hal8 : k8.allocated = (L.reverse ++ [arrb]) ++ (owned ++ [ptr, data]) := by
    rw [al8, al7, hal6]; simp
  cases b8 with
  | false =>
    simp only
    obtain ⟨hlen, hfl8⟩ := hb8f rfl
    obtain ⟨m, hm⟩ : ∃ m, kVmxpNumberOfPreallocatedEntries - L.length = m + 1 :=
      ⟨kVmxpNumberOfPreallocatedEntries - L.length - 1, by omega⟩
    have harr : arr8 = L.map some ++ none :: List.replicate m none := by
      rw [harr8]
      simp only [List.take_zero, List.nil_append, Nat.zero_add, List.drop_replicate, hm]
      rfl
    have hloop := freeUnused_loop L (List.replicate m none)
      kVmxpNumberOfPreallocatedEntries 0 k8 (by omega) (by omega)
    have hfree : EptpFreeUnusedPreAllocatedEntries arrb arr8 0 k8 =
        .ok { k8 with freed := arrb :: (L.reverse ++ k8.freed) } := by
      simp only [EptpFreeUnusedPreAllocatedEntries, harr]
      have : ((kVmxpNumberOfPreallocatedEntries : Int) - 0).toNat =
          kVmxpNumberOfPreallocatedEntries := by simp
      rw [this]
      have h0 : ((0 : Nat) : Int) = 0 := rfl
      rw [h0] at hloop
      rw [hloop]
      simp [ExFreePoolWithTag]
    rw [hfree]
    simp only
    obtain ⟨g1, g2, g3⟩ := hfail { k8 with freed := arrb :: (L.reverse ++ k8.freed) } owned
      (L.reverse ++ [arrb]) (arrb :: L.reverse) (hinv8.congr rfl) hal8
      (by simp only; rw [fr8, f7, hfr6, hfr4, hf]; simp)
      (by simpa using (List.perm_append_comm : ([arrb] ++ L.reverse).Perm (L.reverse ++ [arrb])))
      hco8 (by simp only; rw [hfl8, fl7, hfl6, hfl4])
    exact ⟨none, _, rfl, g1, fun _ => ⟨g2, g3⟩, by simp⟩
  | true =>
    simp only
    obtain ⟨hlen, hfl8⟩ := hb8t rfl
    have harr : arr8 = L.map some := by
      rw [harr8]
      simp [hlen]
    have hLo : ∀ a ∈ owned, a ∉ L := by
      intro a hao haL
      have hu : upcoming none k7 = L ++ upcoming none k8 := up8
      have := (List.nodup_append.1 hinv7.nodup).2.2 hao
      rw [hu] at this
      exact this (List.mem_append_left _ haL)
    have hagree : ∀ a ∈ owned, k8.tables a = k6.tables a := by
      intro a hao
      rw [tab8 a (hLo a hao), t7]
    have hinv6' : TreeInv k6 pml4 owned (arrb :: (L ++ upcoming none k8)) := by
      have hu6 : upcoming none k6 = arrb :: upcoming none k7 := p7
      have hu7 : upcoming none k7 = L ++ upcoming none k8 := up8
      rw [← hu7, ← hu6]; exact hinv6
    have hinvL : TreeInv k8 pml4 owned L :=
      hinv6'.agree hagree
        ((List.sublist_append_left L _).trans (List.sublist_cons_self _ _))
    refine ⟨_, k8, rfl, hcons k8 hco8, by simp, ?_⟩
    intro d hd
    simp only [Option.some.injEq] at hd
    subst hd
    have hup : upcoming (some
        { self := data, ept_pointer := ptr,
          ept_pointer_value :=
            { EptPointer.zero with
              memory_type := kWriteBack % 8
              page_walk_length := (4 - 1) % 8
              pml4_address := UtilPfnFromPa (UtilPaFromVa pml4) % 2 ^ 36 },
          ept_pml4 := pml4, preallocated_entries := arrb, preallocated_array := arr8,
          preallocated_entries_count := 0 }) k8 = L := by
      simp [upcoming, harr, reduceOption_map_some]
    refine ⟨⟨⟨owned, ?_⟩, ?_⟩, rfl, ?_, ⟨L, owned, harr, hlen, hinvL, ?_⟩, ?_, ?_, ?_, ?_, ?_⟩
    · rw [hup]; exact hinvL
    · intro d hd
      simp only [Option.some.injEq] at hd
      subst hd
      refine ⟨le_refl _, by simp [kVmxpNumberOfPreallocatedEntries], ?_, ?_⟩
      · simp [harr, hlen]
      · intro t ht j
        rw [hup] at ht
        exact zero8 t ht j
    · simp only [hptr, EptPointer.zero]
      rfl
    · rw [hal8]; simp
    · rw [fr8, f7, hfr6, hfr4]
    · rw [hfl8, fl7, hfl6, hfl4]
    · intro run hr j hj
      exact (hruns6 run hr j hj).transfer hinv6 hagree
    · exact hapic6.transfer hinv6 hagree
    · exact hleaves6.carry hinv6 hagree


/-! ## Initialization: the identity mapping and the unwinding -/

theorem covered_page_indices (run : PhysicalMemoryRun) (pa : Nat) (hpa : pa < 2 ^ 64)
    (hc : run.covers pa) :
    pa / PAGE_SIZE - run.base_page < run.page_count ∧
    pathOf pa = pathOf (u64 (u64 (run.base_page * PAGE_SIZE)
      + (pa / PAGE_SIZE - run.base_page) * PAGE_SIZE)) ∧
    EptpAddressToPteIndex pa = EptpAddressToPteIndex (u64 (u64 (run.base_page * PAGE_SIZE)
      + (pa / PAGE_SIZE - run.base_page) * PAGE_SIZE)) := by
  obtain ⟨b, c⟩ := run
  obtain ⟨h1, h2⟩ := hc
  simp only [PAGE_SIZE] at h1 h2 ⊢
  have hA : u64 (u64 (b * 4096) + (pa / 4096 - b) * 4096) = pa / 4096 * 4096 := by
    simp only [u64]
    norm_num at hpa ⊢
    omega
  rw [hA]
  refine ⟨by omega, ?_, ?_⟩
  · simp only [pathOf, pxe_eq, ppe_eq, pde_eq, List.cons.injEq, and_true]
    norm_num
    omega
  · rw [pte_eq, pte_eq]
    norm_num

/-- C1: after a successful `EptInitialization`, for every physical address
lying in a page of some reported run, `EptGetEptPtEntry` returns an entry that
is present, grants read, write and execute, has memory type write-back and
holds the frame number `address >> 12`, the identity mapping, for every
address below `2^48`.  Physical addresses are below `2^48`:
`EptIsEptAvailable` refuses a processor with more than 48 physical-address
bits.  For any 64-bit value the field holds `(address >> 12) mod 2^36`.  The
kernel pool is assumed to hand out pairwise distinct blocks with non-zero
frame numbers of at most 36 bits; the allocation logs start empty. -/
theorem initialization_maps_run_pages (pm_ranges : List PhysicalMemoryRun) (apic_base : Nat)
    (k : Kernel) (d : EptData) (k1 : Kernel) (pa : Nat)
    (hok : PoolOracleOk k) (ha : k.allocated = []) (hf : k.freed = [])
    (h : EptInitialization pm_ranges apic_base k = .ok (some d, k1))
    (hpa : pa < 2 ^ 64) (hrun : ∃ run ∈ pm_ranges, run.covers pa) :
    ∃ slot, EptGetEptPtEntry k1 d pa = some slot ∧
      (k1.tables slot.1 slot.2).all ≠ 0 ∧
      (k1.tables slot.1 slot.2).read_access = true ∧
      (k1.tables slot.1 slot.2).write_access = true ∧
      (k1.tables slot.1 slot.2).execute_access = true ∧
      (k1.tables slot.1 slot.2).memory_type = kWriteBack ∧
      (k1.tables slot.1 slot.2).physial_address = (pa >>> 12) % 2 ^ 36 ∧
      (pa < 2 ^ 48 → (k1.tables slot.1 slot.2).physial_address = pa >>> 12) := by
  obtain ⟨r, k1', h', -, -, hsome⟩ := init_spec pm_ranges apic_base k hok ha hf
  rw [h] at h'
  simp only [Except.ok.injEq, Prod.mk.injEq] at h'
  obtain ⟨rfl, rfl⟩ := h'
  have hinit := hsome d rfl
  obtain ⟨run, hr, hc⟩ := hrun
  obtain ⟨hj, hpath, hpte⟩ := covered_page_indices run pa hpa hc
  obtain ⟨t1, hw, hl⟩ := hinit.runs run hr _ hj
  rw [← hpath] at hw
  rw [← hpte] at hl
  have hleaf := isLeafFor_congr _ pa _ hpath hpte hl
  obtain ⟨l1, l2, l3, l4, l5⟩ := hleaf
  refine ⟨(t1, EptpAddressToPteIndex pa), lookup_of_walk k1 d.ept_pml4 pa t1 hw,
    all_ne_zero_of_read _ l1, l1, l2, l3, l4, l5, ?_⟩
  intro h48
  rw [l5, Nat.shiftRight_eq_div_pow]
  apply Nat.mod_eq_of_lt
  norm_num at h48 ⊢
  omega

/-- Witness of C1: a run of 4 pages at page 0x100, the APIC at 0xfee00000, a
pool of 70 blocks, and the address 0x102abc, whose entry holds the frame
number 0x102. -/
theorem initialization_maps_run_pages_witness :
    PoolOracleOk (sampleKernel 1 70) ∧ (0x102abc : Nat) < 2 ^ 48 ∧
    (∃ run ∈ [(⟨0x100, 4⟩ : PhysicalMemoryRun)], run.covers 0x102abc) ∧
    ∃ d k1, EptInitialization [⟨0x100, 4⟩] 0xfee00 (sampleKernel 1 70) = .ok (some d, k1) ∧
      ∃ slot, EptGetEptPtEntry k1 d 0x102abc = some slot ∧
        (k1.tables slot.1 slot.2).all ≠ 0 ∧
        (k1.tables slot.1 slot.2).read_access = true ∧
        (k1.tables slot.1 slot.2).write_access = true ∧
        (k1.tables slot.1 slot.2).execute_access = true ∧
        (k1.tables slot.1 slot.2).memory_type = kWriteBack ∧
        (k1.tables slot.1 slot.2).physial_address = 0x102 := by
  obtain ⟨slot, h1, h2, h3, h4, h5, h6, -, h8⟩ :=
    initialization_maps_run_pages [⟨0x100, 4⟩] 0xfee00 (sampleKernel 1 70) _ _ 0x102abc
      (by decide) rfl rfl rfl (by decide) ⟨_, List.mem_singleton.2 rfl, by decide⟩
  exact ⟨by decide, by decide, ⟨_, List.mem_singleton.2 rfl, by decide⟩, _, _, rfl,
    slot, h1, h2, h3, h4, h5, h6, h8 (by decide)⟩

/-- The bound `2^48` of C1 is the width of the frame-number field: for a run
of one page at page `2^36`, which no processor that `EptIsEptAvailable`
accepts reports, initialization succeeds and the value `2^48` lies in that
page, but the frame number of the entry `EptGetEptPtEntry` returns is 0, while
`2^48 >> 12 = 2^36`. -/
theorem initialization_truncates_frame_number :
    PoolOracleOk (sampleKernel 1 70) ∧
    (⟨2 ^ 36, 1⟩ : PhysicalMemoryRun).covers (2 ^ 48) ∧
    (EptInitialization [⟨2 ^ 36, 1⟩] 0xfee00 (sampleKernel 1 70)).toOption.bind
      (fun r => r.1.bind (fun d => (EptGetEptPtEntry r.2 d (2 ^ 48)).map
        (fun s => (r.2.tables s.1 s.2).physial_address))) = some 0 ∧
    (2 ^ 48 : Nat) >>> 12 = 2 ^ 36 := by
  refine ⟨by decide, by decide, ?_, by decide⟩
  decide

/-- C10: `EptInitialization` always returns; the blocks it allocated are
pairwise distinct; and whenever an allocation failed during the call, at
whichever point, the result is null, exactly one allocation failed (the call
stops at the first failure) and the blocks freed are the blocks allocated,
each exactly once: nothing is leaked and nothing is freed twice.  The kernel
pool is assumed to hand out pairwise distinct blocks with non-zero frame
numbers of at most 36 bits; the logs start empty. -/
theorem initialization_all_or_nothing (pm_ranges : List PhysicalMemoryRun) (apic_base : Nat)
    (k : Kernel) (hok : PoolOracleOk k) (ha : k.allocated = []) (hf : k.freed = []) :
    ∃ r k1, EptInitialization pm_ranges apic_base k = .ok (r, k1) ∧
      k1.allocated.Nodup ∧
      (k1.failed ≠ k.failed →
        r = none ∧ k1.failed = k.failed + 1 ∧ k1.freed.Perm k1.allocated ∧
        (∀ b ∈ k1.allocated, k1.freed.count b = 1) ∧
        (∀ b, b ∉ k1.allocated → k1.freed.count b = 0)) ∧
      (r = none → k1.failed ≠ k.failed) := by
  obtain ⟨r, k1, h, hnd, hnone, hsome⟩ := init_spec pm_ranges apic_base k hok ha hf
  refine ⟨r, k1, h, hnd, ?_, ?_⟩
  · intro hfail
    cases r with
    | some d => exact absurd (hsome d rfl).failed hfail
    | none =>
      obtain ⟨h1, h2⟩ := hnone rfl
      refine ⟨rfl, h1, h2, ?_, ?_⟩
      · intro b hb
        rw [h2.count_eq]
        exact List.count_eq_one_of_mem hnd hb
      · intro b hb
        rw [h2.count_eq]
        exact List.count_eq_zero_of_not_mem hb
  · intro hr
    rw [(hnone hr).1]
    omega

/-- Witness of C10: a pool of 40 blocks runs dry while the pre-allocated
tables are filled. -/
theorem initialization_all_or_nothing_witness :
    PoolOracleOk (sampleKernel 1 40) ∧
    ∃ r k1, EptInitialization [⟨0x100, 4⟩] 0xfee00 (sampleKernel 1 40) = .ok (r, k1) ∧
      k1.allocated.Nodup ∧
      (k1.failed ≠ (sampleKernel 1 40).failed →
        r = none ∧ k1.failed = (sampleKernel 1 40).failed + 1 ∧
        k1.freed.Perm k1.allocated ∧
        (∀ b ∈ k1.allocated, k1.freed.count b = 1) ∧
        (∀ b, b ∉ k1.allocated → k1.freed.count b = 0)) ∧
      (r = none → k1.failed ≠ (sampleKernel 1 40).failed) :=
  ⟨by decide, initialization_all_or_nothing [⟨0x100, 4⟩] 0xfee00 (sampleKernel 1 40)
    (by decide) rfl rfl⟩

/-! ## Entry initialisation and the EPT pointer -/

/-- C20: on an all-zero entry, for every table level and physical address,
`EptpInitTableEntry` sets read, write and execute, stores in the 36-bit frame
field the bits 12..47 of the address (`address >> 12` reduced modulo `2^36`),
sets the memory type to write-back when the level is 1 and leaves it zero at
every other level (2, 3 and 4 among them), and leaves the reserved fields
zero, so that the word `all` is `7 + 8 * type + 4096 * frame`; the frame field
equals `address >> 12`, that is the entry points at the address, exactly when
the address is below `2^48`. -/
theorem init_table_entry_on_zero (table_level physical_address : Nat) :
    (EptpInitTableEntry EptCommonEntry.zero table_level physical_address).read_access = true ∧
    (EptpInitTableEntry EptCommonEntry.zero table_level physical_address).write_access = true ∧
    (EptpInitTableEntry EptCommonEntry.zero table_level physical_address).execute_access = true ∧
    (EptpInitTableEntry EptCommonEntry.zero table_level physical_address).physial_address =
      (physical_address >>> 12) % 2 ^ 36 ∧
    (∀ i, (EptpInitTableEntry EptCommonEntry.zero table_level
        physical_address).physial_address.testBit i =
      (decide (i < 36) && physical_address.testBit (12 + i))) ∧
    (table_level = 1 →
      (EptpInitTableEntry EptCommonEntry.zero table_level physical_address).memory_type =
        kWriteBack) ∧
    (table_level ≠ 1 →
      (EptpInitTableEntry EptCommonEntry.zero table_level physical_address).memory_type = 0) ∧
    (EptpInitTableEntry EptCommonEntry.zero table_level physical_address).reserved1 = 0 ∧
    (EptpInitTableEntry EptCommonEntry.zero table_level physical_address).reserved2 = 0 ∧
    (EptpInitTableEntry EptCommonEntry.zero table_level physical_address).all =
      7 + 8 * (if table_level = 1 then kWriteBack else 0) +
        4096 * ((physical_address >>> 12) % 2 ^ 36) ∧
    ((EptpInitTableEntry EptCommonEntry.zero table_level physical_address).physial_address =
      physical_address >>> 12 ↔ physical_address < 2 ^ 48) := by
  refine ⟨rfl, rfl, rfl, rfl, ?_, ?_, ?_, rfl, rfl, ?_, ?_⟩
  · intro i
    simp only [EptpInitTableEntry, UtilPfnFromPa, Nat.testBit_mod_two_pow,
      Nat.testBit_shiftRight]
  · intro h; simp [EptpInitTableEntry, h]
  · intro h; simp [EptpInitTableEntry, h, EptCommonEntry.zero]
  · simp only [EptpInitTableEntry, EptCommonEntry.all, EptCommonEntry.zero, UtilPfnFromPa,
      Bool.toNat_true]
    split <;> omega
  · simp only [EptpInitTableEntry, UtilPfnFromPa, Nat.shiftRight_eq_div_pow]
    norm_num
    omega

/-- C14: for every state returned by a successful `EptInitialization`,
`EptGetEptPointer` is the word `6 + 8 * 3 + 4096 * pml4`, where `pml4`, the
frame number of the PML4 table, is not zero and fits 36 bits: bits 0..2 are
write-back, bits 3..5 are 3, bits 12..47 are the frame number of the PML4 and
bit 6, bits 7..11 and bits 48..63 are zero.  The kernel pool is assumed to
hand out pairwise distinct blocks with non-zero frame numbers of at most 36
bits; the logs start empty. -/
theorem ept_pointer_after_initialization (pm_ranges : List PhysicalMemoryRun) (apic_base : Nat)
    (k : Kernel) (d : EptData) (k1 : Kernel)
    (hok : PoolOracleOk k) (ha : k.allocated = []) (hf : k.freed = [])
    (h : EptInitialization pm_ranges apic_base k = .ok (some d, k1)) :
    EptGetEptPointer d = kWriteBack + 8 * 3 + 4096 * d.ept_pml4 ∧
    UtilPfnFromPa (UtilPaFromVa d.ept_pml4) = d.ept_pml4 ∧
    0 < d.ept_pml4 ∧ d.ept_pml4 < 2 ^ 36 ∧
    EptGetEptPointer d % 8 = kWriteBack ∧
    EptGetEptPointer d / 8 % 8 = 3 ∧
    EptGetEptPointer d / 4096 % 2 ^ 36 = d.ept_pml4 ∧
    EptGetEptPointer d / 64 % 2 = 0 ∧
    EptGetEptPointer d / 128 % 32 = 0 ∧
    EptGetEptPointer d / 2 ^ 48 = 0 := by
  obtain ⟨r, k1', h', -, -, hsome⟩ := init_spec pm_ranges apic_base k hok ha hf
  rw [h] at h'
  simp only [Except.ok.injEq, Prod.mk.injEq] at h'
  obtain ⟨rfl, rfl⟩ := h'
  have hinit := hsome d rfl
  obtain ⟨L, owned, -, -, hinv, -⟩ := hinit.pool
  have hroot : d.ept_pml4 ∈ owned := (hinv.reach _).1 ⟨[], by simp, rfl⟩
  obtain ⟨h0, h36⟩ := hinv.range _ (List.mem_append_left _ hroot)
  have hall : EptGetEptPointer d = kWriteBack + 8 * 3 + 4096 * d.ept_pml4 := by
    simp only [EptGetEptPointer, hinit.pointer, EptPointer.all, Bool.toNat_false]
    omega
  have hpfn : UtilPfnFromPa (UtilPaFromVa d.ept_pml4) = d.ept_pml4 := by
    have := pfn_of_table d.ept_pml4 h36
    unfold UtilPfnFromPa UtilPaFromVa u64 PAGE_SIZE at *
    rw [Nat.shiftRight_eq_div_pow] at *
    norm_num at *
    omega
  refine ⟨hall, hpfn, h0, h36, ?_, ?_, ?_, ?_, ?_, ?_⟩ <;>
    (rw [hall]; simp only [kWriteBack]; norm_num at h36 ⊢; omega)

/-- Witness of C14: a run of 4 pages at page 0x100 and a pool of 70 blocks;
the PML4 is the third block handed out. -/
theorem ept_pointer_after_initialization_witness :
    PoolOracleOk (sampleKernel 1 70) ∧
    ∃ d k1, EptInitialization [⟨0x100, 4⟩] 0xfee00 (sampleKernel 1 70) = .ok (some d, k1) ∧
      d.ept_pml4 = 3 ∧ EptGetEptPointer d = kWriteBack + 8 * 3 + 4096 * d.ept_pml4 :=
  ⟨by decide, _, _, rfl, rfl,
    (ept_pointer_after_initialization [⟨0x100, 4⟩] 0xfee00 (sampleKernel 1 70) _ _
      (by decide) rfl rfl rfl).1⟩

/-! ## Frame of a construction -/

theorem sampleMapped_eq :
    EptpConstructTables 4 1 0x1000 none (sampleKernel 2 6) = .ok (some (4, 1), none, sampleMapped) :=
  rfl

theorem sampleMapped_wellFormed : WellFormed sampleMapped 1 none := by
  have h0 : TreeInv (sampleKernel 2 6) 1 [1] (upcoming none (sampleKernel 2 6)) :=
    TreeInv.empty (fun _ => rfl) (by decide) (by decide)
  have hz : PoolZeroed none (sampleKernel 2 6) := by intro d hd; simp at hd
  obtain ⟨new, g1, g2, -⟩ := construct_spec h0 hz sampleMapped_eq
  exact ⟨⟨_, g1⟩, g2⟩

/-- C19: on a well-formed tree, for an address whose leaf slot is empty, a
call `EptpConstructTables(pml4, 4, address, state)` that returns an entry
trips no assertion and, `new` being the tables the allocator handed out during
the call (none of which was a table of the tree), leaves every slot that was
not zero in any other table as it was; a slot of such a table that differs
after the call was zero before and is the slot that the walk of the address
reads at one of the four depths, of which there is one per depth; and for
every other address whose leaf was present, `EptpGetEptPtEntry` returns the
same slot as before, with the same contents. -/
theorem construct_preserves_present_slots (k : Kernel) (root : Nat) (ed : Option EptData)
    (pa : Nat) (slot : Nat × Nat) (ed1 : Option EptData) (k1 : Kernel)
    (hwf : WellFormed k root ed) (hempty : LeafEmpty k root pa)
    (h : EptpConstructTables 4 root pa ed k = .ok (some slot, ed1, k1)) :
    k1.assertion_failures = k.assertion_failures ∧
    ∃ new : List Nat, upcoming ed k = new.reverse ++ upcoming ed1 k1 ∧
      (∀ q a, q.length ≤ 3 → walk k root q = some a → a ∉ new) ∧
      (∀ a j, a ∉ new → (k.tables a j).all ≠ 0 → k1.tables a j = k.tables a j) ∧
      (∀ a j, a ∉ new → k1.tables a j ≠ k.tables a j →
        (k.tables a j).all = 0 ∧ ∃ m, m ≤ 3 ∧ OnPathAt k1 root pa m a j) ∧
      (∀ m a j b i, OnPathAt k1 root pa m a j → OnPathAt k1 root pa m b i → a = b ∧ j = i) ∧
      (∀ pb t, walk k root (pathOf pb) = some t →
        (k.tables t (EptpAddressToPteIndex pb)).all ≠ 0 →
        EptpGetEptPtEntry k 4 root pb = some (t, EptpAddressToPteIndex pb) ∧
        EptpGetEptPtEntry k1 4 root pb = some (t, EptpAddressToPteIndex pb) ∧
        k1.tables t (EptpAddressToPteIndex pb) = k.tables t (EptpAddressToPteIndex pb)) := by
  obtain ⟨⟨owned, hinv⟩, hz⟩ := hwf
  obtain ⟨new, n, hd, hinv1, hz1, hup, hsome, -⟩ := construct_frame hinv hz h
  obtain ⟨rfl, t1, -, hw1, haf, -⟩ := hsome slot rfl
  have hfresh : ∀ q a, q.length ≤ 3 → walk k root q = some a → a ∉ new := by
    intro q a hq hw hm
    have hto : a ∈ owned := (hinv.reach a).1 ⟨q, hq, hw⟩
    exact (List.nodup_append.1 (List.nodup_append.1 hinv1.nodup).1).2.2 hm hto
  have hwritten : ∀ a j, a ∉ new → k1.tables a j ≠ k.tables a j →
      (k.tables a j).all = 0 ∧ ∃ m, m ≤ 3 ∧ OnPathAt k1 root pa m a j := by
    intro a j ha hne
    obtain ⟨m, hm, hon, hlt, -⟩ := hd.old_slots a j ha hne
    refine ⟨?_, m, by omega, hon⟩
    rcases Nat.lt_or_ge m 3 with h3 | h3
    · exact hlt h3
    · have hm3 : m = 3 := by omega
      subst hm3
      obtain ⟨-, hwa, hj⟩ := hon
      have hj1 : j = EptpAddressToPteIndex pa := by
        rw [selectors_eq] at hj
        simpa using hj.symm
      rcases hd.reflected _ _ (by simp [pathOf]) hwa with h0 | ⟨h0, -⟩
      · rw [hj1]
        exact hempty a h0
      · exact absurd h0 ha
  have hkeep : ∀ a j, a ∉ new → (k.tables a j).all ≠ 0 → k1.tables a j = k.tables a j := by
    intro a j ha hnz
    by_contra hne
    exact hnz (hwritten a j ha hne).1
  refine ⟨haf hempty, new, hup, hfresh, hkeep, hwritten, ?_, ?_⟩
  · intro m a j b i h1 h2
    have ha := h1.2.1
    rw [h2.2.1] at ha
    have hj := h1.2.2
    rw [h2.2.2] at hj
    simp only [Option.some.injEq] at ha hj
    exact ⟨ha.symm, hj.symm⟩
  · intro pb t hw hnz
    have hl : (pathOf pb).length ≤ 3 := by simp [pathOf]
    exact ⟨lookup_of_walk k root pb t hw, lookup_of_walk k1 root pb t (hd.kept _ _ hl hw),
      hkeep _ _ (hfresh _ _ hl hw) hnz⟩

theorem sampleMapped_leafEmpty : LeafEmpty sampleMapped 1 0x2000 := by
  intro t1 ht
  have h4 : walk sampleMapped 1 (pathOf 0x2000) = some 4 := by decide
  rw [h4] at ht
  simp only [Option.some.injEq] at ht
  subst ht
  decide

/-- Witness of C19: in the tree that maps the page `0x1000`, constructing the
page `0x2000` leaves the entry of `0x1000` in slot 1 of table 4 as it was. -/
theorem construct_preserves_present_slots_witness :
    WellFormed sampleMapped 1 none ∧ LeafEmpty sampleMapped 1 0x2000 ∧
    ∃ k1, EptpConstructTables 4 1 0x2000 none sampleMapped = .ok (some (4, 2), none, k1) ∧
      (sampleMapped.tables 4 1).all ≠ 0 ∧
      EptpGetEptPtEntry k1 4 1 0x1000 = some (4, 1) ∧
      k1.tables 4 1 = sampleMapped.tables 4 1 :=
  ⟨sampleMapped_wellFormed, sampleMapped_leafEmpty, _, rfl, by decide,
    (construct_preserves_present_slots sampleMapped 1 none 0x2000 (4, 2) none _
      sampleMapped_wellFormed sampleMapped_leafEmpty rfl).2.elim
      (fun _ hn => ⟨(hn.2.2.2.2.2 0x1000 4 (by decide) (by decide)).2.1,
        (hn.2.2.2.2.2 0x1000 4 (by decide) (by decide)).2.2⟩)⟩

/-! ## Allocation failure in the constructor -/

/-- A failed allocation leaves table memory, the free log and the assertion
count as they were. -/
theorem allocate_none (ed : Option EptData) (k : Kernel) (d1 : Option EptData) (k1 : Kernel)
    (h : EptpAllocateEptEntry ed k = .ok (none, d1, k1)) :
    k1.tables = k.tables ∧ k1.freed = k.freed ∧
      k1.assertion_failures = k.assertion_failures := by
  cases ed with
  | none =>
    simp only [EptpAllocateEptEntry, EptpAllocateEptEntryFromPool] at h
    have hs := ExAllocatePoolWithTag_spec k
    rcases hx : ExAllocatePoolWithTag k with ⟨_ | a, kx⟩
    · rw [hx] at h
      simp only [Except.ok.injEq, Prod.mk.injEq] at h
      obtain ⟨-, -, rfl⟩ := h
      unfold ExAllocatePoolWithTag at hx
      split at hx <;> simp only [Prod.mk.injEq, true_and, reduceCtorEq, false_and] at hx <;>
        subst hx <;> exact ⟨rfl, rfl, rfl⟩
    · rw [hx] at h; simp at h
  | some d =>
    simp only [EptpAllocateEptEntry] at h
    split at h
    · simp at h
    · simp only [Except.ok.injEq, Prod.mk.injEq] at h
      obtain ⟨-, -, rfl⟩ := h
      exact ⟨rfl, rfl, rfl⟩

/-- The call at a level that is reached returns what the call it is reached
from returns. -/
theorem reaches_eq {pa level table : Nat} {ed : Option EptData} {k : Kernel}
    {L T : Nat} {E : Option EptData} {K : Kernel}
    (h : Reaches pa level table ed k L T E K) :
    EptpConstructTables level table pa ed k = EptpConstructTables L T pa E K := by
  induction h with
  | here => rfl
  | down hl hi he _ ih =>
    rw [← ih]
    rw [selectors_eq] at hi
    rcases hl with rfl | rfl | rfl
    · simp only [Nat.sub_self, List.getElem?_cons_zero, Option.some.injEq] at hi
      subst hi
      simp only [EptpConstructTables, Nat.reduceAdd, if_true, he]
    · simp only [Nat.reduceSub, List.getElem?_cons_succ, List.getElem?_cons_zero,
        Option.some.injEq] at hi
      subst hi
      simp only [EptpConstructTables, Nat.reduceAdd, Nat.reduceEqDiff, if_false, if_true, he]
    · simp only [Nat.reduceSub, List.getElem?_cons_succ, List.getElem?_cons_zero,
        Option.some.injEq] at hi
      subst hi
      simp only [EptpConstructTables, Nat.reduceAdd, Nat.reduceEqDiff, if_false, if_true, he]

theorem selector_lt (pa n i : Nat) (hi : (selectors pa)[n]? = some i) : i < 512 := by
  obtain ⟨h1, h2, h3, h4⟩ := index_lt pa
  rw [selectors_eq] at hi
  rcases n with _ | _ | _ | _ | n <;> simp at hi <;> omega

/-- On a well-formed tree the call reached at level `L` has gone `4 - L`
levels down. -/
theorem reaches_descended {k0 : Kernel} {root pa : Nat} {owned : List Nat}
    {ed0 : Option EptData} {level table : Nat} {ed : Option EptData} {k : Kernel}
    {L T : Nat} {E : Option EptData} {K : Kernel}
    (h : Reaches pa level table ed k L T E K) (hlev : level ≤ 4)
    (hd : Descended k0 root owned ed0 pa (4 - level) table ed k) :
    L ≤ level ∧ Descended k0 root owned ed0 pa (4 - L) T E K := by
  induction h with
  | here => exact ⟨le_refl _, hd⟩
  | @down level table i sub ed ed1 k k1 L T E K hl hi he _ ih =>
    obtain ⟨new, g1, g2, g3, g4, g5, g6⟩ := hd
    have hn : 4 - (level + 1) = 3 - level := by omega
    rw [hn] at g1 g6
    obtain ⟨new1, f1, f2, f3, f4, f5, f6⟩ :=
      frame_step g1 g2 g3 g4 g5 (by omega) g6 hi (selector_lt pa _ i hi) he
    have hn1 : 3 - level + 1 = 4 - level := by omega
    rw [hn1] at f1 f6
    obtain ⟨i1, i2⟩ := ih (by omega) ⟨new1, f1, f2, f3, f4, f5, f6⟩
    exact ⟨by omega, i2⟩

/-- C18: in a call `EptpConstructTables(pml4, 4, address, state)` that has
reached level 4, 3 or 2 on `table`, if the slot of the address in `table` is
empty and the allocation of the child table fails, then the call at that level
and with it the whole call returns null with the state the allocator left,
table memory is as it was when the level was reached, so the slot is still
zero and nothing is freed or asserted; and when the tree was well formed at
the start of the call, every slot of an old table that differs from the start
was zero then and is a slot that the walk of the address reads at a higher
level, the tables linked in are zero but for such slots, and no slot of a page
table has changed. -/
theorem construct_allocation_failure (pa root : Nat) (ed0 : Option EptData) (k0 : Kernel)
    (level table i : Nat) (ed : Option EptData) (k : Kernel) (d1 : Option EptData)
    (k1 : Kernel)
    (hreach : Reaches pa 4 root ed0 k0 level table ed k)
    (hl : level = 4 ∨ level = 3 ∨ level = 2)
    (hi : (selectors pa)[4 - level]? = some i)
    (hslot : (k.tables table i).all = 0)
    (hfail : EptpAllocateEptEntry ed k = .ok (none, d1, k1)) :
    EptpConstructTables level table pa ed k = .ok (none, d1, k1) ∧
    EptpConstructTables 4 root pa ed0 k0 = .ok (none, d1, k1) ∧
    k1.tables = k.tables ∧ (k1.tables table i).all = 0 ∧
    k1.freed = k.freed ∧ k1.assertion_failures = k.assertion_failures ∧
    (∀ owned, TreeInv k0 root owned (upcoming ed0 k0) → PoolZeroed ed0 k0 →
      ∃ new, Descent k0 root pa (4 - level) k1 new ∧
        walk k1 root ((pathOf pa).take (4 - level)) = some table ∧
        k1.assertion_failures = k0.assertion_failures ∧
        (∀ a j, a ∉ new → k1.tables a j ≠ k0.tables a j →
          (k0.tables a j).all = 0 ∧ ∃ m, m < 4 - level ∧ OnPathAt k1 root pa m a j) ∧
        (∀ a j, a ∈ new → k1.tables a j ≠ EptCommonEntry.zero →
          ∃ m, m < 4 - level ∧ OnPathAt k1 root pa m a j) ∧
        (∀ q t1 j, q.length = 3 → walk k1 root q = some t1 →
          walk k0 root q = some t1 ∧ k1.tables t1 j = k0.tables t1 j)) := by
  obtain ⟨ht, hf, ha⟩ := allocate_none ed k d1 k1 hfail
  have hlocal : EptpConstructTables level table pa ed k = .ok (none, d1, k1) := by
    rw [selectors_eq] at hi
    rcases hl with rfl | rfl | rfl
    · simp only [Nat.sub_self, List.getElem?_cons_zero, Option.some.injEq] at hi
      subst hi
      simp only [EptpConstructTables, EptpConstructTables.enter, Nat.reduceAdd, if_true, hslot,
        hfail]
    · simp only [Nat.reduceSub, List.getElem?_cons_succ, List.getElem?_cons_zero,
        Option.some.injEq] at hi
      subst hi
      simp only [EptpConstructTables, EptpConstructTables.enter, Nat.reduceAdd,
        Nat.reduceEqDiff, if_false, if_true, hslot, hfail]
    · simp only [Nat.reduceSub, List.getElem?_cons_succ, List.getElem?_cons_zero,
        Option.some.injEq] at hi
      subst hi
      simp only [EptpConstructTables, EptpConstructTables.enter, Nat.reduceAdd,
        Nat.reduceEqDiff, if_false, if_true, hslot, hfail]
  refine ⟨hlocal, by rw [reaches_eq hreach]; exact hlocal, ht, by rw [ht]; exact hslot, hf, ha,
    ?_⟩
  intro owned hinv hz
  have hstart : Descended k0 root owned ed0 pa (4 - 4) root ed0 k0 :=
    ⟨[], Descent.start k0 root pa, by simpa using hinv, hz, by simp, rfl, rfl⟩
  obtain ⟨-, new, g1, g2, g3, g4, g5, g6⟩ := reaches_descended hreach (le_refl 4) hstart
  have hd : Descent k0 root pa (4 - level) k1 new := g1.of_tables_eq ht hf
  have hinv1 : TreeInv k1 root (new ++ owned) (upcoming ed k) := g2.congr ht
  have hn : 4 - level ≤ 2 := by omega
  have hold : ∀ a j, a ∉ new → k1.tables a j ≠ k0.tables a j →
      (k0.tables a j).all = 0 ∧ ∃ m, m < 4 - level ∧ OnPathAt k1 root pa m a j := by
    intro a j hnew hne
    obtain ⟨m, hm, hon, hz0, -⟩ := hd.old_slots a j hnew hne
    exact ⟨hz0 (by omega), m, hm, hon⟩
  refine ⟨new, hd, by rw [walk_congr k k1 ht]; exact g6, ha.trans g5, hold, ?_, ?_⟩
  · intro a j hnew hne
    obtain ⟨m, hm, hon, -⟩ := hd.new_slots a j hnew hne
    exact ⟨m, hm, hon⟩
  · intro q t1 j hq hw
    have hw0 : walk k0 root q = some t1 := by
      rcases hd.reflected q t1 (by omega) hw with h0 | ⟨-, m, -, hmn, -, hqm⟩
      · exact h0
      · have := congrArg List.length hqm
        rw [length_take_pathOf pa m (by omega)] at this
        omega
    refine ⟨hw0, ?_⟩
    have hto : t1 ∈ owned := (hinv.reach t1).1 ⟨q, by omega, hw0⟩
    have hnew : t1 ∉ new := fun hm =>
      (List.nodup_append.1 (List.nodup_append.1 hinv1.nodup).1).2.2 hm hto
    by_contra hne
    obtain ⟨-, m, hm, hon⟩ := hold t1 j hnew hne
    have := hinv1.inj _ _ t1 (by rw [length_take_pathOf pa m (by omega)]; omega) (by omega)
      hon.2.1 hw
    have hlen := congrArg List.length this
    rw [length_take_pathOf pa m (by omega)] at hlen
    omega

theorem sampleEntered_eq :
    EptpConstructTables.enter 1 4 0 none (sampleKernel 2 1) = .ok (some 2, none, sampleEntered) :=
  rfl

/-- Witness of C18: on the empty tree with one block left in the kernel pool,
the call for the page `0x1000` links the block in at level 4, fails to
allocate at level 3 and returns null; the slot of level 3 stays zero and the
slot of level 4 stays filled. -/
theorem construct_allocation_failure_witness :
    Reaches 0x1000 4 1 none (sampleKernel 2 1) 3 2 none sampleEntered ∧
    (sampleEntered.tables 2 0).all = 0 ∧
    ∃ k1, EptpAllocateEptEntry none sampleEntered = .ok (none, none, k1) ∧
      EptpConstructTables 4 1 0x1000 none (sampleKernel 2 1) = .ok (none, none, k1) ∧
      (k1.tables 2 0).all = 0 ∧ k1.tables = sampleEntered.tables ∧
      (sampleEntered.tables 1 0).all ≠ 0 :=
  ⟨Reaches.down (Or.inl rfl) rfl sampleEntered_eq (Reaches.here 3 2 none sampleEntered),
    by decide, _, rfl,
    (construct_allocation_failure 0x1000 1 none (sampleKernel 2 1) 3 2 0 none sampleEntered
      none _ (Reaches.down (Or.inl rfl) rfl sampleEntered_eq (Reaches.here 3 2 none sampleEntered))
      (Or.inr (Or.inl rfl)) rfl (by decide) rfl).2.1,
    (construct_allocation_failure 0x1000 1 none (sampleKernel 2 1) 3 2 0 none sampleEntered
      none _ (Reaches.down (Or.inl rfl) rfl sampleEntered_eq (Reaches.here 3 2 none sampleEntered))
      (Or.inr (Or.inl rfl)) rfl (by decide) rfl).2.2.2.1,
    (construct_allocation_failure 0x1000 1 none (sampleKernel 2 1) 3 2 0 none sampleEntered
      none _ (Reaches.down (Or.inl rfl) rfl sampleEntered_eq (Reaches.here 3 2 none sampleEntered))
      (Or.inr (Or.inl rfl)) rfl (by decide) rfl).2.2.1,
    by decide⟩

/-! ## Initialization: the leaves present -/

theorem mem_addresses (pm_ranges : List PhysicalMemoryRun) (apic_base pb : Nat) :
    pb ∈ EptInitialization.addresses pm_ranges apic_base ↔
      (∃ run ∈ pm_ranges, ∃ j, j < run.page_count ∧
        pb = u64 (u64 (run.base_page * PAGE_SIZE) + j * PAGE_SIZE)) ∨
      pb = u64 (apic_base * PAGE_SIZE) := by
  simp only [EptInitialization.addresses, EptInitialization.pageAddresses, List.mem_append,
    List.mem_flatMap, List.mem_map, List.mem_range, List.mem_singleton, Nat.zero_add]
  constructor
  · rintro (⟨run, hr, j, hj, rfl⟩ | h)
    · exact Or.inl ⟨run, hr, j, hj, rfl⟩
    · exact Or.inr h
  · rintro (⟨run, hr, j, hj, rfl⟩ | h)
    · exact Or.inl ⟨run, hr, j, hj, rfl⟩
    · exact Or.inr h

/-- Two addresses have the same four selectors when they agree on the bits 12
to 47. -/
theorem selectors_eq_iff (pa pb : Nat) :
    selectors pa = selectors pb ↔ pa / 4096 % 2 ^ 36 = pb / 4096 % 2 ^ 36 := by
  simp only [selectors_eq, pxe_eq, ppe_eq, pde_eq, pte_eq, List.cons.injEq, and_true]
  norm_num
  omega

theorem selectors_split (pa pb : Nat) :
    selectors pa = selectors pb ↔
      pathOf pa = pathOf pb ∧ EptpAddressToPteIndex pa = EptpAddressToPteIndex pb := by
  simp only [selectors_eq, pathOf, List.cons.injEq, and_true]
  tauto

/-- The leaf slot of an address is present when the path of the address
exists and the slot is not zero. -/
theorem not_leafEmpty_iff (k : Kernel) (root pa : Nat) :
    ¬ LeafEmpty k root pa ↔
      ∃ t1, walk k root (pathOf pa) = some t1 ∧
        (k.tables t1 (EptpAddressToPteIndex pa)).all ≠ 0 := by
  simp only [LeafEmpty, not_forall]
  constructor
  · rintro ⟨t1, hw, hnz⟩; exact ⟨t1, hw, hnz⟩
  · rintro ⟨t1, hw, hnz⟩; exact ⟨t1, hw, hnz⟩

/-- C16 (amended): after a successful `EptInitialization`, the leaf slot of
an address is present (its path exists and its level-1 slot is not zero)
exactly when the address has the four selectors of a page of a reported run
or of the APIC base page, which `EptInitialization` maps too; two addresses
have the same selectors when they agree on the bits 12 to 47.  Hence, when
the runs and the APIC base page lie below `2^48`, the leaf slot of an address
below `2^48` is absent exactly when the address is outside every reported
run and outside the APIC base page.  The kernel pool is assumed to hand out
pairwise distinct blocks with non-zero frame numbers of at most 36 bits; the
logs start empty. -/
theorem initialization_leaves_exactly (pm_ranges : List PhysicalMemoryRun) (apic_base : Nat)
    (k : Kernel) (d : EptData) (k1 : Kernel) (pa : Nat)
    (hok : PoolOracleOk k) (ha : k.allocated = []) (hf : k.freed = [])
    (h : EptInitialization pm_ranges apic_base k = .ok (some d, k1)) :
    ((∃ t1, walk k1 d.ept_pml4 (pathOf pa) = some t1 ∧
        (k1.tables t1 (EptpAddressToPteIndex pa)).all ≠ 0) ↔
      ((∃ run ∈ pm_ranges, ∃ j, j < run.page_count ∧
          selectors pa = selectors (u64 (u64 (run.base_page * PAGE_SIZE) + j * PAGE_SIZE))) ∨
        selectors pa = selectors (u64 (apic_base * PAGE_SIZE)))) ∧
    (∀ pb, selectors pa = selectors pb ↔ pa / 4096 % 2 ^ 36 = pb / 4096 % 2 ^ 36) ∧
    (pa < 2 ^ 48 → apic_base < 2 ^ 36 →
      (∀ run ∈ pm_ranges, run.base_page + run.page_count ≤ 2 ^ 36) →
      (LeafEmpty k1 d.ept_pml4 pa ↔
        (∀ run ∈ pm_ranges, ¬ run.covers pa) ∧ pa / PAGE_SIZE ≠ apic_base)) := by
  obtain ⟨r, k1', h', -, -, hsome⟩ := init_spec pm_ranges apic_base k hok ha hf
  rw [h] at h'
  simp only [Except.ok.injEq, Prod.mk.injEq] at h'
  obtain ⟨rfl, rfl⟩ := h'
  have hinit := hsome d rfl
  have hmapped : ∀ pb, Mapped k1 d.ept_pml4 pb → selectors pa = selectors pb →
      ∃ t1, walk k1 d.ept_pml4 (pathOf pa) = some t1 ∧
        (k1.tables t1 (EptpAddressToPteIndex pa)).all ≠ 0 := by
    rintro pb ⟨t1, hw, hl⟩ hs
    obtain ⟨hp, ht⟩ := (selectors_split pa pb).1 hs
    refine ⟨t1, by rw [hp]; exact hw, ?_⟩
    rw [ht]
    exact all_ne_zero_of_read _ hl.1
  have hiff : (∃ t1, walk k1 d.ept_pml4 (pathOf pa) = some t1 ∧
        (k1.tables t1 (EptpAddressToPteIndex pa)).all ≠ 0) ↔
      ((∃ run ∈ pm_ranges, ∃ j, j < run.page_count ∧
          selectors pa = selectors (u64 (u64 (run.base_page * PAGE_SIZE) + j * PAGE_SIZE))) ∨
        selectors pa = selectors (u64 (apic_base * PAGE_SIZE))) := by
    constructor
    · rintro ⟨t1, hw, hnz⟩
      obtain ⟨pb, hpb, hq, hpte, -⟩ := hinit.leaves _ t1 _ (by simp [pathOf]) hw hnz
      have hs : selectors pa = selectors pb := (selectors_split pa pb).2 ⟨hq, hpte⟩
      rcases (mem_addresses pm_ranges apic_base pb).1 hpb with ⟨run, hr, j, hj, rfl⟩ | rfl
      · exact Or.inl ⟨run, hr, j, hj, hs⟩
      · exact Or.inr hs
    · rintro (⟨run, hr, j, hj, hs⟩ | hs)
      · exact hmapped _ (hinit.runs run hr j hj) hs
      · exact hmapped _ hinit.apic hs
  refine ⟨hiff, selectors_eq_iff pa, ?_⟩
  intro hpa hapic hruns
  rw [← not_iff_not, not_leafEmpty_iff, hiff]
  have hA : selectors pa = selectors (u64 (apic_base * PAGE_SIZE)) ↔
      pa / PAGE_SIZE = apic_base := by
    rw [selectors_eq_iff]
    simp only [u64, PAGE_SIZE]
    norm_num at hpa hapic ⊢
    omega
  have hR : ∀ run ∈ pm_ranges, (∃ j, j < run.page_count ∧
      selectors pa = selectors (u64 (u64 (run.base_page * PAGE_SIZE) + j * PAGE_SIZE))) ↔
      run.covers pa := by
    intro run hr
    have hb := hruns run hr
    obtain ⟨b, c⟩ := run
    simp only [PhysicalMemoryRun.covers, PAGE_SIZE] at hb ⊢
    constructor
    · rintro ⟨j, hj, hs⟩
      rw [selectors_eq_iff] at hs
      simp only [u64] at hs
      norm_num at hpa hb hs ⊢
      omega
    · rintro ⟨h1, h2⟩
      refine ⟨pa / 4096 - b, by omega, ?_⟩
      rw [selectors_eq_iff]
      simp only [u64]
      norm_num at hpa hb ⊢
      omega
  rw [hA]
  constructor
  · rintro h1 ⟨h2, h3⟩
    rcases h1 with ⟨run, hr, hj⟩ | h1
    · exact h2 run hr ((hR run hr).1 hj)
    · exact h3 h1
  · intro h1
    by_contra h2
    simp only [not_or, not_exists, not_and] at h2
    apply h1
    refine ⟨fun run hr hc => ?_, h2.2⟩
    obtain ⟨j, hj, hs⟩ := (hR run hr).2 hc
    exact h2.1 run hr j hj hs

/-- Witness of C16 (amended): a run of 4 pages at page 0x100, the APIC at
0xfee00000, a pool of 70 blocks; the leaf slot of the address 0x104000, the
first page past the run, is absent. -/
theorem initialization_leaves_exactly_witness :
    PoolOracleOk (sampleKernel 1 70) ∧
    ∃ d k1, EptInitialization [⟨0x100, 4⟩] 0xfee00 (sampleKernel 1 70) = .ok (some d, k1) ∧
      LeafEmpty k1 d.ept_pml4 0x104000 :=
  ⟨by decide, _, _, rfl,
    ((initialization_leaves_exactly [⟨0x100, 4⟩] 0xfee00 (sampleKernel 1 70) _ _ 0x104000
      (by decide) rfl rfl rfl).2.2 (by decide) (by decide) (by decide)).2
      ⟨by decide, by decide⟩⟩

/-- C16 as stated fails: with the single run of 4 pages at page 0x100 and the
APIC at 0xfee00000, initialization succeeds and the address 0xfee00000 is
outside the run, but its path exists and its level-1 slot holds the
pass-through leaf of the APIC base page. -/
theorem initialization_maps_apic_page_outside_runs :
    PoolOracleOk (sampleKernel 1 70) ∧
    (∀ run ∈ [(⟨0x100, 4⟩ : PhysicalMemoryRun)], ¬ run.covers 0xfee00000) ∧
    (EptInitialization [⟨0x100, 4⟩] 0xfee00 (sampleKernel 1 70)).toOption.bind
      (fun r => r.1.bind (fun d => (walk r.2 d.ept_pml4 (pathOf 0xfee00000)).map
        (fun t1 => (r.2.tables t1 (EptpAddressToPteIndex 0xfee00000)).all))) =
      some (7 + 8 * kWriteBack + 4096 * 0xfee00) := by
  refine ⟨by decide, by decide, ?_⟩
  decide

/-! ## Sequences of constructions -/

/-- With the leaves of `S` only, the leaf slot of an address that shares its
selectors with no address of `S` is empty. -/
theorem Leaves.leafEmpty {k : Kernel} {root pa : Nat} {S : List Nat} (hl : Leaves k root S)
    (hs : ∀ s ∈ S, selectors pa ≠ selectors s) : LeafEmpty k root pa := by
  intro t1 hw
  by_contra hnz
  obtain ⟨pb, hpb, hq, hj, -⟩ := hl _ t1 _ (by simp [pathOf]) hw hnz
  exact hs pb hpb ((selectors_split pa pb).2 ⟨hq, hj⟩)

theorem constructMany_spec (root : Nat) :
    ∀ (pas : List Nat) (k : Kernel) (ed : Option EptData) (owned S : List Nat) (b : Bool)
      (ed1 : Option EptData) (k1 : Kernel),
      TreeInv k root owned (upcoming ed k) → PoolZeroed ed k → Leaves k root S →
      constructMany root pas ed k = .ok (b, ed1, k1) →
      ∃ new, TreeInv k1 root (new ++ owned) (upcoming ed1 k1) ∧ PoolZeroed ed1 k1 ∧
        upcoming ed k = new.reverse ++ upcoming ed1 k1 ∧ k1.freed = k.freed ∧
        (∀ q x, q.length ≤ 3 → walk k root q = some x → walk k1 root q = some x) ∧
        (b = true → Leaves k1 root (pas.reverse ++ S)) ∧
        (b = true → (pas.map selectors).Nodup →
          (∀ pa ∈ pas, ∀ s ∈ S, selectors pa ≠ selectors s) →
          k1.assertion_failures = k.assertion_failures) := by
  intro pas
  induction pas with
  | nil =>
    intro k ed owned S b ed1 k1 hinv hz hl h
    simp only [constructMany, Except.ok.injEq, Prod.mk.injEq] at h
    obtain ⟨rfl, rfl, rfl⟩ := h
    exact ⟨[], by simpa using hinv, hz, by simp, rfl, fun _ _ _ h => h,
      fun _ => by simpa using hl, fun _ _ _ => rfl⟩
  | cons pa rest ih =>
    intro k ed owned S b ed1 k1 hinv hz hl h
    simp only [constructMany] at h
    rcases hc : EptpConstructTables 4 root pa ed k with f | ⟨_ | slot, d2, k2⟩
    · rw [hc] at h; simp at h
    · rw [hc] at h
      simp only [Except.ok.injEq, Prod.mk.injEq] at h
      obtain ⟨rfl, rfl, rfl⟩ := h
      obtain ⟨new, n, hd, g1, g2, g3, -, -⟩ := construct_frame hinv hz hc
      exact ⟨new, g1, g2, g3, hd.freed, hd.kept, fun hb => by simp at hb,
        fun hb => by simp at hb⟩
    · rw [hc] at h
      simp only at h
      obtain ⟨new, n, hd, g1, g2, g3, g4, -⟩ := construct_frame hinv hz hc
      obtain ⟨rfl, t1, -, -, haf, -⟩ := g4 slot rfl
      have hl2 : Leaves k2 root (pa :: S) := hl.descent hd g1
      obtain ⟨new2, f1, f2, f3, f4, f5, f6, f7⟩ := ih k2 d2 _ (pa :: S) b ed1 k1 g1 g2 hl2 h
      refine ⟨new2 ++ new, ?_, f2, ?_, f4.trans hd.freed,
        fun q x hq hw => f5 q x hq (hd.kept q x hq hw), ?_, ?_⟩
      · rw [List.append_assoc]; exact f1
      · rw [g3, f3]; simp
      · intro hb
        have := f6 hb
        simpa using this
      · intro hb hnd hdis
        simp only [List.map_cons, List.nodup_cons, List.mem_map, not_exists, not_and] at hnd
        have h1 : k2.assertion_failures = k.assertion_failures :=
          haf (hl.leafEmpty (hdis pa (List.mem_cons_self _ _)))
        rw [← h1]
        apply f7 hb hnd.2
        intro pb hpb s hs
        rcases List.mem_cons.1 hs with rfl | hs
        · exact fun he => hnd.1 pb hpb he
        · exact hdis pb (List.mem_cons_of_mem _ hpb) s hs

/-- C13: starting from an all-zero level-4 table `root`, in either allocation
context, after any sequence of calls `EptpConstructTables(root, 4, address,
state)` that all returned an entry, `new` being the tables the allocator
handed out: the tables reached from the root are the root and the tables of
`new`, which are pairwise distinct; every non-zero slot of a table of level 4,
3 or 2 (reached along at most two slots) holds the frame number of a table of
`new`, reached through that slot, and no other non-zero slot of such a table
holds the same frame number; every non-zero slot of a page table (reached
along three slots) grants read, write and execute, has memory type write-back
and holds the frame number of one of the addresses constructed, whose path
leads to that page table and whose level-1 selector is that slot.  When the
addresses have pairwise distinct leaf slots no assertion is tripped. -/
theorem tree_shape_invariant (root : Nat) (pas : List Nat) (ed : Option EptData) (k : Kernel)
    (ed1 : Option EptData) (k1 : Kernel)
    (hzero : ∀ i, k.tables root i = EptCommonEntry.zero)
    (hnd : (root :: upcoming ed k).Nodup)
    (hr : ∀ t ∈ root :: upcoming ed k, 0 < t ∧ t < 2 ^ 36) (hz : PoolZeroed ed k)
    (h : constructMany root pas ed k = .ok (true, ed1, k1)) :
    ∃ new : List Nat, upcoming ed k = new.reverse ++ upcoming ed1 k1 ∧ (root :: new).Nodup ∧
      (∀ t, (∃ p, p.length ≤ 3 ∧ walk k1 root p = some t) ↔ t = root ∨ t ∈ new) ∧
      (∀ p t i, p.length ≤ 2 → walk k1 root p = some t → i < 512 →
        (k1.tables t i).all ≠ 0 →
        (k1.tables t i).physial_address ∈ new ∧
        walk k1 root (p ++ [i]) = some (k1.tables t i).physial_address ∧
        ∀ p1 t1 i1, p1.length ≤ 2 → walk k1 root p1 = some t1 → i1 < 512 →
          (k1.tables t1 i1).all ≠ 0 →
          (k1.tables t1 i1).physial_address = (k1.tables t i).physial_address →
          t1 = t ∧ i1 = i) ∧
      (∀ q t1 j, q.length = 3 → walk k1 root q = some t1 → (k1.tables t1 j).all ≠ 0 →
        (k1.tables t1 j).read_access = true ∧ (k1.tables t1 j).write_access = true ∧
        (k1.tables t1 j).execute_access = true ∧ (k1.tables t1 j).memory_type = kWriteBack ∧
        ∃ pa ∈ pas, q = pathOf pa ∧ j = EptpAddressToPteIndex pa ∧
          (k1.tables t1 j).physial_address = (pa >>> 12) % 2 ^ 36) ∧
      ((pas.map selectors).Nodup → k1.assertion_failures = k.assertion_failures) := by
  have hinv : TreeInv k root [root] (upcoming ed k) := TreeInv.empty hzero hnd hr
  obtain ⟨new, g1, -, g3, -, -, g6, g7⟩ :=
    constructMany_spec root pas k ed [root] [] true ed1 k1 hinv hz (Leaves.of_zero_root hzero) h
  have hl := g6 rfl
  have hchild : ∀ p t i, p.length ≤ 2 → walk k1 root p = some t → i < 512 →
      (k1.tables t i).all ≠ 0 →
      walk k1 root (p ++ [i]) = some (k1.tables t i).physial_address := by
    intro p t i hp hw hi hnz
    rw [walk_snoc k1 root p i t hw, if_pos ⟨hi, hnz⟩]
    rfl
  refine ⟨new, g3, ?_, ?_, ?_, ?_, fun hn => g7 rfl hn (fun _ _ s hs => by simp at hs)⟩
  · have := (List.nodup_append.1 g1.nodup).1
    rw [List.nodup_append_comm] at this
    simpa using this
  · intro t
    rw [g1.reach t]
    simp only [List.mem_append, List.mem_singleton]
    tauto
  · intro p t i hp hw hi hnz
    have hc := hchild p t i hp hw hi hnz
    refine ⟨?_, hc, ?_⟩
    · have hmem := (g1.reach _).1 ⟨p ++ [i], by simp; omega, hc⟩
      rcases List.mem_append.1 hmem with h1 | h1
      · exact h1
      · simp only [List.mem_singleton] at h1
        have hroot : walk k1 root [] = some root := rfl
        rw [h1] at hc
        have := g1.inj _ _ root (by simp; omega) (by simp) hc hroot
        simp at this
    · intro p1 t1 i1 hp1 hw1 hi1 hnz1 he
      have hc1 := hchild p1 t1 i1 hp1 hw1 hi1 hnz1
      rw [he] at hc1
      have := g1.inj _ _ _ (by simp; omega) (by simp; omega) hc1 hc
      obtain ⟨hpp, hii⟩ := List.append_inj' this rfl
      simp only [List.cons.injEq, and_true] at hii
      subst hpp
      rw [hw] at hw1
      exact ⟨(Option.some.inj hw1).symm, hii⟩
  · intro q t1 j hq hw hnz
    obtain ⟨pa, hpa, hqp, hj, l1, l2, l3, l4, l5⟩ := hl q t1 j hq hw hnz
    exact ⟨l1, l2, l3, l4, pa, by simpa using hpa, hqp, hj, l5⟩

/-- Witness of C13: three addresses constructed in initialization context on
the empty tree of `sampleKernel 2 9`; the first two share their page table,
the third has a path of its own from the PML4 down. -/
theorem tree_shape_invariant_witness :
    (∀ i, (sampleKernel 2 9).tables 1 i = EptCommonEntry.zero) ∧
    (1 :: upcoming none (sampleKernel 2 9)).Nodup ∧
    ∃ k1, constructMany 1 [0x1000, 0x2000, 0x8000000000] none (sampleKernel 2 9) =
        .ok (true, none, k1) ∧
      ∃ new : List Nat, upcoming none (sampleKernel 2 9) = new.reverse ++ upcoming none k1 ∧
        (1 :: new).Nodup ∧ k1.assertion_failures = (sampleKernel 2 9).assertion_failures :=
  ⟨fun _ => rfl, by decide, _, rfl,
    (tree_shape_invariant 1 [0x1000, 0x2000, 0x8000000000] none (sampleKernel 2 9) none _
      (fun _ => rfl) (by decide) (by decide) (poolZeroed_none _) rfl).elim
      (fun new hn => ⟨new, hn.1, hn.2.1, hn.2.2.2.2.2 (by decide)⟩)⟩

/-! ## The destructor, slot by slot -/

theorem traced_fold (tables : Nat → Nat → EptCommonEntry) (table : Nat)
    (step : Nat → Kernel × List (Nat × Nat) → Kernel × List (Nat × Nat))
    (stepK : Nat → Kernel → Kernel) (F : Nat → List (Nat × Nat))
    (hstep : ∀ c k log, k.tables = tables →
      step c (k, log) = (stepK c k, (F c).reverse ++ log) ∧ (stepK c k).tables = tables) :
    ∀ (l : List Nat) (k : Kernel) (log : List (Nat × Nat)), k.tables = tables →
      l.foldl (fun s i =>
        if (s.1.tables table i).physial_address ≠ 0 then
          step (UtilVaFromPfn (s.1.tables table i).physial_address) (s.1, (table, i) :: s.2)
        else s) (k, log) =
      (l.foldl (fun k i =>
        if (k.tables table i).physial_address ≠ 0 then
          stepK (UtilVaFromPfn (k.tables table i).physial_address) k
        else k) k,
        ((l.filter (fun i => decide ((tables table i).physial_address ≠ 0))).flatMap
          (fun i => (table, i) :: F (UtilVaFromPfn (tables table i).physial_address))).reverse
          ++ log) := by
  intro l
  induction l with
  | nil => intro k log _; simp
  | cons i rest ih =>
    intro k log hk
    subst hk
    simp only [List.foldl_cons]
    by_cases hp : (k.tables table i).physial_address ≠ 0
    · obtain ⟨hs, ht⟩ := hstep (UtilVaFromPfn (k.tables table i).physial_address) k
        ((table, i) :: log) rfl
      simp only [if_pos hp]
      rw [hs, ih _ _ ht]
      simp [List.filter_cons, hp, List.flatMap_cons, List.reverse_append]
    · simp only [if_neg hp]
      rw [ih k log rfl]
      simp [List.filter_cons, hp]

theorem destruct_tables (h : Nat) (hh : h ≤ 3) (table : Nat) (k : Kernel) :
    (EptpDestructTables (h + 1) table k).tables = k.tables := by
  rw [destruct_spec h hh table k]

/-- The traced destructor is the destructor, and its log is `visits`. -/
theorem traced_spec : ∀ (h : Nat), h ≤ 3 → ∀ (table : Nat) (k : Kernel)
    (log : List (Nat × Nat)),
    EptpDestructTables.traced (h + 1) table (k, log) =
      (EptpDestructTables (h + 1) table k,
        (EptpDestructTables.visits k.tables (h + 1) table).reverse ++ log) := by
  intro h
  induction h with
  | zero =>
    intro _ table k log
    have hf := traced_fold k.tables table (fun _ s => s) (fun _ k => k) (fun _ => [])
      (by intro c k log hk; exact ⟨by simp, hk⟩) (List.range 512) k log rfl
    simp only [EptpDestructTables.traced, EptpDestructTables, EptpDestructTables.visits,
      Nat.reduceAdd, Nat.reduceEqDiff, OfNat.ofNat_ne_one, or_self, if_false,
      Nat.succ_ne_self, OfNat.one_ne_ofNat] at hf ⊢
    rw [hf]
  | succ n ih =>
    intro hn table k log
    have ihn := ih (by omega)
    rcases Nat.eq_zero_or_pos n with h0 | hpos
    · subst h0
      have hf := traced_fold k.tables table (fun c s => (ExFreePoolWithTag c s.1, s.2))
        (fun c k => ExFreePoolWithTag c k) (fun _ => [])
        (by intro c k log hk; exact ⟨by simp, hk⟩) (List.range 512) k log rfl
      simp only [EptpDestructTables.traced, EptpDestructTables, EptpDestructTables.visits,
        Nat.reduceAdd, Nat.reduceEqDiff, or_self, if_false, if_true] at hf ⊢
      rw [hf]
    · have hf := traced_fold k.tables table
        (fun c s => EptpDestructTables.traced (n + 1) c s)
        (fun c k => EptpDestructTables (n + 1) c k)
        (fun c => EptpDestructTables.visits k.tables (n + 1) c)
        (by
          intro c k1 log1 hk1
          refine ⟨?_, by rw [destruct_tables n (by omega) c k1, hk1]⟩
          show EptpDestructTables.traced (n + 1) c (k1, log1) = _
          rw [ihn c k1 log1, hk1])
        (List.range 512) k log rfl
      have hlev : n + 1 + 1 = 4 ∨ n + 1 + 1 = 3 := by omega
      simp only [EptpDestructTables.traced, EptpDestructTables, EptpDestructTables.visits,
        hlev, if_true] at hf ⊢
      rw [hf]

theorem visits_two (tables : Nat → Nat → EptCommonEntry) (table : Nat) :
    EptpDestructTables.visits tables 2 table =
      ((List.range 512).filter (fun i => decide ((tables table i).physial_address ≠ 0))).flatMap
        (fun i => [(table, i)]) := by
  simp [EptpDestructTables.visits]

theorem visits_succ (tables : Nat → Nat → EptCommonEntry) (n table : Nat) (hn : n ≤ 1) :
    EptpDestructTables.visits tables (n + 3) table =
      ((List.range 512).filter (fun i => decide ((tables table i).physial_address ≠ 0))).flatMap
        (fun i => (table, i) :: EptpDestructTables.visits tables (n + 2)
          (UtilVaFromPfn (tables table i).physial_address)) := by
  have hlev : n + 2 + 1 = 4 ∨ n + 2 + 1 = 3 := by omega
  simp only [EptpDestructTables.visits, hlev, if_true]

/-- The slots the destructor finds present from a table of level `n + 2` down
are the non-zero slots of the tables reached from it along at most `n`
slots. -/
theorem mem_visits {k : Kernel} {root : Nat} {owned fresh : List Nat}
    (hinv : TreeInv k root owned fresh) :
    ∀ (n : Nat) (p0 : List Nat) (s : Nat), walk k root p0 = some s → p0.length + n ≤ 2 →
      ∀ t i, (t, i) ∈ EptpDestructTables.visits k.tables (n + 2) s ↔
        ∃ q, q.length ≤ n ∧ walk k s q = some t ∧ i < 512 ∧ (k.tables t i).all ≠ 0 := by
  intro n
  induction n with
  | zero =>
    intro p0 s hs hlen t i
    rw [visits_two]
    simp only [List.mem_flatMap, List.mem_filter, List.mem_range, decide_eq_true_eq,
      List.mem_singleton, Prod.mk.injEq]
    constructor
    · rintro ⟨j, ⟨hj, hp⟩, rfl, rfl⟩
      exact ⟨[], by simp, rfl, hj, (hinv.present_iff hs (by omega) hj).1 hp⟩
    · rintro ⟨q, hq, hw, hi, hnz⟩
      have : q = [] := List.length_eq_zero.1 (by omega)
      subst this
      simp only [walk, Option.some.injEq] at hw
      subst hw
      exact ⟨i, ⟨hi, (hinv.present_iff hs (by omega) hi).2 hnz⟩, rfl, rfl⟩
  | succ n ih =>
    intro p0 s hs hlen t i
    rw [visits_succ k.tables n s (by omega)]
    simp only [List.mem_flatMap, List.mem_filter, List.mem_range, decide_eq_true_eq,
      List.mem_cons, Prod.mk.injEq]
    constructor
    · rintro ⟨j, ⟨hj, hp⟩, ⟨rfl, rfl⟩ | hrec⟩
      · exact ⟨[], by simp, rfl, hj, (hinv.present_iff hs (by omega) hj).1 hp⟩
      · have hall := (hinv.present_iff hs (by omega) hj).1 hp
        have hw : walk k root (p0 ++ [j]) =
            some (UtilVaFromPfn (k.tables s j).physial_address) := by
          rw [walk_snoc k root p0 j s hs, if_pos ⟨hj, hall⟩]
        obtain ⟨q, hq, hwq, hi, hnz⟩ := (ih (p0 ++ [j]) _ hw (by simp; omega) t i).1 hrec
        refine ⟨j :: q, by simp; omega, ?_, hi, hnz⟩
        simp only [walk, if_pos (And.intro hj hall)]
        exact hwq
    · rintro ⟨q, hq, hw, hi, hnz⟩
      cases q with
      | nil =>
        simp only [walk, Option.some.injEq] at hw
        subst hw
        exact ⟨i, ⟨hi, (hinv.present_iff hs (by omega) hi).2 hnz⟩, Or.inl ⟨rfl, rfl⟩⟩
      | cons j rest =>
        simp only [walk] at hw
        split at hw
        · rename_i hc
          have hwj : walk k root (p0 ++ [j]) =
              some (UtilVaFromPfn (k.tables s j).physial_address) := by
            rw [walk_snoc k root p0 j s hs, if_pos hc]
          refine ⟨j, ⟨hc.1, (hinv.present_iff hs (by omega) hc.1).2 hc.2⟩, Or.inr ?_⟩
          exact (ih (p0 ++ [j]) _ hwj (by simp; omega) t i).2
            ⟨rest, by simp at hq; omega, hw, hi, hnz⟩
        · simp at hw

/-- No slot is found present twice. -/
theorem nodup_visits {k : Kernel} {root : Nat} {owned fresh : List Nat}
    (hinv : TreeInv k root owned fresh) :
    ∀ (n : Nat) (p0 : List Nat) (s : Nat), walk k root p0 = some s → p0.length + n ≤ 2 →
      (EptpDestructTables.visits k.tables (n + 2) s).Nodup := by
  intro n
  induction n with
  | zero =>
    intro p0 s hs hlen
    rw [visits_two, List.nodup_flatMap]
    refine ⟨fun _ _ => List.nodup_singleton _, ?_⟩
    apply List.Nodup.pairwise_of_forall_ne
    · exact (List.nodup_range 512).filter _
    · intro i _ j _ hij
      simp only [Function.onFun]
      rw [List.disjoint_left]
      intro x hx1 hx2
      simp only [List.mem_singleton] at hx1 hx2
      rw [hx1] at hx2
      simp only [Prod.mk.injEq, true_and] at hx2
      exact hij hx2
  | succ n ih =>
    intro p0 s hs hlen
    have hchild : ∀ i, i < 512 → (k.tables s i).physial_address ≠ 0 →
        walk k root (p0 ++ [i]) = some (UtilVaFromPfn (k.tables s i).physial_address) := by
      intro i hi hp
      rw [walk_snoc k root p0 i s hs, if_pos ⟨hi, (hinv.present_iff hs (by omega) hi).1 hp⟩]
    have hbelow : ∀ i, i < 512 → (k.tables s i).physial_address ≠ 0 → ∀ t j,
        (t, j) ∈ EptpDestructTables.visits k.tables (n + 2)
          (UtilVaFromPfn (k.tables s i).physial_address) →
        ∃ q, q.length ≤ n ∧ walk k root (p0 ++ [i] ++ q) = some t := by
      intro i hi hp t j hm
      obtain ⟨q, hq, hw, -, -⟩ :=
        (mem_visits hinv n (p0 ++ [i]) _ (hchild i hi hp) (by simp; omega) t j).1 hm
      exact ⟨q, hq, by rw [walk_from_root k root _ (p0 ++ [i]) q (hchild i hi hp)]; exact hw⟩
    have hnot : ∀ i, i < 512 → (k.tables s i).physial_address ≠ 0 → ∀ j1,
        (s, j1) ∉ EptpDestructTables.visits k.tables (n + 2)
          (UtilVaFromPfn (k.tables s i).physial_address) := by
      intro i hi hp j1 hm
      obtain ⟨q, hq, hw⟩ := hbelow i hi hp s j1 hm
      have := hinv.inj _ _ s (by simp; omega) (by omega) hw hs
      have hl := congrArg List.length this
      simp at hl
    rw [visits_succ k.tables n s (by omega), List.nodup_flatMap]
    constructor
    · intro i hi
      simp only [List.mem_filter, List.mem_range, decide_eq_true_eq] at hi
      rw [List.nodup_cons]
      exact ⟨hnot i hi.1 hi.2 i, ih (p0 ++ [i]) _ (hchild i hi.1 hi.2) (by simp; omega)⟩
    · apply List.Nodup.pairwise_of_forall_ne
      · exact (List.nodup_range 512).filter _
      · intro i hi j hj hij
        simp only [List.mem_filter, List.mem_range, decide_eq_true_eq] at hi hj
        simp only [Function.onFun]
        rw [List.disjoint_left]
        rintro ⟨t, j1⟩ hxi hxj
        rcases List.mem_cons.1 hxi with h1 | h1
        · simp only [Prod.mk.injEq] at h1
          obtain ⟨rfl, rfl⟩ := h1
          rcases List.mem_cons.1 hxj with h2 | h2
          · simp only [Prod.mk.injEq, true_and] at h2
            exact hij h2
          · exact hnot j hj.1 hj.2 _ h2
        · rcases List.mem_cons.1 hxj with h2 | h2
          · simp only [Prod.mk.injEq] at h2
            obtain ⟨rfl, rfl⟩ := h2
            exact hnot i hi.1 hi.2 _ h1
          · obtain ⟨q1, hq1, hw1⟩ := hbelow i hi.1 hi.2 t j1 h1
            obtain ⟨q2, hq2, hw2⟩ := hbelow j hj.1 hj.2 t j1 h2
            have := hinv.inj _ _ t (by simp; omega) (by simp; omega) hw1 hw2
            simp only [List.append_assoc, List.singleton_append, List.append_cancel_left_eq,
              List.cons.injEq] at this
            exact hij this.1

/-- C12: for a tree built from an all-zero level-4 table `root` by a sequence
of calls of `EptpConstructTables` that all returned an entry, `new` being the
tables the allocator handed out for it, `EptpDestructTables(root, 4)` finds
present (and so visits) exactly the non-zero slots of the tables of level 4, 3
and 2, each once, and frees the tables of `new` and the root, each once and
nothing else.  The slots are those `EptpDestructTables.traced`, the destructor
with a log of the visits, records; its state component is the result of
`EptpDestructTables`. -/
theorem destructor_visits_and_frees (root : Nat) (pas : List Nat) (ed : Option EptData)
    (k : Kernel) (ed1 : Option EptData) (k1 : Kernel)
    (hzero : ∀ i, k.tables root i = EptCommonEntry.zero)
    (hnd : (root :: upcoming ed k).Nodup)
    (hr : ∀ t ∈ root :: upcoming ed k, 0 < t ∧ t < 2 ^ 36) (hz : PoolZeroed ed k)
    (h : constructMany root pas ed k = .ok (true, ed1, k1)) :
    ∃ (new : List Nat) (visited : List (Nat × Nat)) (F : List Nat),
      upcoming ed k = new.reverse ++ upcoming ed1 k1 ∧
      EptpDestructTables.traced 4 root (k1, []) = (EptpDestructTables 4 root k1, visited) ∧
      visited.Nodup ∧
      (∀ t i, (t, i) ∈ visited ↔
        ∃ p, p.length ≤ 2 ∧ walk k1 root p = some t ∧ i < 512 ∧ (k1.tables t i).all ≠ 0) ∧
      EptpDestructTables 4 root k1 = { k1 with freed := F ++ k1.freed } ∧
      F.Nodup ∧ F.Perm (root :: new) := by
  have hinv : TreeInv k root [root] (upcoming ed k) := TreeInv.empty hzero hnd hr
  obtain ⟨new, g1, -, g3, -, -, -, -⟩ :=
    constructMany_spec root pas k ed [root] [] true ed1 k1 hinv hz (Leaves.of_zero_root hzero) h
  have hperm := subtree_perm_owned g1
  have hndo : (new ++ [root]).Nodup := (List.nodup_append.1 g1.nodup).1
  refine ⟨new, (EptpDestructTables.visits k1.tables 4 root).reverse,
    (subtree k1.tables 3 root).reverse, g3, ?_, ?_, ?_, destruct_spec 3 (le_refl 3) root k1,
    ?_, ?_⟩
  · rw [traced_spec 3 (le_refl 3) root k1 []]; simp
  · rw [List.nodup_reverse]
    exact nodup_visits g1 2 [] root rfl (by simp)
  · intro t i
    rw [List.mem_reverse]
    exact mem_visits g1 2 [] root rfl (by simp) t i
  · rw [List.nodup_reverse]
    exact hperm.nodup_iff.2 hndo
  · exact (List.reverse_perm _).trans (hperm.trans
      (List.perm_append_comm : (new ++ [root]).Perm ([root] ++ new)))

/-- Witness of C12: the tree of three addresses built in initialization
context on the empty tree of `sampleKernel 2 9`. -/
theorem destructor_visits_and_frees_witness :
    (∀ i, (sampleKernel 2 9).tables 1 i = EptCommonEntry.zero) ∧
    (1 :: upcoming none (sampleKernel 2 9)).Nodup ∧
    ∃ k1, constructMany 1 [0x1000, 0x2000, 0x8000000000] none (sampleKernel 2 9) =
        .ok (true, none, k1) ∧
      ∃ F : List Nat, EptpDestructTables 4 1 k1 = { k1 with freed := F ++ k1.freed } ∧
        F.Nodup :=
  ⟨fun _ => rfl, by decide, _, rfl,
    (destructor_visits_and_frees 1 [0x1000, 0x2000, 0x8000000000] none (sampleKernel 2 9) none _
      (fun _ => rfl) (by decide) (by decide) (poolZeroed_none _) rfl).elim
      (fun _ hn => hn.elim (fun _ hv => hv.elim
        (fun F hF => ⟨F, hF.2.2.2.2.1, hF.2.2.2.2.2.1⟩)))⟩

/-! ## Runtime context: the pre-allocated pool -/

theorem RuntimeStep.same (d : EptData) (k : Kernel) : RuntimeStep d k (some d) k :=
  ⟨⟨d.preallocated_entries_count, rfl⟩, rfl, rfl, rfl, rfl⟩

theorem RuntimeStep.andThen {d d1 : EptData} {k k1 k2 : Kernel} {ed2 : Option EptData}
    (h1 : RuntimeStep d k (some d1) k1) (h2 : RuntimeStep d1 k1 ed2 k2) :
    RuntimeStep d k ed2 k2 := by
  obtain ⟨⟨c1, hc1⟩, a1, a2, a3, a4⟩ := h1
  obtain ⟨⟨c2, hc2⟩, b1, b2, b3, b4⟩ := h2
  simp only [Option.some.injEq] at hc1
  subst hc1
  exact ⟨⟨c2, hc2⟩, b1.trans a1, b2.trans a2, b3.trans a3, b4.trans a4⟩

theorem allocate_runtime (d : EptData) (k : Kernel) (r : Option Nat) (ed1 : Option EptData)
    (k1 : Kernel) (h : EptpAllocateEptEntry (some d) k = .ok (r, ed1, k1)) :
    k1 = k ∧ ∃ c, ed1 = some { d with preallocated_entries_count := c } := by
  simp only [EptpAllocateEptEntry] at h
  rcases hp : EptpAllocateEptEntryFromPreAllocated d with f | ⟨entry, d1⟩
  · rw [hp] at h; simp at h
  · rw [hp] at h
    simp only [Except.ok.injEq, Prod.mk.injEq] at h
    obtain ⟨-, rfl, rfl⟩ := h
    refine ⟨rfl, ?_⟩
    unfold EptpAllocateEptEntryFromPreAllocated at hp
    simp only at hp
    split at hp
    · simp at hp
    · split at hp
      · simp only [Except.ok.injEq, Prod.mk.injEq] at hp
        exact ⟨_, by rw [← hp.2]⟩
      · simp at hp

theorem enter_runtime (t lvl i : Nat) (d : EptData) (k : Kernel) (r : Option Nat)
    (ed1 : Option EptData) (k1 : Kernel)
    (h : EptpConstructTables.enter t lvl i (some d) k = .ok (r, ed1, k1)) :
    RuntimeStep d k ed1 k1 := by
  unfold EptpConstructTables.enter at h
  split at h
  · rcases ha : EptpAllocateEptEntry (some d) k with f | ⟨_ | T, d0, k0⟩
    · rw [ha] at h; simp at h
    · rw [ha] at h
      simp only [Except.ok.injEq, Prod.mk.injEq] at h
      obtain ⟨-, rfl, rfl⟩ := h
      obtain ⟨rfl, hc⟩ := allocate_runtime d k none d0 k0 ha
      exact ⟨hc, rfl, rfl, rfl, rfl⟩
    · rw [ha] at h
      simp only [Except.ok.injEq, Prod.mk.injEq] at h
      obtain ⟨-, rfl, rfl⟩ := h
      obtain ⟨rfl, hc⟩ := allocate_runtime d k (some T) d0 k0 ha
      exact ⟨hc, rfl, rfl, rfl, rfl⟩
  · simp only [Except.ok.injEq, Prod.mk.injEq] at h
    obtain ⟨-, rfl, rfl⟩ := h
    exact RuntimeStep.same d k

/-- In runtime context `EptpConstructTables` touches neither the kernel pool
nor the logs, and of the `EptData` only the counter. -/
theorem construct_runtime (root pa : Nat) (d : EptData) (k : Kernel) (r : Option (Nat × Nat))
    (ed1 : Option EptData) (k1 : Kernel)
    (h : EptpConstructTables 4 root pa (some d) k = .ok (r, ed1, k1)) :
    RuntimeStep d k ed1 k1 := by
  simp only [EptpConstructTables, Nat.reduceAdd, Nat.reduceEqDiff, if_false, if_true] at h
  rcases h4 : EptpConstructTables.enter root 4 (EptpAddressToPxeIndex pa) (some d) k with
    f | ⟨_ | c3, d3, k3⟩
  · rw [h4] at h; simp at h
  · rw [h4] at h
    simp only [Except.ok.injEq, Prod.mk.injEq] at h
    obtain ⟨rfl, rfl, rfl⟩ := h
    exact enter_runtime _ _ _ d k _ _ _ h4
  rw [h4] at h
  simp only at h
  have s4 := enter_runtime _ _ _ d k _ _ _ h4
  obtain ⟨⟨x3, rfl⟩, -⟩ := id s4
  rcases h3 : EptpConstructTables.enter c3 3 (EptpAddressToPpeIndex pa)
      (some { d with preallocated_entries_count := x3 }) k3 with f | ⟨_ | c2, d2, k2⟩
  · rw [h3] at h; simp at h
  · rw [h3] at h
    simp only [Except.ok.injEq, Prod.mk.injEq] at h
    obtain ⟨rfl, rfl, rfl⟩ := h
    exact s4.andThen (enter_runtime _ _ _ _ k3 _ _ _ h3)
  rw [h3] at h
  simp only at h
  have s3 := s4.andThen (enter_runtime _ _ _ _ k3 _ _ _ h3)
  obtain ⟨⟨x2, rfl⟩, -⟩ := id s3
  rcases h2 : EptpConstructTables.enter c2 2 (EptpAddressToPdeIndex pa)
      (some { d with preallocated_entries_count := x2 }) k2 with f | ⟨_ | c1, d1, k1'⟩
  · rw [h2] at h; simp at h
  · rw [h2] at h
    simp only [Except.ok.injEq, Prod.mk.injEq] at h
    obtain ⟨rfl, rfl, rfl⟩ := h
    exact s3.andThen (enter_runtime _ _ _ _ k2 _ _ _ h2)
  rw [h2] at h
  simp only [Except.ok.injEq, Prod.mk.injEq] at h
  have s2 := s3.andThen (enter_runtime _ _ _ _ k2 _ _ _ h2)
  obtain ⟨-, rfl, rfl⟩ := h
  obtain ⟨hc, a1, a2, a3, a4⟩ := s2
  refine ⟨hc, ?_, ?_, ?_, ?_⟩
  · rw [← a1]; simp only [Kernel.store]; split <;> rfl
  · rw [← a2]; simp only [Kernel.store]; split <;> rfl
  · rw [← a3]; simp only [Kernel.store]; split <;> rfl
  · rw [← a4]; simp only [Kernel.store]; split <;> rfl

theorem constructMany_runtime (root : Nat) :
    ∀ (pas : List Nat) (d : EptData) (k : Kernel) (b : Bool) (ed1 : Option EptData)
      (k1 : Kernel), constructMany root pas (some d) k = .ok (b, ed1, k1) →
      RuntimeStep d k ed1 k1 := by
  intro pas
  induction pas with
  | nil =>
    intro d k b ed1 k1 h
    simp only [constructMany, Except.ok.injEq, Prod.mk.injEq] at h
    obtain ⟨-, rfl, rfl⟩ := h
    exact RuntimeStep.same d k
  | cons pa rest ih =>
    intro d k b ed1 k1 h
    simp only [constructMany] at h
    rcases hc : EptpConstructTables 4 root pa (some d) k with f | ⟨_ | slot, d2, k2⟩
    · rw [hc] at h; simp at h
    · rw [hc] at h
      simp only [Except.ok.injEq, Prod.mk.injEq] at h
      obtain ⟨-, rfl, rfl⟩ := h
      exact construct_runtime root pa d k _ _ _ hc
    · rw [hc] at h
      simp only at h
      have s := construct_runtime root pa d k _ _ _ hc
      obtain ⟨⟨x, rfl⟩, -⟩ := id s
      exact s.andThen (ih _ k2 b ed1 k1 h)

theorem upcoming_map_some (d : EptData) (k : Kernel) (L : List Nat) (c : Nat)
    (harr : d.preallocated_array = L.map some) :
    upcoming (some { d with preallocated_entries_count := (c : Int) }) k = L.drop c := by
  simp only [upcoming, harr, Int.toNat_ofNat, ← List.map_drop, reduceOption_map_some]

/-- The state after a successful `EptInitialization` and a sequence of
runtime-context constructions that did not end in a bug check: the counter is
some `c` of at most 50, the first `c` pool entries are the tables the sequence
linked into the tree, and the tree is well formed with respect to the other
pool entries, which are still zero. -/
theorem runtime_state {pm_ranges : List PhysicalMemoryRun} {apic_base : Nat}
    {k k1 : Kernel} {d : EptData} {pas : List Nat} {b : Bool} {ed2 : Option EptData}
    {k2 : Kernel} (hinit : Initialized k k1 d pm_ranges apic_base)
    (hrun : constructMany d.ept_pml4 pas (some d) k1 = .ok (b, ed2, k2)) :
    ∃ (L owned new : List Nat) (c : Nat),
      d.preallocated_array = L.map some ∧ L.length = kVmxpNumberOfPreallocatedEntries ∧
      ed2 = some { d with preallocated_entries_count := (c : Int) } ∧
      c ≤ kVmxpNumberOfPreallocatedEntries ∧ new.reverse = L.take c ∧
      TreeInv k1 d.ept_pml4 owned L ∧ TreeInv k2 d.ept_pml4 (new ++ owned) (L.drop c) ∧
      (∀ t ∈ L, ∀ j, k1.tables t j = EptCommonEntry.zero) ∧
      (∀ t ∈ L.drop c, ∀ j, k2.tables t j = EptCommonEntry.zero) ∧
      k1.allocated = L.reverse ++ d.preallocated_entries ::
        (owned ++ [d.ept_pointer, d.self]) ∧
      k2.allocated = k1.allocated ∧ k2.freed = k1.freed := by
  obtain ⟨L, owned, harr, hlen, hinvL, hal⟩ := hinit.pool
  have hz1 : PoolZeroed (some d) k1 := hinit.wellFormed.2
  have hd0 : d = { d with preallocated_entries_count := ((0 : Nat) : Int) } := by
    have := hinit.count
    cases d
    simp only at this
    subst this
    rfl
  have hup1 : upcoming (some d) k1 = L := by
    rw [hd0, upcoming_map_some d k1 L 0 harr]; rfl
  have hinv1 : TreeInv k1 d.ept_pml4 owned (upcoming (some d) k1) := by rw [hup1]; exact hinvL
  have hl1 : Leaves k1 d.ept_pml4 (EptInitialization.addresses pm_ranges apic_base) :=
    hinit.leaves
  obtain ⟨new, g1, g2, g3, -, -, -, -⟩ :=
    constructMany_spec d.ept_pml4 pas k1 (some d) owned _ b ed2 k2 hinv1 hz1 hl1 hrun
  obtain ⟨⟨x, rfl⟩, a1, a2, -, -⟩ := constructMany_runtime d.ept_pml4 pas d k1 b ed2 k2 hrun
  obtain ⟨h0, h50, -, hzero⟩ := g2 _ rfl
  simp only at h0 h50
  obtain ⟨c, rfl⟩ := Int.eq_ofNat_of_zero_le h0
  have hc : c ≤ kVmxpNumberOfPreallocatedEntries := by exact_mod_cast h50
  rw [upcoming_map_some d k2 L c harr] at g1 g3 hzero
  rw [hup1] at g3
  have hnew : new.reverse = L.take c := by
    have h1 : new.reverse ++ L.drop c = L.take c ++ L.drop c := by
      rw [← g3, List.take_append_drop]
    exact (List.append_inj' h1 rfl).1
  refine ⟨L, owned, new, c, harr, hlen, rfl, hc, hnew, hinvL, g1, ?_, hzero, hal, a1, a2⟩
  intro t ht j
  exact (hz1 d rfl).2.2.2 t (by rw [hup1]; exact ht) j

theorem allocate_of_preallocated (d : EptData) (k : Kernel) (e : Option Nat) (d1 : EptData)
    (hok : EptpAllocateEptEntryFromPreAllocated d = .ok (e, d1)) :
    EptpAllocateEptEntry (some d) k = .ok (e, some d1, k) := by
  simp only [EptpAllocateEptEntry, hok]

theorem allocate_of_exhausted (d : EptData) (k : Kernel) (f : Fault)
    (herr : EptpAllocateEptEntryFromPreAllocated d = .error f) :
    EptpAllocateEptEntry (some d) k = .error f := by
  simp only [EptpAllocateEptEntry, herr]

/-- In range, the runtime-context allocator hands out the pool entry at the
counter and moves the counter by one. -/
theorem allocate_in_range (d : EptData) (k : Kernel) (c : Nat) (L : List Nat)
    (harr : d.preallocated_array = L.map some) (hlen : L.length = 50) (hlt : c < 50) :
    EptpAllocateEptEntry (some { d with preallocated_entries_count := (c : Int) }) k =
      .ok (L[c]?, some { d with preallocated_entries_count := (c : Int) + 1 }, k) := by
  have hok := fromPreAllocated_in_range
    { d with preallocated_entries_count := (c : Int) } (c : Int) rfl
    (by simp [harr, hlen, kVmxpNumberOfPreallocatedEntries]) (by omega)
    (by simp only [kVmxpNumberOfPreallocatedEntries]; exact_mod_cast hlt)
  have hget : d.preallocated_array.getD (c : Int).toNat none = L[c]? := by
    rw [harr, Int.toNat_ofNat, List.getD_eq_getElem?_getD, List.getElem?_map]
    cases L[c]? <;> rfl
  have := allocate_of_preallocated _ k _ _ hok
  rw [hget] at this
  exact this

/-- C17: for every state returned by a successful `EptInitialization` the
counter is 0 and the pool array holds 50 non-null entries, pairwise distinct,
each an all-zero table that is not a table of the tree; after any sequence of
runtime-context constructions that did not end in a bug check the counter is
some `c` of at most 50, the entries of index `c` and above are still all-zero
tables outside the tree while those below `c` are tables of the tree; and a
runtime-context allocation that returns in that state returns the entry of
index `c`, an all-zero table that is not a table of the tree, and moves the
counter to `c + 1`.  The kernel pool is assumed to hand out pairwise distinct
blocks with non-zero frame numbers of at most 36 bits; the logs start
empty. -/
theorem pool_entries_zeroed_and_fresh (pm_ranges : List PhysicalMemoryRun) (apic_base : Nat)
    (k : Kernel) (d : EptData) (k1 : Kernel) (pas : List Nat) (b : Bool)
    (ed2 : Option EptData) (k2 : Kernel)
    (hok : PoolOracleOk k) (ha : k.allocated = []) (hf : k.freed = [])
    (h : EptInitialization pm_ranges apic_base k = .ok (some d, k1))
    (hrun : constructMany d.ept_pml4 pas (some d) k1 = .ok (b, ed2, k2)) :
    d.preallocated_entries_count = 0 ∧
    ∃ (L : List Nat) (c : Nat),
      d.preallocated_array = L.map some ∧ L.length = 50 ∧ L.Nodup ∧
      (∀ t ∈ L, (∀ j, k1.tables t j = EptCommonEntry.zero) ∧
        ∀ p, p.length ≤ 3 → walk k1 d.ept_pml4 p ≠ some t) ∧
      ed2 = some { d with preallocated_entries_count := (c : Int) } ∧ c ≤ 50 ∧
      (∀ t ∈ L.drop c, (∀ j, k2.tables t j = EptCommonEntry.zero) ∧
        ∀ p, p.length ≤ 3 → walk k2 d.ept_pml4 p ≠ some t) ∧
      (∀ t ∈ L.take c, ∃ p, p.length ≤ 3 ∧ walk k2 d.ept_pml4 p = some t) ∧
      (∀ r d3 k3, EptpAllocateEptEntry ed2 k2 = .ok (r, d3, k3) →
        ∃ t, r = some t ∧ L[c]? = some t ∧ k3 = k2 ∧
          d3 = some { d with preallocated_entries_count := (c : Int) + 1 } ∧
          (∀ j, k2.tables t j = EptCommonEntry.zero) ∧
          ∀ p, p.length ≤ 3 → walk k2 d.ept_pml4 p ≠ some t) := by
  obtain ⟨r, k1', h', -, -, hsome⟩ := init_spec pm_ranges apic_base k hok ha hf
  rw [h] at h'
  simp only [Except.ok.injEq, Prod.mk.injEq] at h'
  obtain ⟨rfl, rfl⟩ := h'
  have hinit := hsome d rfl
  obtain ⟨L, owned, new, c, harr, hlen, hed2, hc, hnew, hinv1, hinv2, hz1, hz2, -, -, -⟩ :=
    runtime_state hinit hrun
  have hout1 : ∀ t ∈ L, ∀ p, p.length ≤ 3 → walk k1 d.ept_pml4 p ≠ some t := by
    intro t ht p hp hw
    exact hinv1.not_fresh hp hw ht
  have hout2 : ∀ t ∈ L.drop c, ∀ p, p.length ≤ 3 → walk k2 d.ept_pml4 p ≠ some t := by
    intro t ht p hp hw
    exact hinv2.not_fresh hp hw ht
  refine ⟨hinit.count, L, c, harr, hlen, (List.nodup_append.1 hinv1.nodup).2.1,
    fun t ht => ⟨hz1 t ht, hout1 t ht⟩, hed2, hc, fun t ht => ⟨hz2 t ht, hout2 t ht⟩, ?_, ?_⟩
  · intro t ht
    rw [← hnew, List.mem_reverse] at ht
    exact (hinv2.reach t).2 (List.mem_append_left _ ht)
  · intro r d3 k3 hal
    subst hed2
    simp only [kVmxpNumberOfPreallocatedEntries] at hc hlen
    rcases Nat.lt_or_ge c 50 with hlt | hge
    · have hcl : c < L.length := by omega
      rw [allocate_in_range d k2 c L harr hlen hlt, List.getElem?_eq_getElem hcl] at hal
      simp only [Except.ok.injEq, Prod.mk.injEq] at hal
      obtain ⟨rfl, rfl, rfl⟩ := hal
      have hmem : L[c] ∈ L.drop c := by
        rw [List.drop_eq_getElem_cons hcl]; exact List.mem_cons_self _ _
      exact ⟨L[c], rfl, List.getElem?_eq_getElem hcl, rfl, rfl, hz2 _ hmem, hout2 _ hmem⟩
    · have herr := fromPreAllocated_exhausted
        { d with preallocated_entries_count := (c : Int) } (c : Int) rfl
        (by simp only [kVmxpNumberOfPreallocatedEntries]; exact_mod_cast hge) (by omega)
      rw [allocate_of_exhausted _ k2 _ herr] at hal
      exact absurd hal (by simp)


/-- Witness of C17: a run of 4 pages at page 0x100, the APIC at 0xfee00000, a
pool of 70 blocks, and two faults on device memory constructed at run time,
which consume four pool entries. -/
theorem pool_entries_zeroed_and_fresh_witness :
    PoolOracleOk (sampleKernel 1 70) ∧
    ∃ d k1, EptInitialization [⟨0x100, 4⟩] 0xfee00 (sampleKernel 1 70) = .ok (some d, k1) ∧
      ∃ ed2 k2, constructMany d.ept_pml4 [0xc0000000, 0x8000000000] (some d) k1 =
          .ok (true, ed2, k2) ∧
        ed2.map (fun d2 => d2.preallocated_entries_count) = some 4 ∧
        d.preallocated_entries_count = 0 :=
  ⟨by decide, _, _, rfl, _, _, rfl, by decide,
    (pool_entries_zeroed_and_fresh [⟨0x100, 4⟩] 0xfee00 (sampleKernel 1 70) _ _
      [0xc0000000, 0x8000000000] true _ _ (by decide) rfl rfl rfl rfl).1⟩

/-! ## Termination -/

/-- The loop of `EptpFreeUnusedPreAllocatedEntries` on an array without null
entries frees the entries from the index `i` to the end, in order. -/
theorem freeUnused_full (L : List Nat) :
    ∀ (n i : Nat) (k : Kernel), i + n = L.length →
      EptpFreeUnusedPreAllocatedEntries.loop (L.map some) n (i : Int) k =
        .ok { k with freed := (L.drop i).reverse ++ k.freed } := by
  intro n
  induction n with
  | zero =>
    intro i k hi
    have : L.drop i = [] := List.drop_eq_nil_of_le (by omega)
    simp [EptpFreeUnusedPreAllocatedEntries.loop, this]
  | succ n ih =>
    intro i k hi
    have hneg : ¬ ((i : Int) < 0) := by omega
    have hlt : i < L.length := by omega
    simp only [EptpFreeUnusedPreAllocatedEntries.loop, hneg, if_false, Int.toNat_ofNat]
    have hget : (L.map some).getD i none = some L[i] := by
      simp [List.getD_eq_getElem?_getD, hlt]
    rw [hget]
    simp only
    have := ih (i + 1) (ExFreePoolWithTag L[i] k) (by omega)
    rw [show ((i : Int) + 1) = ((i + 1 : Nat) : Int) by push_cast; rfl, this]
    have hd : L.drop i = L[i] :: L.drop (i + 1) := List.drop_eq_getElem_cons hlt
    simp only [ExFreePoolWithTag, hd, List.reverse_cons, List.append_assoc,
      List.singleton_append]

theorem freeUnused_spec (pre : Nat) (L : List Nat) (c : Nat) (k : Kernel)
    (hlen : L.length = kVmxpNumberOfPreallocatedEntries) (hc : c ≤ L.length) :
    EptpFreeUnusedPreAllocatedEntries pre (L.map some) (c : Int) k =
      .ok { k with freed := pre :: ((L.drop c).reverse ++ k.freed) } := by
  have hfuel : ((kVmxpNumberOfPreallocatedEntries : Int) - (c : Int)).toNat = L.length - c := by
    rw [← hlen]; omega
  simp only [EptpFreeUnusedPreAllocatedEntries, hfuel]
  rw [freeUnused_full L (L.length - c) c k (by omega)]
  simp [ExFreePoolWithTag]

/-- C11: after a successful `EptInitialization` and any sequence of
runtime-context constructions that did not end in the bug check of an
exhausted pool, `EptTermination` returns and frees every block allocated
exactly once.  With `c` the consumption counter and `L` the 50 pool entries:
`EptpFreeUnusedPreAllocatedEntries` frees the entries of index `c` and above,
in order, and then the pool array; `EptpDestructTables` frees the tables `T` of
the tree, each once, among them the PML4 and the entries of index below `c`,
none of which is an entry of index `c` or above; the EPT pointer page and the
`EptData` are freed last.  The blocks freed are pairwise distinct and are a
permutation of the blocks allocated.  The kernel pool is assumed to hand out
pairwise distinct blocks with non-zero frame numbers of at most 36 bits; the
logs start empty. -/
theorem termination_frees_every_block_once (pm_ranges : List PhysicalMemoryRun)
    (apic_base : Nat) (k : Kernel) (d : EptData) (k1 : Kernel) (pas : List Nat) (b : Bool)
    (ed2 : Option EptData) (k2 : Kernel)
    (hok : PoolOracleOk k) (ha : k.allocated = []) (hf : k.freed = [])
    (h : EptInitialization pm_ranges apic_base k = .ok (some d, k1))
    (hrun : constructMany d.ept_pml4 pas (some d) k1 = .ok (b, ed2, k2)) :
    ∃ (d2 : EptData) (kA k3 : Kernel) (L T : List Nat) (c : Nat),
      ed2 = some d2 ∧ d2 = { d with preallocated_entries_count := (c : Int) } ∧
      d.preallocated_array = L.map some ∧ L.length = 50 ∧ c ≤ 50 ∧
      EptpFreeUnusedPreAllocatedEntries d2.preallocated_entries d2.preallocated_array
        d2.preallocated_entries_count k2 = .ok kA ∧
      kA.freed = d.preallocated_entries :: (L.drop c).reverse ∧
      EptpDestructTables 4 d2.ept_pml4 kA = { kA with freed := T ++ kA.freed } ∧
      T.Nodup ∧ (∀ t, t ∈ T ↔ ∃ p, p.length ≤ 3 ∧ walk k2 d.ept_pml4 p = some t) ∧
      d.ept_pml4 ∈ T ∧ (∀ t ∈ L.take c, t ∈ T) ∧ (∀ t ∈ L.drop c, t ∉ T) ∧
      EptTermination d2 k2 = .ok k3 ∧
      k3.freed = d.self :: d.ept_pointer :: (T ++ d.preallocated_entries :: (L.drop c).reverse) ∧
      k3.allocated = k1.allocated ∧
      k3.freed.Nodup ∧ k3.freed.Perm k3.allocated := by
  obtain ⟨r, k1', h', hnd, -, hsome⟩ := init_spec pm_ranges apic_base k hok ha hf
  rw [h] at h'
  simp only [Except.ok.injEq, Prod.mk.injEq] at h'
  obtain ⟨rfl, rfl⟩ := h'
  have hinit := hsome d rfl
  obtain ⟨L, owned, new, c, harr, hlen, hed2, hc, hnew, hinv1, hinv2, -, -, hal1, hal2, hfr2⟩ :=
    runtime_state hinit hrun
  have hfr : k2.freed = [] := by rw [hfr2, hinit.freed, hf]
  have hfree := freeUnused_spec d.preallocated_entries L c k2 hlen (by rw [hlen]; exact hc)
  have hperm := subtree_perm_owned hinv2
  have hTnd : (subtree k2.tables 3 d.ept_pml4).reverse.Nodup :=
    List.nodup_reverse.2 (hperm.nodup_iff.2 (List.nodup_append.1 hinv2.nodup).1)
  have hmem : ∀ t, t ∈ (subtree k2.tables 3 d.ept_pml4).reverse ↔ t ∈ new ++ owned := by
    intro t
    rw [List.mem_reverse]
    exact hperm.mem_iff
  have hfreed3 : (ExFreePoolWithTag d.self (ExFreePoolWithTag d.ept_pointer
      (EptpDestructTables 4 d.ept_pml4
        { k2 with freed := d.preallocated_entries :: ((L.drop c).reverse ++ k2.freed) }))).freed
      = d.self :: d.ept_pointer :: ((subtree k2.tables 3 d.ept_pml4).reverse ++
          d.preallocated_entries :: (L.drop c).reverse) := by
    rw [destruct_spec 3 (le_refl 3)]
    simp [ExFreePoolWithTag, hfr]
  have hP : (d.self :: d.ept_pointer :: ((subtree k2.tables 3 d.ept_pml4).reverse ++
      d.preallocated_entries :: (L.drop c).reverse)).Perm k1.allocated := by
    rw [hal1, List.perm_iff_count]
    intro a
    have e1 : d.self :: d.ept_pointer :: ((subtree k2.tables 3 d.ept_pml4).reverse ++
        d.preallocated_entries :: (L.drop c).reverse) =
        [d.self] ++ ([d.ept_pointer] ++ ((subtree k2.tables 3 d.ept_pml4).reverse ++
          ([d.preallocated_entries] ++ (L.drop c).reverse))) := by simp
    have e2 : L.reverse ++ d.preallocated_entries :: (owned ++ [d.ept_pointer, d.self]) =
        L.reverse ++ ([d.preallocated_entries] ++ (owned ++ ([d.ept_pointer] ++ [d.self]))) := by
      simp
    rw [e1, e2]
    simp only [List.count_append, List.count_reverse]
    have c1 := hperm.count_eq a
    rw [List.count_append] at c1
    have c2 : List.count a L = List.count a (L.take c) + List.count a (L.drop c) := by
      rw [← List.count_append, List.take_append_drop]
    have c3 : List.count a new = List.count a (L.take c) := by
      rw [← hnew, List.count_reverse]
    omega
  refine ⟨{ d with preallocated_entries_count := (c : Int) },
    { k2 with freed := d.preallocated_entries :: ((L.drop c).reverse ++ k2.freed) },
    ExFreePoolWithTag d.self (ExFreePoolWithTag d.ept_pointer
      (EptpDestructTables 4 d.ept_pml4
        { k2 with freed := d.preallocated_entries :: ((L.drop c).reverse ++ k2.freed) })),
    L, (subtree k2.tables 3 d.ept_pml4).reverse, c, hed2, rfl, harr, hlen, hc,
    ?_, ?_, ?_, hTnd, ?_, ?_, ?_, ?_, ?_, hfreed3, ?_, ?_, ?_⟩
  · simp only [harr]
    exact hfree
  · simp [hfr]
  · rw [destruct_spec 3 (le_refl 3)]
  · intro t
    rw [hmem t]
    exact (hinv2.reach t).symm
  · rw [hmem]
    exact (hinv2.reach _).1 ⟨[], by simp, rfl⟩
  · intro t ht
    rw [hmem]
    rw [← hnew, List.mem_reverse] at ht
    exact List.mem_append_left _ ht
  · intro t ht hT
    rw [hmem] at hT
    exact (List.nodup_append.1 hinv2.nodup).2.2 hT ht
  · simp only [EptTermination, harr, hfree]
  · rw [destruct_spec 3 (le_refl 3)]
    simp only [ExFreePoolWithTag]
    exact hal2
  · rw [hfreed3]
    exact hP.nodup_iff.2 hnd
  · rw [hfreed3]
    have : (ExFreePoolWithTag d.self (ExFreePoolWithTag d.ept_pointer
      (EptpDestructTables 4 d.ept_pml4
        { k2 with freed := d.preallocated_entries :: ((L.drop c).reverse ++ k2.freed) }))).allocated
        = k1.allocated := by
      rw [destruct_spec 3 (le_refl 3)]
      simp only [ExFreePoolWithTag]
      exact hal2
    rw [this]
    exact hP

/-- Witness of C11: a run of 4 pages at page 0x100, the APIC at 0xfee00000,
a pool of 70 blocks, one fault on device memory constructed at run time, and
then `EptTermination`. -/
theorem termination_frees_every_block_once_witness :
    PoolOracleOk (sampleKernel 1 70) ∧
    ∃ d k1, EptInitialization [⟨0x100, 4⟩] 0xfee00 (sampleKernel 1 70) = .ok (some d, k1) ∧
      ∃ ed2 k2, constructMany d.ept_pml4 [0xc0000000] (some d) k1 = .ok (true, ed2, k2) ∧
        ∃ d2 k3, ed2 = some d2 ∧ EptTermination d2 k2 = .ok k3 ∧
          k3.freed.Nodup ∧ k3.freed.Perm k3.allocated :=
  ⟨by decide, _, _, rfl, _, _, rfl,
    (termination_frees_every_block_once [⟨0x100, 4⟩] 0xfee00 (sampleKernel 1 70) _ _
      [0xc0000000] true _ _ (by decide) rfl rfl rfl rfl).elim
      (fun d2 h2 => h2.elim (fun _ h3 => h3.elim (fun k3 h4 => h4.elim (fun _ h5 =>
        h5.elim (fun _ h6 => h6.elim (fun _ h7 =>
          ⟨d2, k3, h7.1, h7.2.2.2.2.2.2.2.2.2.2.2.2.2.1,
            h7.2.2.2.2.2.2.2.2.2.2.2.2.2.2.2.2.1,
            h7.2.2.2.2.2.2.2.2.2.2.2.2.2.2.2.2.2⟩))))))⟩

/-! ## A fault on a leaf that is present -/

/-- A slot that is not zero is entered without allocation. -/
theorem enter_present (t lvl i : Nat) (ed : Option EptData) (k : Kernel)
    (h : (k.tables t i).all ≠ 0) :
    EptpConstructTables.enter t lvl i ed k =
      .ok (some (UtilVaFromPfn (k.tables t i).physial_address), ed, k) := by
  simp only [EptpConstructTables.enter, h, if_false]

/-- When the path of the address exists, the call from level 4 is the call of
case 1 on the page table of the address, in the same state. -/
theorem construct_of_path (k : Kernel) (root pa t1 : Nat) (ed : Option EptData)
    (h : walk k root (pathOf pa) = some t1) :
    EptpConstructTables 4 root pa ed k = EptpConstructTables 1 t1 pa ed k := by
  simp only [pathOf, walk] at h
  split at h
  · rename_i h4
    split at h
    · rename_i h3
      split at h
      · rename_i h2
        simp only [Option.some.injEq] at h
        subst h
        simp only [EptpConstructTables, Nat.reduceAdd, Nat.reduceEqDiff, if_false, if_true,
          enter_present _ _ _ _ _ h4.2, enter_present _ _ _ _ _ h3.2,
          enter_present _ _ _ _ _ h2.2]
      · simp at h
    · simp at h
  · simp at h

/-- Writing the leaf of an address over the leaf of that address changes
nothing. -/
theorem init_leaf_idem (e : EptCommonEntry) (pa : Nat) (h : IsLeafFor e pa) :
    EptpInitTableEntry e 1 pa = e := by
  obtain ⟨h1, h2, h3, h4, h5⟩ := h
  cases e
  simp only [EptpInitTableEntry, UtilPfnFromPa, if_true] at *
  subst h1 h2 h3 h4 h5
  rfl

/-- C15, what the code does: when the leaf of the faulting address is present,
a fault whose qualification has the three permission bits clear still runs the
entry-miss branch: `EptHandleEptViolation` returns after calling
`EptpConstructTables`, whose case 1 finds the slot not empty, so the assertion
`NT_ASSERT(!ept_pt_entry->all)` is tripped; table memory, the counter and the
logs are as before and the only event is the invalidation.  The address is
taken to be device memory, so the assertion of the branch itself holds. -/
theorem handler_second_fault_trips_assertion (pm_ranges : List PhysicalMemoryRun)
    (d : EptData) (sh_data shared_sh_data : Nat) (k : Kernel)
    (q : EptViolationQualification) (fault_pa gla : Nat)
    (hq : q.ept_readable = false ∧ q.ept_writeable = false ∧ q.ept_executable = false)
    (hdev : EptpIsDeviceMemory pm_ranges fault_pa = true)
    (hmapped : Mapped k d.ept_pml4 fault_pa) :
    EptHandleEptViolation pm_ranges d sh_data shared_sh_data k q fault_pa gla =
      .ok (d, { k with assertion_failures := k.assertion_failures + 1 }, [Event.inveptAll]) := by
  obtain ⟨t1, hw, hl⟩ := hmapped
  have hnz : (k.tables t1 (EptpAddressToPteIndex fault_pa)).all ≠ 0 :=
    all_ne_zero_of_read _ hl.1
  obtain ⟨q1, q2, q3⟩ := hq
  simp only [EptHandleEptViolation, q1, q2, q3, Bool.not_false, Bool.and_self, if_true,
    EptHandleEptViolation.miss, hdev, construct_of_path k _ _ t1 _ hw]
  simp only [EptpConstructTables, Nat.reduceAdd, Nat.reduceEqDiff, if_false, if_true,
    OfNat.ofNat_ne_one, Nat.succ_ne_self, hnz, Option.getD_some]
  congr 2
  simp only [Kernel.store, Kernel.assertFailed, init_leaf_idem _ _ hl]
  have ht : (fun t i => if t = t1 ∧ i = EptpAddressToPteIndex fault_pa then
      k.tables t1 (EptpAddressToPteIndex fault_pa) else k.tables t i) = k.tables := by
    funext t i
    split
    · rename_i hc
      rw [hc.1, hc.2]
    · rfl
  rw [ht]

/-- Witness of C15: on the empty tree of `sampleData 0`, with no memory run so
that every address is device memory, a read fault at the absent address 0x1000
with the three permission bits clear constructs the leaf in slot 1 of table 4
without tripping an assertion; the same fault once more trips the assertion of
case 1 and leaves everything else as it was. -/
theorem handler_second_fault_trips_assertion_witness :
    LeafEmpty (sampleKernel 0 0) (sampleData 0).ept_pml4 0x1000 ∧
    ∃ d1 k1, EptHandleEptViolation [] (sampleData 0) 0 0 (sampleKernel 0 0)
        ⟨true, false, false, false, false, false, true, false⟩ 0x1000 0x1000 =
        .ok (d1, k1, [Event.inveptAll]) ∧
      k1.assertion_failures = 0 ∧ Mapped k1 d1.ept_pml4 0x1000 ∧
      EptHandleEptViolation [] d1 0 0 k1
        ⟨true, false, false, false, false, false, true, false⟩ 0x1000 0x1000 =
        .ok (d1, { k1 with assertion_failures := k1.assertion_failures + 1 },
          [Event.inveptAll]) ∧
      k1.assertion_failures + 1 = 1 :=
  ⟨fun t1 ht => by
      have h0 : walk (sampleKernel 0 0) (sampleData 0).ept_pml4 (pathOf 0x1000) = none := by
        decide
      rw [h0] at ht
      exact absurd ht (by simp),
    _, _, rfl, rfl, ⟨4, rfl, by unfold IsLeafFor; decide⟩,
    handler_second_fault_trips_assertion [] _ 0 0 _
      ⟨true, false, false, false, false, false, true, false⟩ 0x1000 0x1000
      ⟨rfl, rfl, rfl⟩ rfl ⟨4, rfl, by unfold IsLeafFor; decide⟩, rfl⟩

/-! ## Index codec: the selectors and the address -/

theorem or_shift_eq_add (a b i : Nat) (hb : b < 2 ^ i) : (2 ^ i * a) ||| b = 2 ^ i * a + b :=
  (Nat.mul_add_lt_is_or hb a).symm

/-- C22: the four indices, put back at their bit positions together with the
12-bit page offset, give the address modulo `2^48`, which is the address
exactly when the address is below `2^48`; two addresses have the same four
indices exactly when they agree on the bits 12 to 47; an address whose bits 48
to 63 or whose page offset are changed keeps its four indices; and the four
indices of the page addresses `n * 4096` are a bijection between the page
numbers below `2^36` and the quadruples of indices below 512. -/
theorem index_codec_roundtrip (pa : Nat) :
    (EptpAddressToPxeIndex pa <<< 39 ||| EptpAddressToPpeIndex pa <<< 30 |||
      EptpAddressToPdeIndex pa <<< 21 ||| EptpAddressToPteIndex pa <<< 12 |||
      (pa &&& 0xfff)) = pa % 2 ^ 48 ∧
    (pa % 2 ^ 48 = pa ↔ pa < 2 ^ 48) ∧
    (∀ pb, selectors pa = selectors pb ↔ pa / 2 ^ 12 % 2 ^ 36 = pb / 2 ^ 12 % 2 ^ 36) ∧
    (∀ pb, selectors pa = selectors pb ↔
      ∀ i, 12 ≤ i → i < 48 → pa.testBit i = pb.testBit i) ∧
    (∀ high offset, offset < 4096 →
      selectors (pa / 4096 % 2 ^ 36 * 4096 + offset + 2 ^ 48 * high) = selectors pa) ∧
    (∀ n m, n < 2 ^ 36 → m < 2 ^ 36 → selectors (n * 4096) = selectors (m * 4096) → n = m) ∧
    (∀ a b c e, a < 512 → b < 512 → c < 512 → e < 512 →
      ∃ n, n < 2 ^ 36 ∧ selectors (n * 4096) = [a, b, c, e]) := by
  have hbits : ∀ pb, (pa / 2 ^ 12 % 2 ^ 36 = pb / 2 ^ 12 % 2 ^ 36 ↔
      ∀ i, 12 ≤ i → i < 48 → pa.testBit i = pb.testBit i) := by
    intro pb
    rw [← Nat.shiftRight_eq_div_pow, ← Nat.shiftRight_eq_div_pow]
    constructor
    · intro h i h1 h2
      have := congrArg (fun x => x.testBit (i - 12)) h
      simp only [Nat.testBit_mod_two_pow, Nat.testBit_shiftRight] at this
      have e : 12 + (i - 12) = i := by omega
      rw [e] at this
      have hd : i - 12 < 36 := by omega
      simpa [hd] using this
    · intro h
      apply Nat.eq_of_testBit_eq
      intro j
      simp only [Nat.testBit_mod_two_pow, Nat.testBit_shiftRight]
      by_cases hj : j < 36
      · simp only [hj, decide_True, Bool.true_and]
        exact h (12 + j) (by omega) (by omega)
      · simp [hj]
  refine ⟨?_, ?_, ?_, ?_, ?_, ?_, ?_⟩
  · obtain ⟨h1, h2, h3, h4⟩ := index_lt pa
    have e1 := pxe_eq pa
    have e2 := ppe_eq pa
    have e3 := pde_eq pa
    have e4 := pte_eq pa
    generalize EptpAddressToPxeIndex pa = x1 at *
    generalize EptpAddressToPpeIndex pa = x2 at *
    generalize EptpAddressToPdeIndex pa = x3 at *
    generalize EptpAddressToPteIndex pa = x4 at *
    have e5 : pa &&& 0xfff = pa % 2 ^ 12 := Nat.and_pow_two_sub_one_eq_mod pa 12
    rw [e5]
    simp only [Nat.shiftLeft_eq]
    have s1 : x1 * 2 ^ 39 ||| x2 * 2 ^ 30 = 2 ^ 30 * (512 * x1 + x2) := by
      rw [show x1 * 2 ^ 39 = 2 ^ 39 * x1 by ring,
        or_shift_eq_add x1 (x2 * 2 ^ 30) 39 (by norm_num; omega)]
      norm_num; omega
    have s2 : 2 ^ 30 * (512 * x1 + x2) ||| x3 * 2 ^ 21 =
        2 ^ 21 * (512 * (512 * x1 + x2) + x3) := by
      rw [or_shift_eq_add _ (x3 * 2 ^ 21) 30 (by norm_num; omega)]
      norm_num; omega
    have s3 : 2 ^ 21 * (512 * (512 * x1 + x2) + x3) ||| x4 * 2 ^ 12 =
        2 ^ 12 * (512 * (512 * (512 * x1 + x2) + x3) + x4) := by
      rw [or_shift_eq_add _ (x4 * 2 ^ 12) 21 (by norm_num; omega)]
      norm_num; omega
    rw [s1, s2, s3, or_shift_eq_add _ (pa % 2 ^ 12) 12 (Nat.mod_lt _ (by norm_num))]
    norm_num at e1 e2 e3 e4 ⊢
    omega
  · constructor
    · intro h; rw [← h]; exact Nat.mod_lt _ (by norm_num)
    · intro h; exact Nat.mod_eq_of_lt h
  · intro pb
    rw [selectors_eq_iff]
    norm_num
  · intro pb
    rw [selectors_eq_iff, ← hbits pb]
    norm_num
  · intro high offset ho
    rw [selectors_eq_iff]
    norm_num
    omega
  · intro n m hn hm h
    rw [selectors_eq_iff] at h
    norm_num at hn hm h
    omega
  · intro a b c e ha hb hc he
    refine ⟨((a * 512 + b) * 512 + c) * 512 + e, by norm_num; omega, ?_⟩
    simp only [selectors_eq, pxe_eq, ppe_eq, pde_eq, pte_eq, List.cons.injEq, and_true]
    norm_num
    omega

/-! ## The levels the walkers visit -/

/-- The traced constructor is the constructor. -/
theorem construct_traced_fst : ∀ (level table pa : Nat) (ed : Option EptData) (k : Kernel)
    (log : List Nat),
    (EptpConstructTables.traced level table pa ed k log).1 =
      EptpConstructTables level table pa ed k := by
  intro level
  induction level with
  | zero => intro table pa ed k log; rfl
  | succ n ih =>
    intro table pa ed k log
    unfold EptpConstructTables.traced EptpConstructTables
    split
    · split <;> simp_all
    · split
      · split <;> simp_all
      · split
        · split <;> simp_all
        · split <;> rfl

/-- The log of the traced constructor from level 4, latest call first: the
levels 4, 3, 2, 1 as far as the call went. -/
theorem construct_traced_log (root pa : Nat) (ed : Option EptData) (k : Kernel) :
    (EptpConstructTables.traced 4 root pa ed k []).2 ∈
        [[4], [3, 4], [2, 3, 4], [1, 2, 3, 4]] ∧
      (∀ slot ed1 k1, EptpConstructTables 4 root pa ed k = .ok (some slot, ed1, k1) →
        (EptpConstructTables.traced 4 root pa ed k []).2 = [1, 2, 3, 4]) := by
  simp only [EptpConstructTables.traced, EptpConstructTables, Nat.reduceAdd, Nat.reduceEqDiff,
    if_false, if_true]
  rcases h4 : EptpConstructTables.enter root 4 (EptpAddressToPxeIndex pa) ed k with
    f | ⟨_ | c3, d3, k3⟩
  · simp
  · simp
  simp only
  rcases h3 : EptpConstructTables.enter c3 3 (EptpAddressToPpeIndex pa) d3 k3 with
    f | ⟨_ | c2, d2, k2⟩
  · simp
  · simp
  simp only
  rcases h2 : EptpConstructTables.enter c2 2 (EptpAddressToPdeIndex pa) d2 k2 with
    f | ⟨_ | c1, d1, k1⟩
  · simp
  · simp
  simp

/-- The traced lookup from level 4 is the lookup, and its log, latest call
first, is the levels 4, 3, 2, 1. -/
theorem lookup_traced (k : Kernel) (root pa : Nat) :
    EptpGetEptPtEntry.traced k 4 root pa [] = (EptpGetEptPtEntry k 4 root pa, [1, 2, 3, 4]) := by
  simp only [EptpGetEptPtEntry.traced, EptpGetEptPtEntry, Nat.reduceAdd, Nat.reduceEqDiff,
    if_false, if_true]

theorem leveled_fold (tables : Nat → Nat → EptCommonEntry) (table : Nat)
    (step : Nat → Kernel × List Nat → Kernel × List Nat)
    (stepK : Nat → Kernel → Kernel) (P : Nat → Prop)
    (hstep : ∀ c k log, k.tables = tables →
      ∃ L, step c (k, log) = (stepK c k, L ++ log) ∧ (∀ l ∈ L, P l) ∧
        (stepK c k).tables = tables) :
    ∀ (l : List Nat) (k : Kernel) (log : List Nat), k.tables = tables →
      ∃ L, l.foldl (fun s i =>
          if (s.1.tables table i).physial_address ≠ 0 then
            step (UtilVaFromPfn (s.1.tables table i).physial_address) s
          else s) (k, log) =
        (l.foldl (fun k i =>
          if (k.tables table i).physial_address ≠ 0 then
            stepK (UtilVaFromPfn (k.tables table i).physial_address) k
          else k) k, L ++ log) ∧ ∀ x ∈ L, P x := by
  intro l
  induction l with
  | nil => intro k log _; exact ⟨[], by simp, by simp⟩
  | cons i rest ih =>
    intro k log hk
    subst hk
    simp only [List.foldl_cons]
    by_cases hp : (k.tables table i).physial_address ≠ 0
    · obtain ⟨L1, hs, hP1, ht⟩ := hstep (UtilVaFromPfn (k.tables table i).physial_address) k
        log rfl
      simp only [if_pos hp]
      rw [hs]
      obtain ⟨L2, h2, hP2⟩ := ih _ (L1 ++ log) ht
      refine ⟨L2 ++ L1, ?_, ?_⟩
      · rw [h2, List.append_assoc]
      · intro x hx
        rcases List.mem_append.1 hx with h | h
        · exact hP2 x h
        · exact hP1 x h
    · simp only [if_neg hp]
      exact ih k log rfl

/-- The leveled destructor at level 2 is the destructor; the one call is
logged. -/
theorem leveled_two (table : Nat) (k : Kernel) (log : List Nat) :
    EptpDestructTables.leveled 2 table (k, log) = (EptpDestructTables 2 table k, 2 :: log) := by
  obtain ⟨L, hf, hP⟩ := leveled_fold k.tables table
    (fun c s => (ExFreePoolWithTag c s.1, s.2)) (fun c k => ExFreePoolWithTag c k)
    (fun _ => False)
    (by intro c k1 log1 hk; exact ⟨[], by simp, by simp, hk⟩) (List.range 512) k (2 :: log) rfl
  have hL : L = [] := by
    cases L with
    | nil => rfl
    | cons x _ => exact absurd (hP x (List.mem_cons_self _ _)) id
  subst hL
  simp only [EptpDestructTables.leveled, EptpDestructTables, Nat.reduceAdd, Nat.reduceEqDiff,
    or_self, if_false, if_true, List.nil_append] at hf ⊢
  rw [hf]

/-- The leveled destructor at level 3 is the destructor; the levels logged are
3 and 2. -/
theorem leveled_three (table : Nat) (k : Kernel) (log : List Nat) :
    ∃ L, EptpDestructTables.leveled 3 table (k, log) = (EptpDestructTables 3 table k, L ++ log) ∧
      ∀ l ∈ L, l = 3 ∨ l = 2 := by
  obtain ⟨L, hf, hP⟩ := leveled_fold k.tables table
    (fun c s => EptpDestructTables.leveled 2 c s) (fun c k => EptpDestructTables 2 c k)
    (fun l => l = 3 ∨ l = 2)
    (by
      intro c k1 log1 hk
      refine ⟨[2], ?_, by simp, by rw [destruct_tables 1 (by omega) c k1, hk]⟩
      show EptpDestructTables.leveled 2 c (k1, log1) = _
      rw [leveled_two]; rfl)
    (List.range 512) k (3 :: log) rfl
  refine ⟨L ++ [3], ?_, ?_⟩
  · simp only [EptpDestructTables.leveled, EptpDestructTables, Nat.reduceAdd, Nat.reduceEqDiff,
      or_true, if_true] at hf ⊢
    rw [hf]
    simp
  · intro l hl
    rcases List.mem_append.1 hl with h | h
    · exact hP l h
    · simp only [List.mem_singleton] at h
      exact Or.inl h

/-- The leveled destructor at level 4 is the destructor; the levels logged are
4, 3 and 2. -/
theorem leveled_four (table : Nat) (k : Kernel) (log : List Nat) :
    ∃ L, EptpDestructTables.leveled 4 table (k, log) = (EptpDestructTables 4 table k, L ++ log) ∧
      ∀ l ∈ L, l = 4 ∨ l = 3 ∨ l = 2 := by
  obtain ⟨L, hf, hP⟩ := leveled_fold k.tables table
    (fun c s => EptpDestructTables.leveled 3 c s) (fun c k => EptpDestructTables 3 c k)
    (fun l => l = 4 ∨ l = 3 ∨ l = 2)
    (by
      intro c k1 log1 hk
      obtain ⟨L3, h3, hP3⟩ := leveled_three c k1 log1
      exact ⟨L3, h3, fun l hl => Or.inr (hP3 l hl),
        by rw [destruct_tables 2 (by omega) c k1, hk]⟩)
    (List.range 512) k (4 :: log) rfl
  refine ⟨L ++ [4], ?_, ?_⟩
  · simp only [EptpDestructTables.leveled, EptpDestructTables, Nat.reduceAdd, Nat.reduceEqDiff,
      true_or, if_true] at hf ⊢
    rw [hf]
    simp
  · intro l hl
    rcases List.mem_append.1 hl with h | h
    · exact hP l h
    · simp only [List.mem_singleton] at h
      exact Or.inl h

/-- Called with a level outside 1 to 4, the constructor and the lookup return
null and leave the state as it is. -/
theorem walkers_outside_levels (level table pa : Nat) (ed : Option EptData) (k : Kernel)
    (h : level = 0 ∨ 4 < level) :
    EptpConstructTables level table pa ed k = .ok (none, ed, k) ∧
      EptpGetEptPtEntry k level table pa = none := by
  cases level with
  | zero => exact ⟨rfl, rfl⟩
  | succ n =>
    have h4 : ¬ (n + 1 = 4) := by omega
    have h3 : ¬ (n + 1 = 3) := by omega
    have h2 : ¬ (n + 1 = 2) := by omega
    have h1 : ¬ (n + 1 = 1) := by omega
    constructor
    · simp only [EptpConstructTables, h4, h3, h2, h1, if_false]
    · simp only [EptpGetEptPtEntry, h4, h3, h2, h1, if_false]

/-- C23: the three walkers are total functions, defined by recursion on the
level, and from level 4 they stay within the levels of their switch.  The
traced variants are the walkers with a ghost log of the levels of the calls,
latest first.  From level 4, `EptpConstructTables` calls itself at the levels
4, 3, 2, 1 as far as the allocations succeed, and at all four when it returns
an entry; `EptpGetEptPtEntry` calls itself at the levels 4, 3, 2, 1;
`EptpDestructTables` calls itself at the levels 4, 3 and 2 only.  So no call
reaches a default branch: that of the constructor and of the lookup is the
branch of the levels outside 1 to 4, that of the destructor needs a call at a
level outside 2 to 4.  `EptGetEptPtEntry` enters the lookup at level 4, as do
`EptInitialization`, `EptHandleEptViolation` and `EptTermination` their
walkers.  Called with a level outside 1 to 4, the constructor and the lookup
return null and the state is as before. -/
theorem walkers_stay_within_levels (root pa : Nat) (ed : Option EptData) (k : Kernel)
    (d : EptData) :
    (EptpConstructTables.traced 4 root pa ed k []).1 = EptpConstructTables 4 root pa ed k ∧
    (EptpConstructTables.traced 4 root pa ed k []).2 ∈
      [[4], [3, 4], [2, 3, 4], [1, 2, 3, 4]] ∧
    (∀ slot ed1 k1, EptpConstructTables 4 root pa ed k = .ok (some slot, ed1, k1) →
      (EptpConstructTables.traced 4 root pa ed k []).2 = [1, 2, 3, 4]) ∧
    EptpGetEptPtEntry.traced k 4 root pa [] = (EptpGetEptPtEntry k 4 root pa, [1, 2, 3, 4]) ∧
    EptGetEptPtEntry k d pa = EptpGetEptPtEntry k 4 d.ept_pml4 pa ∧
    (∃ L, EptpDestructTables.leveled 4 root (k, []) = (EptpDestructTables 4 root k, L) ∧
      ∀ l ∈ L, l = 4 ∨ l = 3 ∨ l = 2) ∧
    (∀ level table, level = 0 ∨ 4 < level →
      EptpConstructTables level table pa ed k = .ok (none, ed, k) ∧
      EptpGetEptPtEntry k level table pa = none ∧
      (EptpConstructTables.traced level table pa ed k []).2 = [level] ∧
      (EptpGetEptPtEntry.traced k level table pa []).2 = [level]) := by
  obtain ⟨L, hL, hP⟩ := leveled_four root k []
  refine ⟨construct_traced_fst 4 root pa ed k [], (construct_traced_log root pa ed k).1,
    (construct_traced_log root pa ed k).2, lookup_traced k root pa, rfl,
    ⟨L, by simpa using hL, hP⟩, ?_⟩
  intro level table h
  obtain ⟨a, b⟩ := walkers_outside_levels level table pa ed k h
  refine ⟨a, b, ?_, ?_⟩
  · cases level with
    | zero => rfl
    | succ n =>
      have h4 : ¬ (n + 1 = 4) := by omega
      have h3 : ¬ (n + 1 = 3) := by omega
      have h2 : ¬ (n + 1 = 2) := by omega
      have h1 : ¬ (n + 1 = 1) := by omega
      simp only [EptpConstructTables.traced, h4, h3, h2, h1, if_false]
  · cases level with
    | zero => rfl
    | succ n =>
      have h4 : ¬ (n + 1 = 4) := by omega
      have h3 : ¬ (n + 1 = 3) := by omega
      have h2 : ¬ (n + 1 = 2) := by omega
      have h1 : ¬ (n + 1 = 1) := by omega
      simp only [EptpGetEptPtEntry.traced, h4, h3, h2, h1, if_false]

/-! ## Consumption of the pre-allocated pool -/

theorem eptData_eta (d : EptData) (c : Int) (hc : d.preallocated_entries_count = c) :
    { d with preallocated_entries_count := c } = d := by
  cases d
  simp only at hc
  subst hc
  rfl

/-- In runtime context, with a pool without null entries and the counter at
`c` of at most 50, the block of cases 4, 3 and 2 that returns, returns a table
and moves the counter by one at most; it returns when the counter is below
50. -/
theorem enter_runtime_full (t lvl i : Nat) (d : EptData) (k : Kernel) (L : List Nat) (c : Nat)
    (harr : d.preallocated_array = L.map some) (hlen : L.length = 50) (hc : c ≤ 50) :
    (∀ r ed1 k1, EptpConstructTables.enter t lvl i
        (some { d with preallocated_entries_count := (c : Int) }) k = .ok (r, ed1, k1) →
      ∃ (x c1 : Nat), r = some x ∧
        ed1 = some { d with preallocated_entries_count := (c1 : Int) } ∧
        c ≤ c1 ∧ c1 ≤ c + 1 ∧ c1 ≤ 50) ∧
    (c < 50 → ∃ x ed1 k1, EptpConstructTables.enter t lvl i
        (some { d with preallocated_entries_count := (c : Int) }) k = .ok (some x, ed1, k1)) := by
  by_cases hslot : (k.tables t i).all = 0
  · rcases Nat.lt_or_ge c 50 with hlt | hge
    · have hal := allocate_in_range d k c L harr hlen hlt
      have hcl : c < L.length := by omega
      rw [List.getElem?_eq_getElem hcl] at hal
      have he : EptpConstructTables.enter t lvl i
          (some { d with preallocated_entries_count := (c : Int) }) k =
          .ok (some (UtilVaFromPfn ((k.store t i (EptpInitTableEntry (k.tables t i) lvl
            (UtilPaFromVa L[c]))).tables t i).physial_address),
            some { d with preallocated_entries_count := (c : Int) + 1 },
            k.store t i (EptpInitTableEntry (k.tables t i) lvl (UtilPaFromVa L[c]))) := by
        unfold EptpConstructTables.enter
        rw [if_pos hslot, hal]
      constructor
      · intro r ed1 k1 h
        rw [he] at h
        simp only [Except.ok.injEq, Prod.mk.injEq] at h
        obtain ⟨rfl, rfl, rfl⟩ := h
        exact ⟨_, c + 1, rfl, by push_cast; rfl, by omega, by omega, by omega⟩
      · intro _
        exact ⟨_, _, _, he⟩
    · have herr := fromPreAllocated_exhausted
        { d with preallocated_entries_count := (c : Int) } (c : Int) rfl
        (by simp only [kVmxpNumberOfPreallocatedEntries]; exact_mod_cast hge) (by omega)
      have he : EptpConstructTables.enter t lvl i
          (some { d with preallocated_entries_count := (c : Int) }) k =
          .error (.exhaustedPreallocatedEntries ((c : Int) + 1)) := by
        unfold EptpConstructTables.enter
        rw [if_pos hslot, allocate_of_exhausted _ k _ herr]
      constructor
      · intro r ed1 k1 h
        rw [he] at h
        exact absurd h (by simp)
      · intro hlt; omega
  · have he := enter_present t lvl i (some { d with preallocated_entries_count := (c : Int) }) k
      hslot
    constructor
    · intro r ed1 k1 h
      rw [he] at h
      simp only [Except.ok.injEq, Prod.mk.injEq] at h
      obtain ⟨rfl, rfl, rfl⟩ := h
      exact ⟨_, c, rfl, rfl, le_refl _, by omega, hc⟩
    · intro _
      exact ⟨_, _, _, he⟩

/-- In runtime context, with a pool without null entries and the counter at
`c` of at most 50, a call of `EptpConstructTables` from level 4 that returns,
returns an entry and moves the counter by three at most; it returns when the
counter is at most 47. -/
theorem construct_runtime_full (root pa : Nat) (d : EptData) (k : Kernel) (L : List Nat)
    (c : Nat) (harr : d.preallocated_array = L.map some) (hlen : L.length = 50)
    (hc : c ≤ 50) :
    (∀ r ed1 k1, EptpConstructTables 4 root pa
        (some { d with preallocated_entries_count := (c : Int) }) k = .ok (r, ed1, k1) →
      ∃ (slot : Nat × Nat) (c1 : Nat), r = some slot ∧
        ed1 = some { d with preallocated_entries_count := (c1 : Int) } ∧
        c ≤ c1 ∧ c1 ≤ c + 3 ∧ c1 ≤ 50) ∧
    (c + 3 ≤ 50 → ∃ slot ed1 k1, EptpConstructTables 4 root pa
        (some { d with preallocated_entries_count := (c : Int) }) k =
        .ok (some slot, ed1, k1)) := by
  obtain ⟨a4, b4⟩ := enter_runtime_full root 4 (EptpAddressToPxeIndex pa) d k L c harr hlen hc
  have hunf : EptpConstructTables 4 root pa
      (some { d with preallocated_entries_count := (c : Int) }) k =
      match EptpConstructTables.enter root 4 (EptpAddressToPxeIndex pa)
        (some { d with preallocated_entries_count := (c : Int) }) k with
      | .error f => .error f
      | .ok (none, d1, k1) => .ok (none, d1, k1)
      | .ok (some ept_pdpt, d1, k1) => EptpConstructTables 3 ept_pdpt pa d1 k1 := rfl
  rw [hunf]
  rcases h4 : EptpConstructTables.enter root 4 (EptpAddressToPxeIndex pa)
    (some { d with preallocated_entries_count := (c : Int) }) k with f | ⟨_ | c3, d3, k3⟩
  · refine ⟨fun r ed1 k1 h => absurd h (by simp), fun hlt => ?_⟩
    obtain ⟨x, e1, k1, hx⟩ := b4 (by omega)
    rw [h4] at hx; exact absurd hx (by simp)
  · obtain ⟨x, c1, hx, -⟩ := a4 _ _ _ h4
    exact absurd hx (by simp)
  obtain ⟨x, c1, -, rfl, h1a, h1b, h1c⟩ := a4 _ _ _ h4
  obtain ⟨a3, b3⟩ := enter_runtime_full c3 3 (EptpAddressToPpeIndex pa) d k3 L c1 harr hlen h1c
  have hunf3 : EptpConstructTables 3 c3 pa
      (some { d with preallocated_entries_count := (c1 : Int) }) k3 =
      match EptpConstructTables.enter c3 3 (EptpAddressToPpeIndex pa)
        (some { d with preallocated_entries_count := (c1 : Int) }) k3 with
      | .error f => .error f
      | .ok (none, d1, k1) => .ok (none, d1, k1)
      | .ok (some ept_pdt, d1, k1) => EptpConstructTables 2 ept_pdt pa d1 k1 := rfl
  simp only
  rw [hunf3]
  rcases h3 : EptpConstructTables.enter c3 3 (EptpAddressToPpeIndex pa)
    (some { d with preallocated_entries_count := (c1 : Int) }) k3 with f | ⟨_ | c2, d2, k2⟩
  · refine ⟨fun r ed1 k1 h => absurd h (by simp), fun hlt => ?_⟩
    obtain ⟨x, e1, k1, hx⟩ := b3 (by omega)
    rw [h3] at hx; exact absurd hx (by simp)
  · obtain ⟨x, c2', hx, -⟩ := a3 _ _ _ h3
    exact absurd hx (by simp)
  obtain ⟨x, c2', -, rfl, h2a, h2b, h2c⟩ := a3 _ _ _ h3
  obtain ⟨a2, b2⟩ := enter_runtime_full c2 2 (EptpAddressToPdeIndex pa) d k2 L c2' harr hlen
    h2c
  have hunf2 : EptpConstructTables 2 c2 pa
      (some { d with preallocated_entries_count := (c2' : Int) }) k2 =
      match EptpConstructTables.enter c2 2 (EptpAddressToPdeIndex pa)
        (some { d with preallocated_entries_count := (c2' : Int) }) k2 with
      | .error f => .error f
      | .ok (none, d1, k1) => .ok (none, d1, k1)
      | .ok (some ept_pt, d1, k1) => EptpConstructTables 1 ept_pt pa d1 k1 := rfl
  simp only
  rw [hunf2]
  rcases h2 : EptpConstructTables.enter c2 2 (EptpAddressToPdeIndex pa)
    (some { d with preallocated_entries_count := (c2' : Int) }) k2 with f | ⟨_ | c1', d1, k1'⟩
  · refine ⟨fun r ed1 k1 h => absurd h (by simp), fun hlt => ?_⟩
    obtain ⟨x, e1, k1, hx⟩ := b2 (by omega)
    rw [h2] at hx; exact absurd hx (by simp)
  · obtain ⟨x, c3', hx, -⟩ := a2 _ _ _ h2
    exact absurd hx (by simp)
  obtain ⟨x, c3', -, rfl, h3a, h3b, h3c⟩ := a2 _ _ _ h2
  simp only [EptpConstructTables, Nat.reduceAdd, Nat.reduceEqDiff, if_false, if_true,
    OfNat.ofNat_ne_one, Nat.succ_ne_self, Except.ok.injEq, Prod.mk.injEq]
  refine ⟨fun r ed1 k1 h => ?_, fun _ => ⟨_, _, _, rfl, rfl, rfl⟩⟩
  obtain ⟨rfl, rfl, rfl⟩ := h
  exact ⟨_, c3', rfl, rfl, by omega, by omega, h3c⟩

/-- The tables a call that returns an entry links in are as many as the
tables missing on the path of the address. -/
theorem construct_new_length {k : Kernel} {root : Nat} {owned : List Nat}
    {ed : Option EptData} {pa : Nat} {slot : Nat × Nat} {ed1 : Option EptData} {k1 : Kernel}
    (hinv : TreeInv k root owned (upcoming ed k)) (hz : PoolZeroed ed k)
    (h : EptpConstructTables 4 root pa ed k = .ok (some slot, ed1, k1)) :
    ∃ new : List Nat, upcoming ed k = new.reverse ++ upcoming ed1 k1 ∧
      new.length = absentTables k root pa := by
  obtain ⟨new, n, hd, hinv1, -, hup, hsome, -⟩ := construct_frame hinv hz h
  obtain ⟨rfl, t1, -, hw1, -⟩ := hsome slot rfl
  refine ⟨new, hup, ?_⟩
  have hnd1 : (new ++ owned).Nodup := (List.nodup_append.1 hinv1.nodup).1
  have hdisj : ∀ x, x ∈ new → x ∉ owned := fun x hx ho =>
    (List.nodup_append.1 hnd1).2.2 hx ho
  have hpre : ∀ m, m < 3 → ∃ s, walk k1 root ((pathOf pa).take (m + 1)) = some s := by
    intro m hm
    have : pathOf pa = (pathOf pa).take (m + 1) ++ (pathOf pa).drop (m + 1) :=
      (List.take_append_drop _ _).symm
    rw [this] at hw1
    exact walk_prefix k1 root _ _ t1 hw1
  have hlenle : ∀ m, m < 3 → ((pathOf pa).take (m + 1)).length ≤ 3 := by
    intro m hm
    rw [length_take_pathOf pa (m + 1) (by omega)]; omega
  -- the table the new tree has at an absent depth
  let f : Nat → Nat := fun m => (walk k1 root ((pathOf pa).take (m + 1))).getD 0
  have hf : ∀ m, m < 3 → walk k1 root ((pathOf pa).take (m + 1)) = some (f m) := by
    intro m hm
    obtain ⟨s, hs⟩ := hpre m hm
    simp only [f, hs, Option.getD_some]
  have hA : ∀ m, m ∈ (List.range 3).filter
      (fun m => (walk k root ((pathOf pa).take (m + 1))).isNone) ↔
      m < 3 ∧ walk k root ((pathOf pa).take (m + 1)) = none := by
    intro m
    simp [List.mem_filter]
  have hperm : new.Perm (((List.range 3).filter
      (fun m => (walk k root ((pathOf pa).take (m + 1))).isNone)).map f) := by
    rw [List.perm_ext_iff_of_nodup (List.nodup_append.1 hnd1).1]
    · intro x
      simp only [List.mem_map, hA]
      constructor
      · intro hx
        obtain ⟨q, hq, hwq⟩ := (hinv1.reach x).2 (List.mem_append_left _ hx)
        rcases hd.reflected q x hq hwq with h0 | ⟨-, m1, hm0, -, hm3, hqm⟩
        · exact absurd ((hinv.reach x).1 ⟨q, hq, h0⟩) (hdisj x hx)
        · obtain ⟨m, rfl⟩ : ∃ m, m1 = m + 1 := ⟨m1 - 1, by omega⟩
          refine ⟨m, ⟨by omega, ?_⟩, ?_⟩
          · cases h0 : walk k root ((pathOf pa).take (m + 1)) with
            | none => rfl
            | some y =>
              have h1 := hd.kept _ _ (hlenle m (by omega)) h0
              rw [← hqm, hwq] at h1
              simp only [Option.some.injEq] at h1
              subst h1
              exact absurd ((hinv.reach x).1 ⟨_, hlenle m (by omega), h0⟩) (hdisj x hx)
          · have := hf m (by omega)
            rw [← hqm, hwq] at this
            exact (Option.some.inj this).symm
      · rintro ⟨m, ⟨hm, hnone⟩, rfl⟩
        rcases hd.reflected _ _ (hlenle m hm) (hf m hm) with h0 | ⟨h0, -⟩
        · rw [hnone] at h0; exact absurd h0 (by simp)
        · exact h0
    · apply List.Nodup.map_on
      · intro a ha b hb hab
        rw [hA] at ha hb
        have h1 := hf a ha.1
        have h2 := hf b hb.1
        rw [hab] at h1
        have := hinv1.depth_unique (by omega) (by omega) h1 h2
        omega
      · exact (List.nodup_range 3).filter _
  have := hperm.length_eq
  rw [List.length_map] at this
  exact this

theorem absentTables_le (k : Kernel) (root pa : Nat) : absentTables k root pa ≤ 3 := by
  unfold absentTables
  exact (List.length_filter_le _ _).trans (by simp)

theorem absentTables_of_path (k : Kernel) (root pa t1 : Nat)
    (h : walk k root (pathOf pa) = some t1) : absentTables k root pa = 0 := by
  unfold absentTables
  rw [List.length_eq_zero, List.filter_eq_nil_iff]
  intro m hm
  simp only [List.mem_range] at hm
  have : pathOf pa = (pathOf pa).take (m + 1) ++ (pathOf pa).drop (m + 1) :=
    (List.take_append_drop _ _).symm
  rw [this] at h
  obtain ⟨s, hs⟩ := walk_prefix k root _ _ t1 h
  simp [hs]

/-- With a pool without null entries, a sequence of entry-miss faults that
starts with room for three tables per fault is handled without bug check. -/
theorem missMany_ok (pm_ranges : List PhysicalMemoryRun) (d : EptData) (L : List Nat)
    (harr : d.preallocated_array = L.map some) (hlen : L.length = 50) :
    ∀ (pas : List Nat) (c : Nat) (k : Kernel), c + 3 * pas.length ≤ 50 →
      ∃ (c1 : Nat) (k1 : Kernel),
        EptHandleEptViolation.missMany pm_ranges pas
          { d with preallocated_entries_count := (c : Int) } k =
          .ok ({ d with preallocated_entries_count := (c1 : Int) }, k1) ∧
        c ≤ c1 ∧ c1 ≤ c + 3 * pas.length := by
  intro pas
  induction pas with
  | nil =>
    intro c k _
    exact ⟨c, k, rfl, le_refl _, by omega⟩
  | cons pa rest ih =>
    intro c k hc
    simp only [List.length_cons] at hc
    generalize hk0 : (if EptpIsDeviceMemory pm_ranges pa then k else k.assertFailed) = k0
    obtain ⟨a, b⟩ := construct_runtime_full d.ept_pml4 pa d k0 L c harr hlen (by omega)
    obtain ⟨slot, ed1, k1, hcon⟩ := b (by omega)
    obtain ⟨slot1, c1, -, rfl, h1, h2, h3⟩ := a _ _ _ hcon
    have hmiss : EptHandleEptViolation.miss pm_ranges
        { d with preallocated_entries_count := (c : Int) } k pa =
        .ok ({ d with preallocated_entries_count := (c1 : Int) }, k1, [Event.inveptAll]) := by
      unfold EptHandleEptViolation.miss
      simp only [hk0]
      rw [hcon]
      rfl
    obtain ⟨c2, k2, hrest, h4, h5⟩ := ih c1 k1 (by omega)
    refine ⟨c2, k2, ?_, by omega, by simp only [List.length_cons]; omega⟩
    simp only [EptHandleEptViolation.missMany, hmiss]
    exact hrest

theorem wellFormed_assertFailed {k : Kernel} {root : Nat} {ed : Option EptData}
    (h : WellFormed k root ed) : WellFormed k.assertFailed root ed := by
  obtain ⟨⟨owned, hinv⟩, hz⟩ := h
  refine ⟨⟨owned, ?_⟩, ?_⟩
  · rw [upcoming_assertFailed]
    exact hinv.congr rfl
  · intro d hd
    obtain ⟨h0, h1, h2, h3⟩ := hz d hd
    refine ⟨h0, h1, h2, ?_⟩
    intro t ht j
    rw [upcoming_assertFailed] at ht
    exact h3 t ht j

/-- C21: in a well-formed runtime state whose pool has no null entry, a call
`EptpConstructTables(pml4, 4, address, state)` that returns, returns an entry
and has moved the consumption counter by the number of tables missing on the
path of the address, which is at most 3 and is 0 when the path to the page
table exists; the same holds of one entry-miss fault handled by
`EptHandleEptViolation`; and from the counter 0 every sequence of at most 16
entry-miss faults is handled without bug check and leaves the counter at three
times the number of faults at most, hence at 48 at most. -/
theorem pool_consumption_per_fault (d : EptData) (k : Kernel) (L : List Nat)
    (hwf : WellFormed k d.ept_pml4 (some d)) (harr : d.preallocated_array = L.map some) :
    (∀ pa r ed1 k1, EptpConstructTables 4 d.ept_pml4 pa (some d) k = .ok (r, ed1, k1) →
      ∃ d1, ed1 = some d1 ∧ r ≠ none ∧
        d1.preallocated_entries_count =
          d.preallocated_entries_count + absentTables k d.ept_pml4 pa ∧
        absentTables k d.ept_pml4 pa ≤ 3 ∧
        (∀ t1, walk k d.ept_pml4 (pathOf pa) = some t1 →
          d1.preallocated_entries_count = d.preallocated_entries_count)) ∧
    (∀ pm_ranges pa d1 k1 evs,
      EptHandleEptViolation.miss pm_ranges d k pa = .ok (d1, k1, evs) →
      d1.preallocated_entries_count =
        d.preallocated_entries_count + absentTables k d.ept_pml4 pa) ∧
    (∀ pm_ranges pas, d.preallocated_entries_count = 0 → pas.length ≤ 16 →
      ∃ d1 k1, EptHandleEptViolation.missMany pm_ranges pas d k = .ok (d1, k1) ∧
        0 ≤ d1.preallocated_entries_count ∧
        d1.preallocated_entries_count ≤ 3 * pas.length ∧
        d1.preallocated_entries_count ≤ 48) := by
  have hlen : L.length = 50 := by
    have := (hwf.2 d rfl).2.2.1
    rw [harr, List.length_map] at this
    exact this
  obtain ⟨c, hc⟩ := Int.eq_ofNat_of_zero_le (hwf.2 d rfl).1
  have hc50 : c ≤ 50 := by
    have := (hwf.2 d rfl).2.1
    rw [hc] at this
    simp only [kVmxpNumberOfPreallocatedEntries] at this
    exact_mod_cast this
  have hd : { d with preallocated_entries_count := (c : Int) } = d := eptData_eta d _ hc
  have hone : ∀ (k0 : Kernel), WellFormed k0 d.ept_pml4 (some d) →
      ∀ pa r ed1 k1, EptpConstructTables 4 d.ept_pml4 pa (some d) k0 = .ok (r, ed1, k1) →
      ∃ d1, ed1 = some d1 ∧ r ≠ none ∧
        d1.preallocated_entries_count =
          d.preallocated_entries_count + absentTables k0 d.ept_pml4 pa := by
    intro k0 hwf0 pa r ed1 k1 h
    obtain ⟨⟨owned, hinv⟩, hz⟩ := hwf0
    obtain ⟨a, -⟩ := construct_runtime_full d.ept_pml4 pa d k0 L c harr hlen hc50
    rw [hd] at a
    obtain ⟨slot, c1, rfl, rfl, h1, h2, h3⟩ := a _ _ _ h
    obtain ⟨new, hup, hnew⟩ := construct_new_length hinv hz h
    have hup0 : upcoming (some d) k0 = L.drop c := by
      rw [← hd]; exact upcoming_map_some d k0 L c harr
    rw [hup0, upcoming_map_some d k1 L c1 harr] at hup
    have hl := congrArg List.length hup
    simp only [List.length_drop, List.length_append, List.length_reverse, hlen] at hl
    refine ⟨_, rfl, by simp, ?_⟩
    simp only
    rw [hc, ← hnew]
    have : c1 = c + new.length := by omega
    rw [this]
    push_cast
    rfl
  refine ⟨?_, ?_, ?_⟩
  · intro pa r ed1 k1 h
    obtain ⟨d1, h1, h2, h3⟩ := hone k hwf pa r ed1 k1 h
    refine ⟨d1, h1, h2, h3, absentTables_le _ _ _, ?_⟩
    intro t1 ht
    rw [h3, absentTables_of_path k _ pa t1 ht]
    simp
  · intro pm_ranges pa d1 k1 evs h
    unfold EptHandleEptViolation.miss at h
    generalize hk0 : (if EptpIsDeviceMemory pm_ranges pa then k else k.assertFailed) = k0 at h
    have hwf0 : WellFormed k0 d.ept_pml4 (some d) := by
      rw [← hk0]; split
      · exact hwf
      · exact wellFormed_assertFailed hwf
    have hab : absentTables k0 d.ept_pml4 pa = absentTables k d.ept_pml4 pa := by
      have ht : k0.tables = k.tables := by rw [← hk0]; split <;> rfl
      simp only [absentTables, walk_congr k k0 ht]
    simp only at h
    rcases hcon : EptpConstructTables 4 d.ept_pml4 pa (some d) k0 with f | ⟨r, ed1, k2⟩
    · rw [hcon] at h; exact absurd h (by simp)
    · rw [hcon] at h
      simp only [Except.ok.injEq, Prod.mk.injEq] at h
      obtain ⟨d2, rfl, -, h3⟩ := hone k0 hwf0 pa r ed1 k2 hcon
      simp only [Option.getD_some] at h
      rw [← h.1, h3, hab]
  · intro pm_ranges pas h0 hp
    have hc0 : c = 0 := by
      rw [h0] at hc
      exact_mod_cast hc.symm
    subst hc0
    obtain ⟨c1, k1, hm, -, h2⟩ := missMany_ok pm_ranges d L harr hlen pas 0 k (by omega)
    rw [hd] at hm
    refine ⟨_, k1, hm, ?_, ?_, ?_⟩
    · simp only; omega
    · simp only
      have : c1 ≤ 3 * pas.length := by omega
      exact_mod_cast this
    · simp only
      have : c1 ≤ 48 := by omega
      exact_mod_cast this

theorem sampleData_wellFormed :
    WellFormed (sampleKernel 0 0) (sampleData 0).ept_pml4 (some (sampleData 0)) := by
  refine ⟨⟨[1], TreeInv.empty (fun _ => rfl) (by decide) (by decide)⟩, ?_⟩
  intro d hd
  simp only [Option.some.injEq] at hd
  subst hd
  exact ⟨by decide, by decide, by decide, fun _ _ _ => rfl⟩

/-- Witness of C21: on the empty tree of `sampleData 0`, whose 50 pool
entries are the blocks 2 to 51, the three tables on the path of the address
0x1000 are missing, and the call that constructs it moves the counter from 0
to 3. -/
theorem pool_consumption_per_fault_witness :
    WellFormed (sampleKernel 0 0) (sampleData 0).ept_pml4 (some (sampleData 0)) ∧
    (sampleData 0).preallocated_array = ((List.range 50).map (fun i => i + 2)).map some ∧
    absentTables (sampleKernel 0 0) (sampleData 0).ept_pml4 0x1000 = 3 ∧
    ∃ k1, EptpConstructTables 4 (sampleData 0).ept_pml4 0x1000 (some (sampleData 0))
        (sampleKernel 0 0) = .ok (some (4, 1), some (sampleData 3), k1) ∧
      ∃ d1, some (sampleData 3) = some d1 ∧
        d1.preallocated_entries_count = (sampleData 0).preallocated_entries_count +
          absentTables (sampleKernel 0 0) (sampleData 0).ept_pml4 0x1000 :=
  ⟨sampleData_wellFormed, by decide, by decide, _, rfl,
    ((pool_consumption_per_fault (sampleData 0) (sampleKernel 0 0)
      ((List.range 50).map (fun i => i + 2)) sampleData_wellFormed (by decide)).1
      0x1000 _ _ _ rfl).elim (fun d1 h => ⟨d1, h.1, h.2.2.1⟩)⟩

end Ept
